import Mathlib

/-!
# Quadtree over an indexed free list

A shallow embedding of `FreeList.h` / `FreeList.cpp` (the arena allocator) and of
`quadtree.cpp` (the region quadtree built on three arenas), followed by theorems
about the embedded code.

Conventions of the embedding.

* C++ `int` values are `Int`.  Signed overflow is undefined behaviour in the
  source and no operation below relies on wrap-around, so no modulus is applied.
* `std::vector` is a `List`; an index is an `Int` that is converted with
  `Int.toNat` after a sign check.
* Every access the source performs without a check (an index outside the vector,
  the inactive member of the `FreeElement` union) is undefined behaviour in the
  source and is a `Fault` here: the functions return `Except Fault _`.
* Loops and the `nodeInsert`/`leafInsert` recursion take a `fuel : Nat`; running
  out of it is the separate fault `Fault.outOfFuel`.
* References into a vector (`QuadNode & node = nodes[nodeIndex]`) are modelled as
  the index they denote.
-/

namespace QuadtreeModel

/-- Ways in which an embedded operation fails to produce a result. -/
inductive Fault where
  /-- An index outside `[0, size)` was used on a vector. -/
  | outOfRange
  /-- The inactive member of a `FreeElement` union was accessed. -/
  | inactiveMember
  /-- The step budget of a loop or of the recursion was exhausted. -/
  | outOfFuel
  deriving DecidableEq, Repr

deriving instance DecidableEq for Except

/-! ## FreeList.h / FreeList.cpp -/

/-- The `union FreeElement { T element; int next; }` of `FreeList.h`, with the
active member made explicit. -/
inductive FreeElement (T : Type) where
  | element (e : T)
  | next (n : Int)
  deriving DecidableEq, Repr

/-- The `FreeList<T>` class: the slot vector `data` and the head `first_free`
of the chain of erased slots (`-1` when the chain is empty). -/
structure FreeList (T : Type) where
  data : List (FreeElement T)
  first_free : Int
  deriving DecidableEq, Repr

namespace FreeList

variable {T : Type}

/-- The constructor `FreeList<T>::FreeList() : first_free(-1)`. -/
def empty : FreeList T := ⟨[], -1⟩

/-- The slot `data[n]`, when `n` is inside the vector. -/
def slot (fl : FreeList T) (n : Int) : Option (FreeElement T) :=
  if n < 0 then none else fl.data[n.toNat]?

/-- The method `FreeList<T>::size`: the length of `data`. -/
def size (fl : FreeList T) : Int := fl.data.length

/-- The method `FreeList<T>::insert`: pops the head of the free chain when there is
one (reading its `next` member), otherwise appends; returns the index used. -/
def insert (fl : FreeList T) (element : T) : Except Fault (Int × FreeList T) :=
  if fl.first_free ≠ -1 then
    match fl.slot fl.first_free with
    | none => .error .outOfRange
    | some (.element _) => .error .inactiveMember
    | some (.next nx) =>
      .ok (fl.first_free, ⟨fl.data.set fl.first_free.toNat (.element element), nx⟩)
  else
    .ok (fl.size, ⟨fl.data ++ [.element element], fl.first_free⟩)

/-- The method `FreeList<T>::erase`: `data[n].next = first_free; first_free = n`. -/
def erase (fl : FreeList T) (n : Int) : Except Fault (FreeList T) :=
  match fl.slot n with
  | none => .error .outOfRange
  | some _ => .ok ⟨fl.data.set n.toNat (.next fl.first_free), n⟩

/-- The accessor `FreeList<T>::operator[]`: `data[n].element`. -/
def get (fl : FreeList T) (n : Int) : Except Fault T :=
  match fl.slot n with
  | none => .error .outOfRange
  | some (.next _) => .error .inactiveMember
  | some (.element e) => .ok e

/-- A write through `operator[]`: `data[n].element = f (data[n].element)`. -/
def modify (fl : FreeList T) (n : Int) (f : T → T) : Except Fault (FreeList T) :=
  match fl.get n with
  | .error e => .error e
  | .ok v => .ok ⟨fl.data.set n.toNat (.element (f v)), fl.first_free⟩

/-- Following the `next` links from `h` visits exactly the slots `chain`, each of
them erased, and then reaches `-1`. -/
def isChain (fl : FreeList T) : Int → List Int → Bool
  | h, [] => h == -1
  | h, c :: cs =>
    h == c &&
      (match fl.slot c with
       | some (.next nx) => isChain fl nx cs
       | _ => false)

/-- The representation invariant of the arena: `chain` is the free chain that starts
at `first_free`, and no slot occurs in it twice. -/
def WF (fl : FreeList T) (chain : List Int) : Prop :=
  fl.isChain fl.first_free chain = true ∧ chain.Nodup

/-- A run of `insert` calls; returns the indices in the order they were returned. -/
def insertAll : FreeList T → List T → Except Fault (List Int × FreeList T)
  | fl, [] => .ok ([], fl)
  | fl, v :: vs =>
    match fl.insert v with
    | .error e => .error e
    | .ok (i, fl') =>
      match insertAll fl' vs with
      | .error e => .error e
      | .ok (is, fl'') => .ok (i :: is, fl'')

/-- A run of `erase` calls. -/
def eraseAll : FreeList T → List Int → Except Fault (FreeList T)
  | fl, [] => .ok fl
  | fl, n :: ns =>
    match fl.erase n with
    | .error e => .error e
    | .ok fl' => eraseAll fl' ns

/-- One call on an arena: `insert(v)` or `erase(n)`. -/
inductive Op (T : Type) where
  | insert (v : T)
  | erase (n : Int)

/-- A run of `insert` and `erase` calls; returns the indices the `insert` calls
returned. -/
def runOps : FreeList T → List (Op T) → Except Fault (List Int × FreeList T)
  | fl, [] => .ok ([], fl)
  | fl, .insert v :: ops =>
    match fl.insert v with
    | .error e => .error e
    | .ok (i, fl') =>
      match runOps fl' ops with
      | .error e => .error e
      | .ok (is, fl'') => .ok (i :: is, fl'')
  | fl, .erase n :: ops =>
    match fl.erase n with
    | .error e => .error e
    | .ok fl' => runOps fl' ops

/-- The slot `n` holds a value (it is inside the vector and not erased). -/
def isLive (fl : FreeList T) (n : Int) : Bool :=
  match fl.slot n with
  | some (.element _) => true
  | _ => false

/-- Every `erase` of the run targets a slot that is live when it is erased and that
is not `keep`. -/
def erasesLiveExcept (keep : Int) : FreeList T → List (Op T) → Bool
  | _, [] => true
  | fl, .insert v :: ops =>
    match fl.insert v with
    | .error _ => true
    | .ok (_, fl') => erasesLiveExcept keep fl' ops
  | fl, .erase n :: ops =>
    decide (n ≠ keep) && fl.isLive n &&
      match fl.erase n with
      | .error _ => true
      | .ok fl' => erasesLiveExcept keep fl' ops

end FreeList

/-! ## quadtree.cpp: records -/

/-- The record `struct QuadNode`. -/
structure QuadNode where
  firstChildIndex : Int
  count : Int
  deriving DecidableEq, Repr

/-- The record `struct QuadElementNode`. -/
structure QuadElementNode where
  nextIndex : Int
  elementIndex : Int
  deriving DecidableEq, Repr

/-- The record `struct QuadElement`. -/
structure QuadElement where
  id : Int
  x1 : Int
  y1 : Int
  x2 : Int
  y2 : Int
  deriving DecidableEq, Repr

/-- The record `struct QuadNodeData`. -/
structure QuadNodeData where
  nodeIndex : Int
  depth : Int
  mx : Int
  my : Int
  hx : Int
  hy : Int
  deriving DecidableEq, Repr

/-- The data members of `class Quadtree`. -/
structure Quadtree where
  maxDepth : Int
  maxElements : Int
  elements : FreeList QuadElement
  elementNodes : FreeList QuadElementNode
  nodes : FreeList QuadNode
  freeNodeIndex : Int
  tempBuffer : List Bool
  rootMx : Int
  rootMy : Int
  rootHx : Int
  rootHy : Int
  deriving DecidableEq, Repr

/-- The constructor `Quadtree::Quadtree`.  `freeNodeIndex` has no initialiser in the
source, so its indeterminate initial value is the extra argument `fni`; the only
statement of the body is `nodes.insert(QuadNode(-1, -1))`. -/
def Quadtree.new (width height maxElements maxDepth tempBufferSize fni : Int) :
    Except Fault Quadtree :=
  match (FreeList.empty : FreeList QuadNode).insert ⟨-1, -1⟩ with
  | .error e => .error e
  | .ok (_, nodes) =>
    .ok { maxDepth := maxDepth
          maxElements := maxElements
          elements := FreeList.empty
          elementNodes := FreeList.empty
          nodes := nodes
          freeNodeIndex := fni
          tempBuffer := List.replicate tempBufferSize.toNat false
          rootMx := width.tdiv 2
          rootMy := height.tdiv 2
          rootHx := width.tdiv 2
          rootHy := height.tdiv 2 }

/-- The static method `Quadtree::intersect`. -/
def intersect (x1A y1A x2A y2A x1B y1B x2B y2B : Int) : Bool :=
  decide (x1B ≤ x2A) && decide (x2B ≥ x1A) && decide (y1B ≤ y2A) && decide (y2B ≥ y1A)

/-- A conditional `toProcess.push_back(x)`; the back of the vector is the head of
the list. -/
def pushIf (c : Bool) (x : QuadNodeData) (toProcess : List QuadNodeData) :
    List QuadNodeData :=
  if c then x :: toProcess else toProcess

/-- The `while (toProcess.size() > 0)` loop of `Quadtree::findLeaves`.  The stack
`toProcess` is kept with its back at the head of the list; `leaves` grows at
its end as with `push_back`.  The top children get `topMy = my - hx` as in
the source. -/
def findLeavesLoop (nodes : FreeList QuadNode) (x1 y1 x2 y2 : Int) :
    Nat → List QuadNodeData → List QuadNodeData → Except Fault (List QuadNodeData)
  | _, [], leaves => .ok leaves
  | 0, _ :: _, _ => .error .outOfFuel
  | fuel + 1, nodeData :: toProcess, leaves =>
    match nodes.get nodeData.nodeIndex with
    | .error e => .error e
    | .ok node =>
      if node.count ≠ -1 then
        findLeavesLoop nodes x1 y1 x2 y2 fuel toProcess (leaves ++ [nodeData])
      else
        let mx := nodeData.mx
        let my := nodeData.my
        let hx := nodeData.hx >>> 1
        let hy := nodeData.hy >>> 1
        let fc := node.firstChildIndex
        let leftMx := mx - hx
        let topMy := my - hx
        let rightMx := mx + hx
        let bottomMy := my + hy
        let s0 := pushIf (decide (y1 ≤ my) && decide (x1 ≤ mx))
          ⟨fc + 0, nodeData.depth + 1, leftMx, topMy, hx, hy⟩ toProcess
        let s1 := pushIf (decide (y1 ≤ my) && decide (x2 > mx))
          ⟨fc + 1, nodeData.depth + 1, rightMx, topMy, hx, hy⟩ s0
        let s2 := pushIf (decide (y2 > my) && decide (x1 ≤ mx))
          ⟨fc + 2, nodeData.depth + 1, leftMx, bottomMy, hx, hy⟩ s1
        let s3 := pushIf (decide (y2 > my) && decide (x2 > mx))
          ⟨fc + 3, nodeData.depth + 1, rightMx, bottomMy, hx, hy⟩ s2
        findLeavesLoop nodes x1 y1 x2 y2 fuel s3 leaves

/-- The method `Quadtree::findLeaves`. -/
def findLeaves (fuel : Nat) (q : Quadtree) (nodeIndex depth mx my hx hy x1 y1 x2 y2 : Int) :
    Except Fault (List QuadNodeData) :=
  findLeavesLoop q.nodes x1 y1 x2 y2 fuel [⟨nodeIndex, depth, mx, my, hx, hy⟩] []

/-- A `for` loop over a vector whose body updates the tree and may fault. -/
def forEach {α : Type} (body : Quadtree → α → Except Fault Quadtree) :
    List α → Quadtree → Except Fault Quadtree
  | [], q => .ok q
  | a :: rest, q =>
    match body q a with
    | .error e => .error e
    | .ok q' => forEach body rest q'

/-- The `while (node.firstChildIndex != -1)` loop of `Quadtree::leafInsert`: pops
every element node off the leaf `nodeIndex`, erases it, and appends its element
index to `tempElements`. -/
def popLoop (nodeIndex : Int) : Nat → Quadtree → List Int → Except Fault (Quadtree × List Int)
  | 0, _, _ => .error .outOfFuel
  | fuel + 1, q, tempElements =>
    match q.nodes.get nodeIndex with
    | .error e => .error e
    | .ok node =>
      if node.firstChildIndex ≠ -1 then
        let elementNodeIndex := node.firstChildIndex
        match q.elementNodes.get elementNodeIndex with
        | .error e => .error e
        | .ok cell =>
          match q.nodes.modify nodeIndex (fun n => { n with firstChildIndex := cell.nextIndex }) with
          | .error e => .error e
          | .ok nodes =>
            match q.elementNodes.erase elementNodeIndex with
            | .error e => .error e
            | .ok elementNodes =>
              popLoop nodeIndex fuel { q with nodes := nodes, elementNodes := elementNodes }
                (tempElements ++ [cell.elementIndex])
      else .ok (q, tempElements)

/-- The four `nodes.insert(QuadNode(-1, 0))` calls of `Quadtree::leafInsert`, the
first of which is assigned to `node.firstChildIndex`. -/
def allocChildren (q : Quadtree) (nodeIndex : Int) : Except Fault Quadtree :=
  match q.nodes.insert ⟨-1, 0⟩ with
  | .error e => .error e
  | .ok (fc, n0) =>
    match n0.modify nodeIndex (fun n => { n with firstChildIndex := fc }) with
    | .error e => .error e
    | .ok n0' =>
      match n0'.insert ⟨-1, 0⟩ with
      | .error e => .error e
      | .ok (_, n1) =>
        match n1.insert ⟨-1, 0⟩ with
        | .error e => .error e
        | .ok (_, n2) =>
          match n2.insert ⟨-1, 0⟩ with
          | .error e => .error e
          | .ok (_, n3) => .ok { q with nodes := n3 }

mutual
/-- The method `Quadtree::nodeInsert`. -/
def nodeInsert : Nat → Quadtree → Int → Int → Int → Int → Int → Int → Int →
    Except Fault Quadtree
  | 0, _, _, _, _, _, _, _, _ => .error .outOfFuel
  | fuel + 1, q, index, depth, mx, my, hx, hy, elementIndex =>
    match q.elements.get elementIndex with
    | .error e => .error e
    | .ok el =>
      match findLeaves (fuel + 1) q index depth mx my hx hy el.x1 el.y1 el.x2 el.y2 with
      | .error e => .error e
      | .ok leaves =>
        forEach (fun q' (l : QuadNodeData) =>
          leafInsert fuel q' l.nodeIndex l.depth l.mx l.my l.hx l.hy elementIndex) leaves q
/-- The method `Quadtree::leafInsert`.  The source never assigns `node.count` in
the subdividing branch, and neither does this definition. -/
def leafInsert : Nat → Quadtree → Int → Int → Int → Int → Int → Int → Int →
    Except Fault Quadtree
  | 0, _, _, _, _, _, _, _, _ => .error .outOfFuel
  | fuel + 1, q, nodeIndex, depth, mx, my, hx, hy, elementIndex =>
    match q.nodes.get nodeIndex with
    | .error e => .error e
    | .ok node0 =>
      let prevFirstChildIndex := node0.firstChildIndex
      match q.elementNodes.insert ⟨prevFirstChildIndex, elementIndex⟩ with
      | .error e => .error e
      | .ok (cellIndex, elementNodes) =>
        match q.nodes.modify nodeIndex (fun n => { n with firstChildIndex := cellIndex }) with
        | .error e => .error e
        | .ok nodes =>
          let q1 : Quadtree := { q with nodes := nodes, elementNodes := elementNodes }
          if node0.count = q.maxElements ∧ depth < q.maxDepth then
            match popLoop nodeIndex (fuel + 1) q1 [] with
            | .error e => .error e
            | .ok (q2, tempElements) =>
              match allocChildren q2 nodeIndex with
              | .error e => .error e
              | .ok q3 =>
                forEach (fun q' (elt : Int) =>
                  nodeInsert fuel q' nodeIndex depth mx my hx hy elt) tempElements q3
          else
            match q1.nodes.modify nodeIndex (fun n => { n with count := n.count + 1 }) with
            | .error e => .error e
            | .ok nodes' => .ok { q1 with nodes := nodes' }
end

/-- The method `Quadtree::insert`. -/
def insert (fuel : Nat) (q : Quadtree) (id x1 y1 x2 y2 : Int) : Except Fault (Int × Quadtree) :=
  match q.elements.insert ⟨id, x1, y1, x2, y2⟩ with
  | .error e => .error e
  | .ok (newElementIndex, elements) =>
    match nodeInsert fuel { q with elements := elements } 0 0 q.rootMx q.rootMy q.rootHx q.rootHy
        newElementIndex with
    | .error e => .error e
    | .ok q' => .ok (newElementIndex, q')

/-- The `while` loop of `Quadtree::remove` that walks a leaf's list until it reaches
the end or a cell of `elementIndex`; returns `(elementNodeIndex, prevElementNodeIndex)`. -/
def removeScan (elementNodes : FreeList QuadElementNode) (elementIndex : Int) :
    Nat → Int → Int → Except Fault (Int × Int)
  | 0, _, _ => .error .outOfFuel
  | fuel + 1, elementNodeIndex, prevElementNodeIndex =>
    if elementNodeIndex = -1 then .ok (elementNodeIndex, prevElementNodeIndex)
    else
      match elementNodes.get elementNodeIndex with
      | .error e => .error e
      | .ok cell =>
        if cell.elementIndex ≠ elementIndex then
          removeScan elementNodes elementIndex fuel cell.nextIndex elementNodeIndex
        else .ok (elementNodeIndex, prevElementNodeIndex)

/-- The body of the `for` loop of `Quadtree::remove` for the leaf `nodeIndex`. -/
def removeFromLeaf (fuel : Nat) (elementIndex : Int) (q : Quadtree) (nodeIndex : Int) :
    Except Fault Quadtree :=
  match q.nodes.get nodeIndex with
  | .error e => .error e
  | .ok node =>
    match removeScan q.elementNodes elementIndex fuel node.firstChildIndex (-1) with
    | .error e => .error e
    | .ok (elementNodeIndex, prevElementNodeIndex) =>
      if elementNodeIndex ≠ -1 then
        match q.elementNodes.get elementNodeIndex with
        | .error e => .error e
        | .ok cell =>
          let nextIndex := cell.nextIndex
          let unlinked : Except Fault Quadtree :=
            if prevElementNodeIndex = -1 then
              match q.nodes.modify nodeIndex (fun n => { n with firstChildIndex := nextIndex }) with
              | .error e => .error e
              | .ok nodes => .ok { q with nodes := nodes }
            else
              match q.elementNodes.modify prevElementNodeIndex
                  (fun c => { c with nextIndex := nextIndex }) with
              | .error e => .error e
              | .ok elementNodes => .ok { q with elementNodes := elementNodes }
          match unlinked with
          | .error e => .error e
          | .ok q1 =>
            match q1.elementNodes.erase elementNodeIndex with
            | .error e => .error e
            | .ok elementNodes =>
              match q1.nodes.modify nodeIndex (fun n => { n with count := n.count - 1 }) with
              | .error e => .error e
              | .ok nodes => .ok { q1 with nodes := nodes, elementNodes := elementNodes }
      else .ok q

/-- The method `Quadtree::remove`. -/
def remove (fuel : Nat) (q : Quadtree) (elementIndex : Int) : Except Fault Quadtree :=
  match q.elements.get elementIndex with
  | .error e => .error e
  | .ok e =>
    match findLeaves fuel q 0 0 q.rootMx q.rootMy q.rootHx q.rootHy e.x1 e.y1 e.x2 e.y2 with
    | .error e => .error e
    | .ok leaves =>
      match forEach (fun q' (l : QuadNodeData) => removeFromLeaf fuel elementIndex q' l.nodeIndex)
          leaves q with
      | .error e => .error e
      | .ok q1 =>
        match q1.elements.erase elementIndex with
        | .error e => .error e
        | .ok elements => .ok { q1 with elements := elements }

/-- The element of a `std::vector<bool>` at an `int` index. -/
def bufGet (buf : List Bool) (i : Int) : Option Bool :=
  if i < 0 then none else buf[i.toNat]?

/-- The local state of `Quadtree::query`: the result vector `out`, the vector
`clearList` of the element indices appended so far, and the member `tempBuffer`. -/
structure QueryState where
  out : List QuadElement
  clearList : List Int
  tempBuffer : List Bool
  deriving DecidableEq, Repr

/-- The `while (elementNodeIndex != -1)` loop of `Quadtree::query`, which walks one
leaf's list of element nodes. -/
def queryWalk (q : Quadtree) (qx1 qy1 qx2 qy2 omitElementIndex : Int) :
    Nat → Int → QueryState → Except Fault QueryState
  | 0, _, _ => .error .outOfFuel
  | fuel + 1, elementNodeIndex, st =>
    if elementNodeIndex ≠ -1 then
      match q.elementNodes.get elementNodeIndex with
      | .error e => .error e
      | .ok cell =>
        let elementIndex := cell.elementIndex
        match bufGet st.tempBuffer elementIndex with
        | none => .error .outOfRange
        | some seen =>
          if !seen && decide (elementIndex ≠ omitElementIndex) then
            match q.elements.get elementIndex with
            | .error e => .error e
            | .ok e =>
              if intersect qx1 qy1 qx2 qy2 e.x1 e.y1 e.x2 e.y2 then
                queryWalk q qx1 qy1 qx2 qy2 omitElementIndex fuel cell.nextIndex
                  { out := st.out ++ [e]
                    clearList := st.clearList ++ [elementIndex]
                    tempBuffer := st.tempBuffer.set elementIndex.toNat true }
              else queryWalk q qx1 qy1 qx2 qy2 omitElementIndex fuel cell.nextIndex st
          else queryWalk q qx1 qy1 qx2 qy2 omitElementIndex fuel cell.nextIndex st
    else .ok st

/-- The `for (int i = 0; i < leaves.size(); i++)` loop of `Quadtree::query`. -/
def queryLeaves (fuel : Nat) (q : Quadtree) (qx1 qy1 qx2 qy2 omitElementIndex : Int) :
    List QuadNodeData → QueryState → Except Fault QueryState
  | [], st => .ok st
  | l :: rest, st =>
    match q.nodes.get l.nodeIndex with
    | .error e => .error e
    | .ok node =>
      match queryWalk q qx1 qy1 qx2 qy2 omitElementIndex fuel node.firstChildIndex st with
      | .error e => .error e
      | .ok st' => queryLeaves fuel q qx1 qy1 qx2 qy2 omitElementIndex rest st'

/-- The method `Quadtree::query` up to the end of its `for` loop over the leaves:
the leaf walk, the resize of `tempBuffer`, and the collection of the matching
elements.  The arguments are the query coordinates after `static_cast<int>`. -/
def queryCollect (fuel : Nat) (q : Quadtree) (qx1 qy1 qx2 qy2 omitElementIndex : Int) :
    Except Fault QueryState :=
  match findLeaves fuel q 0 0 q.rootMx q.rootMy q.rootHx q.rootHy qx1 qy1 qx2 qy2 with
  | .error e => .error e
  | .ok leaves =>
    let tempBuffer :=
      if (q.tempBuffer.length : Int) < q.elements.size then
        List.replicate q.elements.size.toNat false
      else q.tempBuffer
    queryLeaves fuel q qx1 qy1 qx2 qy2 omitElementIndex leaves ⟨[], [], tempBuffer⟩

/-- The final loop of `Quadtree::query`: `tempBuffer[clearList[i]] = false`. -/
def clearMarks : List Int → List Bool → Except Fault (List Bool)
  | [], buf => .ok buf
  | i :: rest, buf =>
    match bufGet buf i with
    | none => .error .outOfRange
    | some _ => clearMarks rest (buf.set i.toNat false)

/-- The method `Quadtree::query` (five-argument overload), on the query coordinates
after `static_cast<int>`: returns `out` and the tree with the updated `tempBuffer`. -/
def query (fuel : Nat) (q : Quadtree) (qx1 qy1 qx2 qy2 omitElementIndex : Int) :
    Except Fault (List QuadElement × Quadtree) :=
  match queryCollect fuel q qx1 qy1 qx2 qy2 omitElementIndex with
  | .error e => .error e
  | .ok st =>
    match clearMarks st.clearList st.tempBuffer with
    | .error e => .error e
    | .ok buf => .ok (st.out, { q with tempBuffer := buf })

/-- The conversion `static_cast<int>(x)` of a finite `float`, given as the rational
number it holds, whose integral part fits an `int`: truncation toward zero. -/
def castInt (x : ℚ) : Int := x.num.tdiv x.den

/-- The method `Quadtree::query` (five-argument overload) on its `float` arguments, each
given as the rational number it holds. -/
def queryFloat (fuel : Nat) (q : Quadtree) (x1 y1 x2 y2 : ℚ) (omitElementIndex : Int) :
    Except Fault (List QuadElement × Quadtree) :=
  query fuel q (castInt x1) (castInt y1) (castInt x2) (castInt y2) omitElementIndex

/-- One callback of `IQuadtreeVisitor` made by `Quadtree::traverse`, with the record
it is given. -/
inductive Visit where
  | branch (nodeData : QuadNodeData)
  | leaf (nodeData : QuadNodeData)
  deriving DecidableEq, Repr

/-- The `while (toProcess.size() > 0)` loop of `Quadtree::traverse`; the calls of the
visitor are collected in `visits`.  The stack is kept with its back at the head of
the list.  The top children get `topMy = my - hy`. -/
def traverseLoop (nodes : FreeList QuadNode) :
    Nat → List QuadNodeData → List Visit → Except Fault (List Visit)
  | _, [], visits => .ok visits
  | 0, _ :: _, _ => .error .outOfFuel
  | fuel + 1, nodeData :: toProcess, visits =>
    match nodes.get nodeData.nodeIndex with
    | .error e => .error e
    | .ok node =>
      let fc := node.firstChildIndex
      if node.count = -1 then
        let hx := nodeData.hx >>> 1
        let hy := nodeData.hy >>> 1
        let leftMx := nodeData.mx - hx
        let topMy := nodeData.my - hy
        let rightMx := nodeData.mx + hx
        let bottomMy := nodeData.my + hy
        traverseLoop nodes fuel
          (⟨fc + 3, nodeData.depth + 1, rightMx, bottomMy, hx, hy⟩ ::
            ⟨fc + 2, nodeData.depth + 1, leftMx, bottomMy, hx, hy⟩ ::
            ⟨fc + 1, nodeData.depth + 1, rightMx, topMy, hx, hy⟩ ::
            ⟨fc + 0, nodeData.depth + 1, leftMx, topMy, hx, hy⟩ :: toProcess)
          (visits ++ [.branch nodeData])
      else traverseLoop nodes fuel toProcess (visits ++ [.leaf nodeData])

/-- The method `Quadtree::traverse`; returns the calls made on the visitor, in order. -/
def traverse (fuel : Nat) (q : Quadtree) : Except Fault (List Visit) :=
  traverseLoop q.nodes fuel [⟨0, 0, q.rootMx, q.rootMy, q.rootHx, q.rootHy⟩] []

/-- The `for (int i = 0; i < 4; i++)` loop of `Quadtree::cleanup` over the children
`firstChildIndex + i`, for the offsets `i` still to do: counts the empty leaves and
pushes a copy of every child that is a branch. -/
def cleanupScan (nodes : FreeList QuadNode) (firstChildIndex : Int) :
    List Int → Nat → List QuadNode → Except Fault (Nat × List QuadNode)
  | [], numEmptyLeaves, toProcess => .ok (numEmptyLeaves, toProcess)
  | i :: rest, numEmptyLeaves, toProcess =>
    match nodes.get (firstChildIndex + i) with
    | .error e => .error e
    | .ok child =>
      if child.count = 0 then
        cleanupScan nodes firstChildIndex rest (numEmptyLeaves + 1) toProcess
      else if child.count = -1 then
        cleanupScan nodes firstChildIndex rest numEmptyLeaves (child :: toProcess)
      else cleanupScan nodes firstChildIndex rest numEmptyLeaves toProcess

/-- The `while (toProcess.size() > 0)` loop of `Quadtree::cleanup`.  The stack holds
copies of nodes (`std::vector<QuadNode>`), its back at the head of the list.  The
popped `node` is a local copy (`QuadNode node = toProcess.back()`), so the final
assignments `node.firstChildIndex = -1; node.count = 0` change that copy only; it is
the value `_node`, which nothing reads. -/
def cleanupLoop : Nat → Quadtree → List QuadNode → Except Fault Quadtree
  | _, q, [] => .ok q
  | 0, _, _ :: _ => .error .outOfFuel
  | fuel + 1, q, node :: toProcess =>
    match cleanupScan q.nodes node.firstChildIndex [0, 1, 2, 3] 0 toProcess with
    | .error e => .error e
    | .ok (numEmptyLeaves, toProcess') =>
      if numEmptyLeaves = 4 then
        match q.nodes.modify node.firstChildIndex
            (fun n => { n with firstChildIndex := q.freeNodeIndex }) with
        | .error e => .error e
        | .ok nodes =>
          let _node : QuadNode := { node with firstChildIndex := -1, count := 0 }
          cleanupLoop fuel { q with nodes := nodes, freeNodeIndex := node.firstChildIndex }
            toProcess'
      else cleanupLoop fuel q toProcess'

/-- The method `Quadtree::cleanup`. -/
def cleanup (fuel : Nat) (q : Quadtree) : Except Fault Quadtree :=
  match q.nodes.get 0 with
  | .error e => .error e
  | .ok root => cleanupLoop fuel q (if root.count = -1 then [root] else [])

/-- A run of `n` consecutive `cleanup()` calls. -/
def cleanupTimes (fuel : Nat) : Nat → Quadtree → Except Fault Quadtree
  | 0, q => .ok q
  | n + 1, q =>
    match cleanup fuel q with
    | .error e => .error e
    | .ok q' => cleanupTimes fuel n q'

/-! ## Sample states -/

/-- An arena of two slots whose slot 1 is erased. -/
def sampleArena : FreeList Int := ⟨[.element 7, .next (-1)], 1⟩

/-- A tree over `[0,100] × [0,100]` whose root is a branch with the four leaf
children 1..4.  Element 0 straddles the centre and is linked from all four leaves;
element 1 is linked (before element 0) from the top-left leaf only. -/
def sampleTree : Quadtree :=
  { maxDepth := 4
    maxElements := 2
    elements := ⟨[.element ⟨7, 40, 40, 60, 60⟩, .element ⟨8, 10, 10, 20, 20⟩], -1⟩
    elementNodes :=
      ⟨[.element ⟨-1, 0⟩, .element ⟨-1, 0⟩, .element ⟨-1, 0⟩, .element ⟨-1, 0⟩,
        .element ⟨0, 1⟩], -1⟩
    nodes :=
      ⟨[.element ⟨1, -1⟩, .element ⟨4, 2⟩, .element ⟨1, 1⟩, .element ⟨2, 1⟩,
        .element ⟨3, 1⟩], -1⟩
    freeNodeIndex := -1
    tempBuffer := [false, false]
    rootMx := 50
    rootMy := 50
    rootHx := 50
    rootHy := 50 }

/-- A tree over `[0,100] × [0,100]` with `maxElements = 2` whose root is a leaf
that already links two elements (1, then 0); element 2 is stored but not linked
yet. -/
def sampleFullLeaf : Quadtree :=
  { maxDepth := 4
    maxElements := 2
    elements :=
      ⟨[.element ⟨0, 10, 10, 20, 20⟩, .element ⟨1, 30, 30, 40, 40⟩,
        .element ⟨2, 12, 12, 18, 18⟩], -1⟩
    elementNodes := ⟨[.element ⟨-1, 0⟩, .element ⟨0, 1⟩], -1⟩
    nodes := ⟨[.element ⟨1, 2⟩], -1⟩
    freeNodeIndex := -1
    tempBuffer := []
    rootMx := 50
    rootMy := 50
    rootHx := 50
    rootHy := 50 }

/-- A tree over `[0,100] × [0,100]` whose root is a branch with the four empty leaf
children 1..4 (the state after every element of a subdivided root was removed);
no element and no element node is stored, and `freeNodeIndex` is `-1`. -/
def sampleEmptied : Quadtree :=
  { maxDepth := 4
    maxElements := 2
    elements := FreeList.empty
    elementNodes := FreeList.empty
    nodes :=
      ⟨[.element ⟨1, -1⟩, .element ⟨-1, 0⟩, .element ⟨-1, 0⟩, .element ⟨-1, 0⟩,
        .element ⟨-1, 0⟩], -1⟩
    freeNodeIndex := -1
    tempBuffer := []
    rootMx := 50
    rootMy := 50
    rootHx := 50
    rootHy := 50 }

/-- A tree over `[0,200] × [0,100]`, as `Quadtree(200, 100, ...)` sets the root geometry,
whose root is a branch with the four empty leaf children 1..4. -/
def sampleWide : Quadtree :=
  { sampleEmptied with rootMx := 100, rootMy := 50, rootHx := 100, rootHy := 50 }

/-! ## Notions used in the statements -/

/-- The two trees agree on everything but the node arena and the element-node
arena. -/
structure SameOutside (q q' : Quadtree) : Prop where
  maxDepth : q'.maxDepth = q.maxDepth
  maxElements : q'.maxElements = q.maxElements
  elements : q'.elements = q.elements
  freeNodeIndex : q'.freeNodeIndex = q.freeNodeIndex
  tempBuffer : q'.tempBuffer = q.tempBuffer
  rootMx : q'.rootMx = q.rootMx
  rootMy : q'.rootMy = q.rootMy
  rootHx : q'.rootHx = q.rootHx
  rootHy : q'.rootHy = q.rootHy

/-- The link list that starts at `head` consists of the cells `l`, given as pairs
(index of the cell, element index stored in it), in this order, and then ends
with `-1`. -/
def isList (elementNodes : FreeList QuadElementNode) : Int → List (Int × Int) → Bool
  | head, [] => head == -1
  | head, (c, e) :: rest =>
    head == c &&
      (match elementNodes.get c with
       | .ok cell => cell.elementIndex == e && isList elementNodes cell.nextIndex rest
       | .error _ => false)

/-- The node `n` is stored, its link list is `l`, and its `count` is the length
of `l`. -/
def leafHolds (q : Quadtree) (n : Int) (l : List (Int × Int)) : Bool :=
  match q.nodes.get n with
  | .ok node => isList q.elementNodes node.firstChildIndex l && decide (node.count = l.length)
  | .error _ => false

/-- The data-model invariants of the leaves `allLeaves`, whose link lists are given by
`lists`: each leaf's `count` is the length of its list; the lists are acyclic (no
cell twice); each element is linked at most once per leaf; and no cell belongs to
the lists of two leaves. -/
structure LeafInv (q : Quadtree) (allLeaves : List Int) (lists : Int → List (Int × Int)) :
    Prop where
  holds : ∀ n ∈ allLeaves, leafHolds q n (lists n) = true
  acyclic : ∀ n ∈ allLeaves, ((lists n).map Prod.fst).Nodup
  once : ∀ n ∈ allLeaves, ((lists n).map Prod.snd).Nodup
  disjoint : ∀ n ∈ allLeaves, ∀ m ∈ allLeaves, n ≠ m →
    ∀ c ∈ (lists n).map Prod.fst, c ∉ (lists m).map Prod.fst

/-- The index of the last cell of `pre`, or `prev` when `pre` is empty. -/
def lastCell (prev : Int) : List (Int × Int) → Int
  | [] => prev
  | (c, _) :: rest => lastCell c rest

/-- The link lists after the removal of the element `e` from the leaves `ns`: the list
of a leaf in `ns` loses its cells of `e`, the other lists are unchanged. -/
def removedLists (lists : Int → List (Int × Int)) (ns : List Int) (e : Int) :
    Int → List (Int × Int) :=
  fun n => if n ∈ ns then (lists n).filter (fun x => decide (x.2 ≠ e)) else lists n

/-- The link lists of the leaves 1..4 of `sampleTree`. -/
def sampleLists : Int → List (Int × Int) :=
  fun n =>
    if n = 1 then [(4, 1), (0, 0)]
    else if n = 2 then [(1, 0)]
    else if n = 3 then [(2, 0)]
    else if n = 4 then [(3, 0)]
    else []

/-- The shape of a tree of nodes: which node indices are leaves, which are branches,
and which subtrees hang below a branch. -/
inductive Shape where
  | leaf (n : Int)
  | branch (n : Int) (c0 c1 c2 c3 : Shape)
  deriving DecidableEq, Repr

/-- The node index at the root of a shape. -/
def Shape.root : Shape → Int
  | .leaf n => n
  | .branch n _ _ _ _ => n

/-- The number of nodes of a shape. -/
def Shape.size : Shape → Nat
  | .leaf _ => 1
  | .branch _ c0 c1 c2 c3 => 1 + c0.size + c1.size + c2.size + c3.size

/-- The node indices of the leaves of a shape. -/
def Shape.leaves : Shape → List Int
  | .leaf n => [n]
  | .branch _ c0 c1 c2 c3 => c0.leaves ++ c1.leaves ++ c2.leaves ++ c3.leaves

/-- The node arena stores the tree `t`: a leaf of `t` is a stored node with
`count ≠ -1`; a branch of `t` is a stored node with `count = -1` whose four
children are the nodes `firstChildIndex + 0 .. firstChildIndex + 3`, each of which
stores the corresponding subtree. -/
def wellFormed (nodes : FreeList QuadNode) : Shape → Bool
  | .leaf n =>
    match nodes.get n with
    | .ok node => decide (node.count ≠ -1)
    | .error _ => false
  | .branch n c0 c1 c2 c3 =>
    match nodes.get n with
    | .ok node =>
      decide (node.count = -1) &&
        decide (c0.root = node.firstChildIndex + 0) && decide (c1.root = node.firstChildIndex + 1) &&
        decide (c2.root = node.firstChildIndex + 2) && decide (c3.root = node.firstChildIndex + 3) &&
        wellFormed nodes c0 && wellFormed nodes c1 && wellFormed nodes c2 && wellFormed nodes c3
    | .error _ => false

/-- The shape of `sampleTree`. -/
def sampleShape : Shape := .branch 0 (.leaf 1) (.leaf 2) (.leaf 3) (.leaf 4)

/-- The stack of the leaf walk holds, in order, records for the roots of the
well-formed trees `ts`. -/
def StackOf (nodes : FreeList QuadNode) : List QuadNodeData → List Shape → Prop
  | [], [] => True
  | nd :: stack, t :: ts =>
    nd.nodeIndex = t.root ∧ wellFormed nodes t = true ∧ StackOf nodes stack ts
  | _, _ => False

/-- What holds of the local state of `query` throughout its loops: `out` holds the
records of the indices in `clearList`, in the same order; none of these indices is
the omitted one; every one of them is marked in `tempBuffer`; none occurs twice. -/
structure QueryInv (q : Quadtree) (omitElementIndex : Int) (st : QueryState) : Prop where
  records : List.Forall₂ (fun e i => q.elements.get i = .ok e) st.out st.clearList
  omitted : omitElementIndex ∉ st.clearList
  marked : ∀ i ∈ st.clearList, bufGet st.tempBuffer i = some true
  nodup : st.clearList.Nodup

/-- The tree of the scenario `Quadtree(100, 100, 2, 4, 0)` as the specification
describes its construction: the value of `Quadtree.new 100 100 2 4 0 0` except
that the root is stored as the empty leaf `QuadNode(-1, 0)`. -/
def scenarioLeafRoot : Quadtree :=
  { maxDepth := 4
    maxElements := 2
    elements := FreeList.empty
    elementNodes := FreeList.empty
    nodes := ⟨[.element ⟨-1, 0⟩], -1⟩
    freeNodeIndex := 0
    tempBuffer := []
    rootMx := 50
    rootMy := 50
    rootHx := 50
    rootHy := 50 }

/-- The tree `scenarioLeafRoot` after the insert of A = (10,10,20,20). -/
def scenarioAfterA : Quadtree :=
  { scenarioLeafRoot with
    elements := ⟨[.element ⟨0, 10, 10, 20, 20⟩], -1⟩
    elementNodes := ⟨[.element ⟨-1, 0⟩], -1⟩
    nodes := ⟨[.element ⟨0, 1⟩], -1⟩ }

/-- The tree `scenarioLeafRoot` after the inserts of A = (10,10,20,20) and
B = (30,30,40,40): the root leaf links both and has `count = 2`. -/
def scenarioAfterAB : Quadtree :=
  { scenarioLeafRoot with
    elements := ⟨[.element ⟨0, 10, 10, 20, 20⟩, .element ⟨1, 30, 30, 40, 40⟩], -1⟩
    elementNodes := ⟨[.element ⟨-1, 0⟩, .element ⟨0, 1⟩], -1⟩
    nodes := ⟨[.element ⟨1, 2⟩], -1⟩ }

/-- The record that `findLeaves` pushes for the child of the branch record `nd` on the
given side (`right`, `bottom`), stored at node `root`.  As in the source, the top
children get the centre `my - (hx >> 1)`. -/
def childRecord (nd : QuadNodeData) (root : Int) (right bottom : Bool) : QuadNodeData :=
  { nodeIndex := root
    depth := nd.depth + 1
    mx := if right then nd.mx + nd.hx >>> 1 else nd.mx - nd.hx >>> 1
    my := if bottom then nd.my + nd.hy >>> 1 else nd.my - nd.hx >>> 1
    hx := nd.hx >>> 1
    hy := nd.hy >>> 1 }

/-- The test by which `findLeaves` decides to push the child of the branch record `nd`
on the given side for the rectangle `(x1, y1, x2, y2)`. -/
def selects (x1 y1 x2 y2 : Int) (nd : QuadNodeData) (right bottom : Bool) : Bool :=
  (if bottom then decide (y2 > nd.my) else decide (y1 ≤ nd.my)) &&
    (if right then decide (x2 > nd.mx) else decide (x1 ≤ nd.mx))

/-- The leaves that the walk of `findLeaves` emits for the tree `t` entered with the
record `nd`, in the order of emission (the child pushed last is popped first). -/
def walkLeaves (x1 y1 x2 y2 : Int) : Shape → QuadNodeData → List QuadNodeData
  | .leaf _, nd => [nd]
  | .branch _ c0 c1 c2 c3, nd =>
    (if selects x1 y1 x2 y2 nd true true then
        walkLeaves x1 y1 x2 y2 c3 (childRecord nd c3.root true true) else []) ++
    (if selects x1 y1 x2 y2 nd false true then
        walkLeaves x1 y1 x2 y2 c2 (childRecord nd c2.root false true) else []) ++
    (if selects x1 y1 x2 y2 nd true false then
        walkLeaves x1 y1 x2 y2 c1 (childRecord nd c1.root true false) else []) ++
    (if selects x1 y1 x2 y2 nd false false then
        walkLeaves x1 y1 x2 y2 c0 (childRecord nd c0.root false false) else [])

/-- The leaves that the walk emits for a stack of records entering the trees `ts`. -/
def walkStack (x1 y1 x2 y2 : Int) : List QuadNodeData → List Shape → List QuadNodeData
  | nd :: stack, t :: ts => walkLeaves x1 y1 x2 y2 t nd ++ walkStack x1 y1 x2 y2 stack ts
  | _, _ => []

/-- The record that `traverse` pushes for the child of the branch record `nd` on the
given side, stored at node `root`: each axis uses its own half-extent. -/
def visitRecord (nd : QuadNodeData) (root : Int) (right bottom : Bool) : QuadNodeData :=
  { nodeIndex := root
    depth := nd.depth + 1
    mx := if right then nd.mx + nd.hx >>> 1 else nd.mx - nd.hx >>> 1
    my := if bottom then nd.my + nd.hy >>> 1 else nd.my - nd.hy >>> 1
    hx := nd.hx >>> 1
    hy := nd.hy >>> 1 }

/-- The calls that `traverse` makes on the visitor for the tree `t` entered with the
record `nd`, in order. -/
def visitsOf : Shape → QuadNodeData → List Visit
  | .leaf _, nd => [.leaf nd]
  | .branch _ c0 c1 c2 c3, nd =>
    .branch nd :: (visitsOf c3 (visitRecord nd c3.root true true) ++
      visitsOf c2 (visitRecord nd c2.root false true) ++
      visitsOf c1 (visitRecord nd c1.root true false) ++
      visitsOf c0 (visitRecord nd c0.root false false))

/-- The calls that `traverse` makes for a stack of records entering the trees `ts`. -/
def visitsStack : List QuadNodeData → List Shape → List Visit
  | nd :: stack, t :: ts => visitsOf t nd ++ visitsStack stack ts
  | _, _ => []

/-- The element index `i` is stored in a cell of the link list that starts at `head`. -/
inductive LinkedFrom (elementNodes : FreeList QuadElementNode) : Int → Int → Prop where
  | here {head : Int} {cell : QuadElementNode} (hget : elementNodes.get head = .ok cell) :
      LinkedFrom elementNodes head cell.elementIndex
  | next {head i : Int} {cell : QuadElementNode} (hget : elementNodes.get head = .ok cell)
      (hrest : LinkedFrom elementNodes cell.nextIndex i) : LinkedFrom elementNodes head i

/-- The element index `i` is linked from one of the leaves `leaves` of the tree. -/
def LinkedInLeaves (q : Quadtree) (leaves : List QuadNodeData) (i : Int) : Prop :=
  ∃ l ∈ leaves, ∃ node, q.nodes.get l.nodeIndex = .ok node ∧
    LinkedFrom q.elementNodes node.firstChildIndex i

/-- The tree `sampleEmptied` after two `cleanup()` calls: the root is still a branch,
`freeNodeIndex` is 1, and the leaf 1 has `firstChildIndex = 1`. -/
def sampleEmptiedTwice : Quadtree :=
  { sampleEmptied with
    nodes :=
      ⟨[.element ⟨1, -1⟩, .element ⟨1, 0⟩, .element ⟨-1, 0⟩, .element ⟨-1, 0⟩,
        .element ⟨-1, 0⟩], -1⟩
    freeNodeIndex := 1 }

/-- The tree `scenarioLeafRoot` after the insert of the point `(10,10,10,10)`. -/
def coincidentOne : Quadtree :=
  { scenarioLeafRoot with
    elements := ⟨[.element ⟨0, 10, 10, 10, 10⟩], -1⟩
    elementNodes := ⟨[.element ⟨-1, 0⟩], -1⟩
    nodes := ⟨[.element ⟨0, 1⟩], -1⟩ }

/-- The tree `scenarioLeafRoot` after two inserts of the point `(10,10,10,10)`: the root
leaf links both elements and has `count = 2 = maxElements`. -/
def coincidentTwo : Quadtree :=
  { scenarioLeafRoot with
    elements := ⟨[.element ⟨0, 10, 10, 10, 10⟩, .element ⟨1, 10, 10, 10, 10⟩], -1⟩
    elementNodes := ⟨[.element ⟨-1, 0⟩, .element ⟨0, 1⟩], -1⟩
    nodes := ⟨[.element ⟨1, 2⟩], -1⟩ }

/-! ## The arena: representation invariant and its preservation -/

namespace FreeList
variable {T : Type}

theorem slot_nonneg {fl : FreeList T} {n : Int} {s : FreeElement T} (h : fl.slot n = some s) :
    0 ≤ n ∧ n < fl.size := by
  unfold slot at h
  split at h
  · simp at h
  · rename_i hn
    have := List.getElem?_eq_some_iff.mp h
    obtain ⟨hlt, _⟩ := this
    simp only [size]
    omega

theorem slot_mk_set (data : List (FreeElement T)) (ff : Int) (m n : Int) (s : FreeElement T)
    (hm : 0 ≤ m) (hlt : m < data.length) :
    slot ⟨data.set m.toNat s, ff⟩ n = if n = m then some s else slot ⟨data, ff⟩ n := by
  unfold slot
  by_cases hn : n < 0
  · have : n ≠ m := by omega
    simp [hn, this]
  · simp only [hn, if_false]
    by_cases hnm : n = m
    · subst hnm
      have : n.toNat < data.length := by omega
      simp [this]
    · have : m.toNat ≠ n.toNat := by omega
      simp [hnm, List.getElem?_set_ne this]

theorem slot_mk_append (data : List (FreeElement T)) (ff : Int) (n : Int) (s : FreeElement T) :
    slot ⟨data ++ [s], ff⟩ n =
      if n = data.length then some s else slot ⟨data, ff⟩ n := by
  unfold slot
  by_cases hn : n < 0
  · have : n ≠ (data.length : Int) := by omega
    simp [hn, this]
  · simp only [hn, if_false]
    by_cases hnm : n = data.length
    · subst hnm
      simp
    · simp only [hnm, if_false]
      by_cases hlt : n.toNat < data.length
      · rw [List.getElem?_append_left hlt]
      · have h1 : data.length < n.toNat := by omega
        rw [List.getElem?_eq_none (by simp; omega), List.getElem?_eq_none (by omega)]


theorem get_eq_ok_iff {fl : FreeList T} {n : Int} {v : T} :
    fl.get n = .ok v ↔ fl.slot n = some (.element v) := by
  unfold get
  cases h : fl.slot n with
  | none => simp
  | some s => cases s <;> simp

theorem isLive_iff {fl : FreeList T} {n : Int} :
    fl.isLive n = true ↔ ∃ v, fl.get n = .ok v := by
  unfold isLive get
  cases h : fl.slot n with
  | none => simp
  | some s => cases s <;> simp

theorem isChain_congr (fl fl' : FreeList T) (chain : List Int) :
    ∀ h : Int, (∀ c ∈ chain, fl'.slot c = fl.slot c) → fl'.isChain h chain = fl.isChain h chain := by
  induction chain with
  | nil => intro h _; rfl
  | cons c cs ih =>
    intro h hs
    have hc : fl'.slot c = fl.slot c := hs c (List.mem_cons_self _ _)
    simp only [isChain, hc]
    cases hsl : fl.slot c with
    | none => rfl
    | some s =>
      cases s with
      | element e => rfl
      | next nx =>
        simp only
        rw [ih nx (fun d hd => hs d (List.mem_cons_of_mem _ hd))]

theorem isChain_mem {fl : FreeList T} {chain : List Int} :
    ∀ {h : Int}, fl.isChain h chain = true → ∀ c ∈ chain, ∃ nx, fl.slot c = some (.next nx) := by
  induction chain with
  | nil => intro h _ c hc; cases hc
  | cons d ds ih =>
    intro h hch c hc
    simp only [isChain, Bool.and_eq_true] at hch
    obtain ⟨_, hrest⟩ := hch
    cases hsl : fl.slot d with
    | none => simp [hsl] at hrest
    | some s =>
      cases s with
      | element e => simp [hsl] at hrest
      | next nx =>
        simp only [hsl] at hrest
        rcases List.mem_cons.mp hc with rfl | hmem
        · exact ⟨nx, hsl⟩
        · exact ih hrest c hmem

theorem isChain_cons {fl : FreeList T} {h c : Int} {cs : List Int}
    (hch : fl.isChain h (c :: cs) = true) :
    h = c ∧ ∃ nx, fl.slot c = some (.next nx) ∧ fl.isChain nx cs = true := by
  simp only [isChain, Bool.and_eq_true, beq_iff_eq] at hch
  obtain ⟨hh, hrest⟩ := hch
  refine ⟨hh, ?_⟩
  cases hsl : fl.slot c with
  | none => simp [hsl] at hrest
  | some s =>
    cases s with
    | element e => simp [hsl] at hrest
    | next nx =>
      simp only [hsl] at hrest
      exact ⟨nx, rfl, hrest⟩

/-- With an empty free chain `insert` appends. -/
theorem insert_append {fl : FreeList T} (v : T) (h : fl.first_free = -1) :
    fl.insert v = .ok (fl.size, ⟨fl.data ++ [.element v], -1⟩) := by
  unfold insert
  simp [h]

/-- With an erased slot at the head of the free chain `insert` reuses it. -/
theorem insert_reuse {fl : FreeList T} (v : T) {nx : Int}
    (h : fl.slot fl.first_free = some (.next nx)) :
    fl.insert v = .ok (fl.first_free, ⟨fl.data.set fl.first_free.toNat (.element v), nx⟩) := by
  have hb := slot_nonneg h
  have hne : fl.first_free ≠ -1 := by omega
  unfold insert
  simp [hne, h]

theorem erase_ok {fl : FreeList T} {n : Int} {s : FreeElement T} (h : fl.slot n = some s) :
    fl.erase n = .ok ⟨fl.data.set n.toNat (.next fl.first_free), n⟩ := by
  unfold erase
  simp [h]

theorem WF_insert {fl : FreeList T} {c : Int} {cs : List Int} (v : T) (hwf : fl.WF (c :: cs)) :
    ∃ fl', fl.insert v = .ok (c, fl') ∧ fl'.WF cs ∧ fl'.size = fl.size ∧
      fl'.get c = .ok v ∧ ∀ j, j ≠ c → fl'.slot j = fl.slot j := by
  obtain ⟨hch, hnd⟩ := hwf
  obtain ⟨hh, nx, hsl, hrest⟩ := isChain_cons hch
  have hb := slot_nonneg hsl
  simp only [size] at hb
  have hsl' : fl.slot fl.first_free = some (.next nx) := by rw [hh]; exact hsl
  have hins := insert_reuse v hsl'
  rw [hh] at hins
  refine ⟨_, hins, ?_, ?_, ?_, ?_⟩
  · have hslots : ∀ j, j ≠ c →
        slot ⟨fl.data.set c.toNat (.element v), nx⟩ j = fl.slot j := by
      intro j hj
      rw [slot_mk_set _ _ _ _ _ hb.1 hb.2]
      simp [hj, slot]
    refine ⟨?_, (List.nodup_cons.mp hnd).2⟩
    rw [isChain_congr fl _ cs nx]
    · exact hrest
    · intro d hd
      apply hslots
      rintro rfl
      exact (List.nodup_cons.mp hnd).1 hd
  · simp [size]
  · rw [get_eq_ok_iff, slot_mk_set _ _ _ _ _ hb.1 hb.2]
    simp
  · intro j hj
    rw [slot_mk_set _ _ _ _ _ hb.1 hb.2]
    simp [hj, slot]

theorem WF_insert_nil {fl : FreeList T} (v : T) (hwf : fl.WF []) :
    ∃ fl', fl.insert v = .ok (fl.size, fl') ∧ fl'.WF [] ∧ fl'.size = fl.size + 1 ∧
      fl'.get fl.size = .ok v ∧ ∀ j, j ≠ fl.size → fl'.slot j = fl.slot j := by
  obtain ⟨hch, _⟩ := hwf
  have hff : fl.first_free = -1 := by simpa [isChain] using hch
  refine ⟨_, insert_append v hff, ?_, ?_, ?_, ?_⟩
  · exact ⟨by simp [isChain], List.nodup_nil⟩
  · simp [size]
  · rw [get_eq_ok_iff, slot_mk_append]
    simp [size]
  · intro j hj
    rw [slot_mk_append]
    simp only [size] at hj
    simp [hj, slot]

theorem WF_erase {fl : FreeList T} {chain : List Int} {n : Int} {v : T} (hwf : fl.WF chain)
    (hlive : fl.get n = .ok v) :
    ∃ fl', fl.erase n = .ok fl' ∧ fl'.WF (n :: chain) ∧ fl'.size = fl.size ∧
      ∀ j, j ≠ n → fl'.slot j = fl.slot j := by
  obtain ⟨hch, hnd⟩ := hwf
  have hsl := get_eq_ok_iff.mp hlive
  have hb := slot_nonneg hsl
  simp only [size] at hb
  have hnotin : n ∉ chain := by
    intro hmem
    obtain ⟨nx, hnx⟩ := isChain_mem hch n hmem
    rw [hsl] at hnx
    cases hnx
  have hslots : ∀ j, j ≠ n →
      slot ⟨fl.data.set n.toNat (.next fl.first_free), n⟩ j = fl.slot j := by
    intro j hj
    rw [slot_mk_set _ _ _ _ _ hb.1 hb.2]
    simp [hj, slot]
  refine ⟨_, erase_ok hsl, ⟨?_, List.nodup_cons.mpr ⟨hnotin, hnd⟩⟩, by simp [size], hslots⟩
  simp only [isChain, beq_self_eq_true, Bool.true_and]
  rw [slot_mk_set _ _ _ _ _ hb.1 hb.2]
  simp only [if_true]
  rw [isChain_congr fl _ chain]
  · exact hch
  · intro d hd
    apply hslots
    rintro rfl
    exact hnotin hd


theorem eraseAll_WF : ∀ (is : List Int) (fl : FreeList T) (chain : List Int), fl.WF chain →
    is.Nodup → (∀ i ∈ is, ∃ v, fl.get i = .ok v) →
    ∃ fl1, fl.eraseAll is = .ok fl1 ∧ fl1.WF (is.reverse ++ chain) ∧ fl1.size = fl.size := by
  intro is
  induction is with
  | nil => intro fl chain hwf _ _; exact ⟨fl, rfl, by simpa using hwf, rfl⟩
  | cons i is ih =>
    intro fl chain hwf hnd hlive
    obtain ⟨v, hv⟩ := hlive i (List.mem_cons_self _ _)
    obtain ⟨fl', he, hwf', hsz, hslots⟩ := WF_erase hwf hv
    have hnd' := List.nodup_cons.mp hnd
    have hlive' : ∀ j ∈ is, ∃ w, fl'.get j = .ok w := by
      intro j hj
      obtain ⟨w, hw⟩ := hlive j (List.mem_cons_of_mem _ hj)
      refine ⟨w, ?_⟩
      rw [get_eq_ok_iff] at hw ⊢
      rw [hslots j (by rintro rfl; exact hnd'.1 hj)]
      exact hw
    obtain ⟨fl1, h1, hwf1, hsz1⟩ := ih fl' (i :: chain) hwf' hnd'.2 hlive'
    refine ⟨fl1, ?_, ?_, by rw [hsz1, hsz]⟩
    · simp only [eraseAll, he]
      exact h1
    · simpa using hwf1

theorem insertAll_reuse : ∀ (pre : List Int) (ws : List T) (fl : FreeList T) (post : List Int),
    fl.WF (pre ++ post) → ws.length = pre.length →
    ∃ fl2, fl.insertAll ws = .ok (pre, fl2) ∧ fl2.WF post ∧ fl2.size = fl.size := by
  intro pre
  induction pre with
  | nil =>
    intro ws fl post hwf hlen
    have : ws = [] := List.length_eq_zero.mp (by simpa using hlen)
    subst this
    exact ⟨fl, rfl, by simpa using hwf, rfl⟩
  | cons c cs ih =>
    intro ws fl post hwf hlen
    cases ws with
    | nil => simp at hlen
    | cons w ws =>
      obtain ⟨fl', hi, hwf', hsz, _, _⟩ := @WF_insert T fl c (cs ++ post) w (by simpa using hwf)
      obtain ⟨fl2, h2, hwf2, hsz2⟩ := ih ws fl' post hwf' (by simpa using hlen)
      refine ⟨fl2, ?_, hwf2, by rw [hsz2, hsz]⟩
      simp only [insertAll, hi, h2]

theorem insertAll_append : ∀ (vs : List T) (fl : FreeList T), fl.WF [] →
    (∀ i : Int, 0 ≤ i → i < fl.size → ∃ v, fl.get i = .ok v) →
    ∃ idx fl', fl.insertAll vs = .ok (idx, fl') ∧ fl'.WF [] ∧ fl'.size = fl.size + vs.length ∧
      ∀ i : Int, 0 ≤ i → i < fl'.size → ∃ v, fl'.get i = .ok v := by
  intro vs
  induction vs with
  | nil => intro fl hwf hlive; exact ⟨[], fl, rfl, hwf, by simp, hlive⟩
  | cons v vs ih =>
    intro fl hwf hlive
    obtain ⟨fl', hi, hwf', hsz, hget, hslots⟩ := WF_insert_nil v hwf
    have hlive' : ∀ i : Int, 0 ≤ i → i < fl'.size → ∃ w, fl'.get i = .ok w := by
      intro i h0 hlt
      by_cases hi : i = fl.size
      · exact ⟨v, by rw [hi]; exact hget⟩
      · obtain ⟨w, hw⟩ := hlive i h0 (by omega)
        refine ⟨w, ?_⟩
        rw [get_eq_ok_iff] at hw ⊢
        rw [hslots i hi]
        exact hw
    obtain ⟨idx, fl'', h2, hwf2, hsz2, hlive2⟩ := ih fl' hwf' hlive'
    refine ⟨fl.size :: idx, fl'', ?_, hwf2, ?_, hlive2⟩
    · simp only [insertAll, hi, h2]
    · rw [hsz2, hsz]
      simp only [List.length_cons]
      push_cast
      omega

theorem WF_take_drop {fl : FreeList T} {chain : List Int} (k : Nat) (hwf : fl.WF chain) :
    fl.WF (chain.take k ++ chain.drop k) := by
  rw [List.take_append_drop]
  exact hwf

theorem runOps_keeps : ∀ (ops : List (Op T)) (fl : FreeList T) (chain : List Int) (i : Int) (v : T),
    fl.WF chain → fl.get i = .ok v → erasesLiveExcept i fl ops = true →
    ∃ rets fl', fl.runOps ops = .ok (rets, fl') ∧ fl'.get i = .ok v ∧ i ∉ rets := by
  intro ops
  induction ops with
  | nil => intro fl chain i v _ hv _; exact ⟨[], fl, rfl, hv, by simp⟩
  | cons op ops ih =>
    intro fl chain i v hwf hv hval
    have hsl := get_eq_ok_iff.mp hv
    cases op with
    | insert w =>
      cases chain with
      | nil =>
        obtain ⟨fl', hi, hwf', _, _, hslots⟩ := WF_insert_nil w hwf
        have hne : i ≠ fl.size := by have := slot_nonneg hsl; omega
        have hv' : fl'.get i = .ok v := by
          rw [get_eq_ok_iff, hslots i hne]; exact hsl
        simp only [erasesLiveExcept, hi] at hval
        obtain ⟨rets, fl'', hr, hg, hni⟩ := ih fl' [] i v hwf' hv' hval
        refine ⟨fl.size :: rets, fl'', ?_, hg, ?_⟩
        · simp only [runOps, hi, hr]
        · simp [hni, hne]
      | cons c cs =>
        obtain ⟨fl', hi, hwf', _, _, hslots⟩ := WF_insert w hwf
        have hne : i ≠ c := by
          rintro rfl
          obtain ⟨nx, hnx⟩ := isChain_mem hwf.1 i (List.mem_cons_self _ _)
          rw [hsl] at hnx
          cases hnx
        have hv' : fl'.get i = .ok v := by
          rw [get_eq_ok_iff, hslots i hne]; exact hsl
        simp only [erasesLiveExcept, hi] at hval
        obtain ⟨rets, fl'', hr, hg, hni⟩ := ih fl' cs i v hwf' hv' hval
        refine ⟨c :: rets, fl'', ?_, hg, ?_⟩
        · simp only [runOps, hi, hr]
        · simp [hni, hne]
    | erase n =>
      simp only [erasesLiveExcept, Bool.and_eq_true, decide_eq_true_eq] at hval
      obtain ⟨⟨hne, hlv⟩, hrest⟩ := hval
      obtain ⟨w, hw⟩ := isLive_iff.mp hlv
      obtain ⟨fl', he, hwf', _, hslots⟩ := WF_erase hwf hw
      have hv' : fl'.get i = .ok v := by
        rw [get_eq_ok_iff, hslots i (Ne.symm hne)]; exact hsl
      simp only [he] at hrest
      obtain ⟨rets, fl'', hr, hg, hni⟩ := ih fl' (n :: chain) i v hwf' hv' hrest
      refine ⟨rets, fl'', ?_, hg, hni⟩
      simp only [runOps, he, hr]

/-- Claim C9. Arena insert and capacity.  In an arena whose free chain is empty or starts
at an erased slot, `insert(v)` returns an index `i` with `0 ≤ i < size()` afterwards
and `lookup(i) = v`; with an empty chain `i` is the old `size()` and `size()` grows
by one, otherwise `i` is the old chain head and `size()` is unchanged; `erase` never
changes `size()`. -/
theorem insert_index_and_capacity (fl : FreeList T) (v : T)
    (hhead : fl.first_free = -1 ∨ ∃ nx, fl.slot fl.first_free = some (.next nx)) :
    (∃ i fl', fl.insert v = .ok (i, fl') ∧ 0 ≤ i ∧ i < fl'.size ∧ fl'.get i = .ok v ∧
        (fl.first_free = -1 → i = fl.size ∧ fl'.size = fl.size + 1) ∧
        (fl.first_free ≠ -1 → i = fl.first_free ∧ fl'.size = fl.size)) ∧
    (∀ n fl'', fl.erase n = .ok fl'' → fl''.size = fl.size) := by
  constructor
  · rcases hhead with h | ⟨nx, h⟩
    · refine ⟨_, _, insert_append v h, ?_, ?_, ?_, ?_, ?_⟩
      · simp [size]
      · simp [size]
      · rw [get_eq_ok_iff, slot_mk_append]; simp [size]
      · intro _; simp [size]
      · intro hne; exact absurd h hne
    · have hb := slot_nonneg h
      simp only [size] at hb
      refine ⟨_, _, insert_reuse v h, hb.1, ?_, ?_, ?_, ?_⟩
      · simpa [size] using hb.2
      · rw [get_eq_ok_iff, slot_mk_set _ _ _ _ _ hb.1 hb.2]; simp
      · intro h1; omega
      · intro _; simp [size]
  · intro n fl'' he
    unfold erase at he
    cases hs : fl.slot n with
    | none => simp [hs] at he
    | some s =>
      simp only [hs, Except.ok.injEq] at he
      subst he
      simp [size]

/-- A witness of `insert_index_and_capacity`: `sampleArena`, an arena of two slots
whose slot 1 is erased and heads the free chain. -/
theorem insert_index_and_capacity_witness :
    (∃ i fl', sampleArena.insert 9 = .ok (i, fl') ∧ 0 ≤ i ∧ i < fl'.size ∧ fl'.get i = .ok 9 ∧
        (sampleArena.first_free = -1 → i = sampleArena.size ∧ fl'.size = sampleArena.size + 1) ∧
        (sampleArena.first_free ≠ -1 → i = sampleArena.first_free ∧
          fl'.size = sampleArena.size)) ∧
    (∀ n fl'', sampleArena.erase n = .ok fl'' → fl''.size = sampleArena.size) :=
  insert_index_and_capacity sampleArena 9 (Or.inr ⟨-1, by decide⟩)

/-- Claim C7. Arena LIFO reuse.  In the arena reached by inserting the `n` values `vs`
into an empty one, after erasing the distinct live indices `is = [i_1, ..., i_k]` in
that order, the next `insert` calls (any number up to `k`) return `i_k, i_(k-1), ...`
in that order, and `size()` stays what it was. -/
theorem lifo_reuse (vs : List T) (is : List Int) (ws : List T) (hnd : is.Nodup)
    (hlive : ∀ i ∈ is, 0 ≤ i ∧ i < (vs.length : Int)) (hlen : ws.length ≤ is.length) :
    ∃ idx fl0 fl1 fl2, (empty : FreeList T).insertAll vs = .ok (idx, fl0) ∧
      fl0.eraseAll is = .ok fl1 ∧
      fl1.insertAll ws = .ok (is.reverse.take ws.length, fl2) ∧
      fl0.size = vs.length ∧ fl1.size = fl0.size ∧ fl2.size = fl0.size := by
  obtain ⟨idx, fl0, h0, hwf0, hsz0, hlive0⟩ :=
    insertAll_append vs (empty : FreeList T) ⟨rfl, List.nodup_nil⟩
      (by intro i h0 hlt; simp [size, empty] at hlt; omega)
  have hsz0' : fl0.size = vs.length := by rw [hsz0]; simp [size, empty]
  obtain ⟨fl1, h1, hwf1, hsz1⟩ := eraseAll_WF is fl0 [] hwf0 hnd
    (fun i hi => hlive0 i (hlive i hi).1 (by rw [hsz0']; exact (hlive i hi).2))
  rw [List.append_nil] at hwf1
  obtain ⟨fl2, h2, _, hsz2⟩ := insertAll_reuse (is.reverse.take ws.length) ws fl1
    (is.reverse.drop ws.length) (WF_take_drop ws.length hwf1)
    (by rw [List.length_take, List.length_reverse]; omega)
  exact ⟨idx, fl0, fl1, fl2, h0, h1, h2, hsz0', hsz1, by rw [hsz2, hsz1]⟩

/-- A witness of `lifo_reuse`: five inserts, the erasure of 3, 0, 4, then three
inserts, which return 4, 0, 3. -/
theorem lifo_reuse_witness :
    ∃ idx fl0 fl1 fl2, (empty : FreeList Int).insertAll [10, 11, 12, 13, 14] = .ok (idx, fl0) ∧
      fl0.eraseAll [3, 0, 4] = .ok fl1 ∧
      fl1.insertAll [20, 21, 22] = .ok (([3, 0, 4] : List Int).reverse.take [20, 21, 22].length, fl2) ∧
      fl0.size = ([10, 11, 12, 13, 14] : List Int).length ∧ fl1.size = fl0.size ∧
      fl2.size = fl0.size :=
  lifo_reuse [10, 11, 12, 13, 14] [3, 0, 4] [20, 21, 22] (by decide) (by decide) (by decide)

/-! ## The arena: what each operation does to every slot -/


theorem modify_of_get {fl : FreeList T} {n : Int} {v : T} (f : T → T) (h : fl.get n = .ok v) :
    fl.modify n f = .ok ⟨fl.data.set n.toNat (.element (f v)), fl.first_free⟩ := by
  unfold modify
  rw [h]

theorem modify_inv {fl fl' : FreeList T} {n : Int} {f : T → T} (h : fl.modify n f = .ok fl') :
    ∃ v, fl.get n = .ok v ∧ fl' = ⟨fl.data.set n.toNat (.element (f v)), fl.first_free⟩ := by
  unfold modify at h
  cases hg : fl.get n with
  | error e => rw [hg] at h; cases h
  | ok v => rw [hg] at h; cases h; exact ⟨v, rfl, rfl⟩

theorem slot_modify {fl fl' : FreeList T} {n : Int} {f : T → T} {v : T}
    (hg : fl.get n = .ok v) (h : fl.modify n f = .ok fl') (m : Int) :
    fl'.slot m = if m = n then some (.element (f v)) else fl.slot m := by
  rw [modify_of_get f hg] at h
  cases h
  have hb := slot_nonneg (get_eq_ok_iff.mp hg)
  simp only [size] at hb
  rw [slot_mk_set _ _ _ _ _ hb.1 hb.2]

theorem get_modify_self {fl fl' : FreeList T} {n : Int} {f : T → T} {v : T}
    (hg : fl.get n = .ok v) (h : fl.modify n f = .ok fl') : fl'.get n = .ok (f v) := by
  rw [get_eq_ok_iff, slot_modify hg h]
  simp

theorem get_modify_ne {fl fl' : FreeList T} {n m : Int} {f : T → T}
    (h : fl.modify n f = .ok fl') (hne : m ≠ n) : fl'.get m = fl.get m := by
  obtain ⟨v, hg, _⟩ := modify_inv h
  have := slot_modify hg h m
  simp only [hne, if_false] at this
  unfold get
  rw [this]

/-- The index returned by `insert` was not live before; afterwards it holds the
inserted value and every other slot is unchanged. -/
theorem insert_inv {fl fl' : FreeList T} {v : T} {i : Int} (h : fl.insert v = .ok (i, fl')) :
    0 ≤ i ∧ (∀ w, fl.slot i ≠ some (.element w)) ∧ fl'.slot i = some (.element v) ∧
      ∀ m, m ≠ i → fl'.slot m = fl.slot m := by
  unfold insert at h
  split at h
  · cases hs : fl.slot fl.first_free with
    | none => rw [hs] at h; cases h
    | some s =>
      cases s with
      | element e => rw [hs] at h; cases h
      | next nx =>
        rw [hs] at h
        simp only [Except.ok.injEq, Prod.mk.injEq] at h
        obtain ⟨rfl, rfl⟩ := h
        have hb := slot_nonneg hs
        simp only [size] at hb
        refine ⟨hb.1, ?_, ?_, ?_⟩
        · intro w hw; rw [hs] at hw; cases hw
        · rw [slot_mk_set _ _ _ _ _ hb.1 hb.2]; simp
        · intro m hm
          rw [slot_mk_set _ _ _ _ _ hb.1 hb.2]
          simp [hm, slot]
  · simp only [Except.ok.injEq, Prod.mk.injEq] at h
    obtain ⟨rfl, rfl⟩ := h
    refine ⟨by simp [size], ?_, ?_, ?_⟩
    · intro w hw
      have := slot_nonneg hw
      omega
    · rw [slot_mk_append]; simp [size]
    · intro m hm
      rw [slot_mk_append]
      simp only [size] at hm
      simp [hm, slot]

theorem get_insert_of_get {fl fl' : FreeList T} {v w : T} {i n : Int}
    (h : fl.insert v = .ok (i, fl')) (hg : fl.get n = .ok w) : i ≠ n ∧ fl'.get n = .ok w := by
  obtain ⟨_, hfree, _, hother⟩ := insert_inv h
  have hne : i ≠ n := by
    rintro rfl
    exact hfree w (get_eq_ok_iff.mp hg)
  refine ⟨hne, ?_⟩
  rw [get_eq_ok_iff, hother n (Ne.symm hne)]
  exact get_eq_ok_iff.mp hg

theorem erase_inv {fl fl' : FreeList T} {n : Int} (h : fl.erase n = .ok fl') :
    (∃ s, fl.slot n = some s) ∧ fl'.first_free = n ∧
      ∀ m, fl'.slot m = if m = n then some (.next fl.first_free) else fl.slot m := by
  unfold erase at h
  cases hs : fl.slot n with
  | none => rw [hs] at h; cases h
  | some s =>
    rw [hs] at h
    simp only [Except.ok.injEq] at h
    subst h
    have hb := slot_nonneg hs
    simp only [size] at hb
    refine ⟨⟨s, rfl⟩, rfl, ?_⟩
    intro m
    rw [slot_mk_set _ _ _ _ _ hb.1 hb.2]
    rfl

theorem get_erase_ne {fl fl' : FreeList T} {n m : Int} (h : fl.erase n = .ok fl') (hne : m ≠ n) :
    fl'.get m = fl.get m := by
  obtain ⟨_, _, hs⟩ := erase_inv h
  have := hs m
  simp only [hne, if_false] at this
  unfold get
  rw [this]

end FreeList

/-! ## Construction, and the first walk over a fresh tree -/

theorem new_eq (width height maxElements maxDepth tempBufferSize fni : Int) :
    Quadtree.new width height maxElements maxDepth tempBufferSize fni =
      .ok { maxDepth := maxDepth
            maxElements := maxElements
            elements := FreeList.empty
            elementNodes := FreeList.empty
            nodes := ⟨[.element ⟨-1, -1⟩], -1⟩
            freeNodeIndex := fni
            tempBuffer := List.replicate tempBufferSize.toNat false
            rootMx := width.tdiv 2
            rootMy := height.tdiv 2
            rootHx := width.tdiv 2
            rootHy := height.tdiv 2 } := rfl

/-- In a node arena that holds only the root as constructed, `QuadNode(-1, -1)`, every
successful lookup yields that record. -/
theorem get_root_only {n : Int} {node : QuadNode}
    (h : (⟨[.element ⟨-1, -1⟩], -1⟩ : FreeList QuadNode).get n = .ok node) :
    node = ⟨-1, -1⟩ := by
  rw [FreeList.get_eq_ok_iff] at h
  unfold FreeList.slot at h
  split at h
  · cases h
  · cases hn : n.toNat with
    | zero => rw [hn] at h; simp at h; exact h.symm
    | succ k => rw [hn] at h; simp at h

theorem pushIf_ne_nil {c0 c1 c2 c3 : Bool} (a0 a1 a2 a3 : QuadNodeData) (s : List QuadNodeData)
    (h : (c0 || c1 || c2 || c3) = true) :
    pushIf c3 a3 (pushIf c2 a2 (pushIf c1 a1 (pushIf c0 a0 s))) ≠ [] := by
  cases c0 <;> cases c1 <;> cases c2 <;> cases c3 <;> simp [pushIf] at h ⊢

/-- A rectangle with `x1 ≤ x2` and `y1 ≤ y2` selects at least one of the four
children of any branch. -/
theorem some_child_selected (x1 y1 x2 y2 mx my : Int) (hx : x1 ≤ x2) (hy : y1 ≤ y2) :
    ((decide (y1 ≤ my) && decide (x1 ≤ mx)) || (decide (y1 ≤ my) && decide (x2 > mx)) ||
      (decide (y2 > my) && decide (x1 ≤ mx)) || (decide (y2 > my) && decide (x2 > mx))) = true := by
  by_cases h1 : y1 ≤ my <;> by_cases h2 : x1 ≤ mx <;> by_cases h3 : y2 > my <;>
    by_cases h4 : x2 > mx <;> simp [h1, h2, h3, h4] <;> omega

/-- On the node arena of a fresh tree the leaf walk never finishes with a result once
its stack is non-empty: the root is a branch, so no record is ever a leaf, every
pop of the root pushes a child, and every other index is outside the arena. -/
theorem findLeavesLoop_fresh (x1 y1 x2 y2 : Int) (hx : x1 ≤ x2) (hy : y1 ≤ y2) :
    ∀ (fuel : Nat) (toProcess leaves : List QuadNodeData), toProcess ≠ [] →
      ∀ r, findLeavesLoop ⟨[.element ⟨-1, -1⟩], -1⟩ x1 y1 x2 y2 fuel toProcess leaves ≠ .ok r := by
  intro fuel
  induction fuel with
  | zero =>
    intro toProcess leaves hne r
    cases toProcess with
    | nil => exact absurd rfl hne
    | cons nd rest => simp [findLeavesLoop]
  | succ fuel ih =>
    intro toProcess leaves hne r
    cases toProcess with
    | nil => exact absurd rfl hne
    | cons nd rest =>
      rw [findLeavesLoop]
      cases hg : (⟨[.element ⟨-1, -1⟩], -1⟩ : FreeList QuadNode).get nd.nodeIndex with
      | error f => simp
      | ok node =>
        have hnode := get_root_only hg
        subst hnode
        simp only [ne_eq, not_true_eq_false, if_false]
        exact ih _ _ (pushIf_ne_nil _ _ _ _ _ (some_child_selected x1 y1 x2 y2 _ _ hx hy)) r

theorem insert_fresh_fails (fuel : Nat) (width height maxElements maxDepth tempBufferSize fni : Int)
    (id x1 y1 x2 y2 : Int) (hx : x1 ≤ x2) (hy : y1 ≤ y2) (q : Quadtree)
    (hq : Quadtree.new width height maxElements maxDepth tempBufferSize fni = .ok q) :
    ∀ r, insert fuel q id x1 y1 x2 y2 ≠ .ok r := by
  rw [new_eq] at hq
  cases hq
  intro r
  unfold insert
  rw [FreeList.insert_append _ rfl]
  simp only
  cases fuel with
  | zero => simp [nodeInsert]
  | succ fuel =>
    rw [nodeInsert]
    have hget : (⟨FreeList.empty.data ++ [.element ⟨id, x1, y1, x2, y2⟩], -1⟩ :
        FreeList QuadElement).get (FreeList.empty : FreeList QuadElement).size =
        .ok ⟨id, x1, y1, x2, y2⟩ := rfl
    rw [hget]
    simp only [findLeaves]
    cases hf : findLeavesLoop ⟨[.element ⟨-1, -1⟩], -1⟩ x1 y1 x2 y2 (fuel + 1)
        [⟨0, 0, width.tdiv 2, height.tdiv 2, width.tdiv 2, height.tdiv 2⟩] [] with
    | error f => simp
    | ok leaves => exact absurd hf (findLeavesLoop_fresh x1 y1 x2 y2 hx hy _ _ _ (by simp) leaves)

/-- Claim C3. Construction.  The constructor yields a node arena holding exactly one
node, at index 0, and the root centre and half-extent are `(width/2, height/2)`; but
the root node it stores is `QuadNode(-1, -1)`: its `count` is the branch sentinel
`-1`, not `0`. -/
theorem constructor_root_has_branch_sentinel
    (width height maxElements maxDepth tempBufferSize fni : Int) :
    ∃ q, Quadtree.new width height maxElements maxDepth tempBufferSize fni = .ok q ∧
      q.nodes.size = 1 ∧ q.nodes.get 0 = .ok ⟨-1, -1⟩ ∧
      (∀ node, q.nodes.get 0 = .ok node → node.count = -1 ∧ node.count ≠ 0) ∧
      q.rootMx = width.tdiv 2 ∧ q.rootMy = height.tdiv 2 ∧
      q.rootHx = width.tdiv 2 ∧ q.rootHy = height.tdiv 2 := by
  refine ⟨_, new_eq _ _ _ _ _ _, rfl, rfl, ?_, rfl, rfl, rfl, rfl⟩
  intro node h
  have : node = ⟨-1, -1⟩ := get_root_only h
  subst this
  decide

/-- Claim C1. Containment round-trip.  On a freshly constructed tree, `insert` of any
rectangle with `x1 ≤ x2` and `y1 ≤ y2` never returns, whatever the fuel: the walk
starts at the root, which the constructor stored as a branch without children, so
it either leaves the node arena or revisits the root for ever.  No element is ever
linked, so there is nothing for `query` to return. -/
theorem insert_into_fresh_tree_never_returns (fuel : Nat)
    (width height maxElements maxDepth tempBufferSize fni id x1 y1 x2 y2 : Int)
    (hx : x1 ≤ x2) (hy : y1 ≤ y2) :
    ∃ q, Quadtree.new width height maxElements maxDepth tempBufferSize fni = .ok q ∧
      ∀ r, insert fuel q id x1 y1 x2 y2 ≠ .ok r :=
  ⟨_, new_eq _ _ _ _ _ _,
    insert_fresh_fails fuel width height maxElements maxDepth tempBufferSize fni id x1 y1 x2 y2
      hx hy _ (new_eq _ _ _ _ _ _)⟩

/-- A witness of `insert_into_fresh_tree_never_returns`: the demonstration of `main`,
`Quadtree quadtree(1000, 1000, 50, 10, 100)` followed by
`insert(10, 10, 10, 20, 20)`. -/
theorem insert_into_fresh_tree_never_returns_witness :
    ∃ q, Quadtree.new 1000 1000 50 10 100 0 = .ok q ∧
      ∀ r, insert 64 q 10 10 10 20 20 ≠ .ok r :=
  insert_into_fresh_tree_never_returns 64 1000 1000 50 10 100 0 10 10 10 20 20
    (by decide) (by decide)


/-! ## Insertion: what it leaves alone, and the subdividing branch -/

theorem SameOutside.refl (q : Quadtree) : SameOutside q q :=
  ⟨rfl, rfl, rfl, rfl, rfl, rfl, rfl, rfl, rfl⟩

theorem SameOutside.trans {q1 q2 q3 : Quadtree} (h12 : SameOutside q1 q2)
    (h23 : SameOutside q2 q3) : SameOutside q1 q3 :=
  ⟨h23.maxDepth.trans h12.maxDepth, h23.maxElements.trans h12.maxElements,
    h23.elements.trans h12.elements, h23.freeNodeIndex.trans h12.freeNodeIndex,
    h23.tempBuffer.trans h12.tempBuffer, h23.rootMx.trans h12.rootMx,
    h23.rootMy.trans h12.rootMy, h23.rootHx.trans h12.rootHx, h23.rootHy.trans h12.rootHy⟩

theorem SameOutside.arenas (q : Quadtree) (nodes : FreeList QuadNode)
    (elementNodes : FreeList QuadElementNode) :
    SameOutside q { q with nodes := nodes, elementNodes := elementNodes } :=
  ⟨rfl, rfl, rfl, rfl, rfl, rfl, rfl, rfl, rfl⟩

theorem forEach_rel {α : Type} (R : Quadtree → Quadtree → Prop) (hrefl : ∀ q, R q q)
    (htrans : ∀ q1 q2 q3, R q1 q2 → R q2 q3 → R q1 q3)
    (body : Quadtree → α → Except Fault Quadtree)
    (hbody : ∀ q a q', body q a = .ok q' → R q q') :
    ∀ (l : List α) (q q' : Quadtree), forEach body l q = .ok q' → R q q' := by
  intro l
  induction l with
  | nil => intro q q' h; simp only [forEach, Except.ok.injEq] at h; subst h; exact hrefl q
  | cons a rest ih =>
    intro q q' h
    rw [forEach] at h
    cases hb : body q a with
    | error e => rw [hb] at h; cases h
    | ok q1 =>
      rw [hb] at h
      exact htrans _ _ _ (hbody q a q1 hb) (ih q1 q' h)

theorem forEach_sameOutside {α : Type} (body : Quadtree → α → Except Fault Quadtree)
    (hbody : ∀ q a q', body q a = .ok q' → SameOutside q q') (l : List α) (q q' : Quadtree)
    (h : forEach body l q = .ok q') : SameOutside q q' :=
  forEach_rel SameOutside SameOutside.refl (fun _ _ _ => SameOutside.trans) body hbody l q q' h

/-- The pop loop of `leafInsert` touches only the two link arenas, keeps the `count` of
the node, appends to `tempElements`, and appends at least one index when the list
of the node is not empty. -/
theorem popLoop_inv (nodeIndex : Int) :
    ∀ (fuel : Nat) (q q2 : Quadtree) (acc temp : List Int) (node : QuadNode),
      popLoop nodeIndex fuel q acc = .ok (q2, temp) → q.nodes.get nodeIndex = .ok node →
      SameOutside q q2 ∧ (∃ fc, q2.nodes.get nodeIndex = .ok ⟨fc, node.count⟩) ∧
        ∃ extra, temp = acc ++ extra ∧ (node.firstChildIndex ≠ -1 → extra ≠ []) := by
  intro fuel
  induction fuel with
  | zero => intro q q2 acc temp node h _; simp [popLoop] at h
  | succ fuel ih =>
    intro q q2 acc temp node h hnode
    rw [popLoop, hnode] at h
    simp only at h
    split at h
    · rename_i hfc
      cases hc : q.elementNodes.get node.firstChildIndex with
      | error e => rw [hc] at h; cases h
      | ok cell =>
        rw [hc] at h
        simp only at h
        cases hm : q.nodes.modify nodeIndex
            (fun n => { n with firstChildIndex := cell.nextIndex }) with
        | error e => rw [hm] at h; cases h
        | ok nodes =>
          rw [hm] at h
          simp only at h
          cases he : q.elementNodes.erase node.firstChildIndex with
          | error e => rw [he] at h; cases h
          | ok elementNodes =>
            rw [he] at h
            simp only at h
            have hnode' := FreeList.get_modify_self hnode hm
            obtain ⟨hso, hcount, extra, hextra, _⟩ := ih _ q2 _ temp _ h hnode'
            refine ⟨(SameOutside.arenas q nodes elementNodes).trans hso, hcount,
              cell.elementIndex :: extra, ?_, fun _ => by simp⟩
            rw [hextra, List.append_assoc]
            rfl
    · rename_i hfc
      simp only [Except.ok.injEq, Prod.mk.injEq] at h
      obtain ⟨rfl, rfl⟩ := h
      exact ⟨SameOutside.refl q, ⟨node.firstChildIndex, hnode⟩, [], by simp,
        fun hne => absurd hne hfc⟩

theorem allocChildren_inv {q q3 : Quadtree} {nodeIndex : Int} {node : QuadNode}
    (h : allocChildren q nodeIndex = .ok q3) (hnode : q.nodes.get nodeIndex = .ok node) :
    SameOutside q q3 ∧ q3.elementNodes = q.elementNodes ∧
      ∃ fc, q3.nodes.get nodeIndex = .ok ⟨fc, node.count⟩ := by
  unfold allocChildren at h
  cases h0 : q.nodes.insert ⟨-1, 0⟩ with
  | error e => rw [h0] at h; cases h
  | ok r0 =>
    obtain ⟨fc, n0⟩ := r0
    rw [h0] at h
    simp only at h
    have hg0 := (FreeList.get_insert_of_get h0 hnode).2
    cases hm : n0.modify nodeIndex (fun n => { n with firstChildIndex := fc }) with
    | error e => rw [hm] at h; cases h
    | ok n0' =>
      rw [hm] at h
      simp only at h
      have hg0' := FreeList.get_modify_self hg0 hm
      cases h1 : n0'.insert ⟨-1, 0⟩ with
      | error e => rw [h1] at h; cases h
      | ok r1 =>
        obtain ⟨i1, n1⟩ := r1
        rw [h1] at h
        simp only at h
        have hg1 := (FreeList.get_insert_of_get h1 hg0').2
        cases h2 : n1.insert ⟨-1, 0⟩ with
        | error e => rw [h2] at h; cases h
        | ok r2 =>
          obtain ⟨i2, n2⟩ := r2
          rw [h2] at h
          simp only at h
          have hg2 := (FreeList.get_insert_of_get h2 hg1).2
          cases h3 : n2.insert ⟨-1, 0⟩ with
          | error e => rw [h3] at h; cases h
          | ok r3 =>
            obtain ⟨i3, n3⟩ := r3
            rw [h3] at h
            simp only [Except.ok.injEq] at h
            subst h
            have hg3 := (FreeList.get_insert_of_get h3 hg2).2
            exact ⟨⟨rfl, rfl, rfl, rfl, rfl, rfl, rfl, rfl, rfl⟩, rfl, fc, hg3⟩

theorem nodeInsert_leafInsert_sameOutside : ∀ fuel : Nat,
    (∀ (q q' : Quadtree) (index depth mx my hx hy elt : Int),
      nodeInsert fuel q index depth mx my hx hy elt = .ok q' → SameOutside q q') ∧
    (∀ (q q' : Quadtree) (nodeIndex depth mx my hx hy elt : Int),
      leafInsert fuel q nodeIndex depth mx my hx hy elt = .ok q' → SameOutside q q') := by
  intro fuel
  induction fuel with
  | zero =>
    constructor
    · intro q q' index depth mx my hx hy elt h; simp [nodeInsert] at h
    · intro q q' index depth mx my hx hy elt h; simp [leafInsert] at h
  | succ fuel ih =>
    obtain ⟨ihN, ihL⟩ := ih
    constructor
    · intro q q' index depth mx my hx hy elt h
      rw [nodeInsert] at h
      cases hel : q.elements.get elt with
      | error e => rw [hel] at h; cases h
      | ok el =>
        rw [hel] at h
        simp only at h
        cases hf : findLeaves (fuel + 1) q index depth mx my hx hy el.x1 el.y1 el.x2 el.y2 with
        | error e => rw [hf] at h; cases h
        | ok leaves =>
          rw [hf] at h
          exact forEach_sameOutside _ (fun q1 l q2 hb => ihL q1 q2 _ _ _ _ _ _ _ hb) _ _ _ h
    · intro q q' nodeIndex depth mx my hx hy elt h
      rw [leafInsert] at h
      cases hn : q.nodes.get nodeIndex with
      | error e => rw [hn] at h; cases h
      | ok node0 =>
        rw [hn] at h
        simp only at h
        cases hi : q.elementNodes.insert ⟨node0.firstChildIndex, elt⟩ with
        | error e => rw [hi] at h; cases h
        | ok r =>
          obtain ⟨cellIndex, elementNodes⟩ := r
          rw [hi] at h
          simp only at h
          cases hm : q.nodes.modify nodeIndex (fun n => { n with firstChildIndex := cellIndex }) with
          | error e => rw [hm] at h; cases h
          | ok nodes =>
            rw [hm] at h
            simp only at h
            have hq1 := SameOutside.arenas q nodes elementNodes
            split at h
            · cases hp : popLoop nodeIndex (fuel + 1)
                  { q with nodes := nodes, elementNodes := elementNodes } [] with
              | error e => rw [hp] at h; cases h
              | ok r2 =>
                obtain ⟨q2, temp⟩ := r2
                rw [hp] at h
                simp only at h
                have hnode1 := FreeList.get_modify_self hn hm
                obtain ⟨hso2, ⟨fc2, hnode2⟩, _⟩ := popLoop_inv nodeIndex _ _ _ _ _ _ hp hnode1
                cases ha : allocChildren q2 nodeIndex with
                | error e => rw [ha] at h; cases h
                | ok q3 =>
                  rw [ha] at h
                  simp only at h
                  obtain ⟨hso3, _, _⟩ := allocChildren_inv ha hnode2
                  exact ((hq1.trans hso2).trans hso3).trans
                    (forEach_sameOutside _ (fun q1 e q2 hb => ihN q1 q2 _ _ _ _ _ _ _ hb) _ _ _ h)
            · cases hm2 : nodes.modify nodeIndex (fun n => { n with count := n.count + 1 }) with
              | error e => simp only [hm2] at h; cases h
              | ok nodes' =>
                simp only [hm2, Except.ok.injEq] at h
                subst h
                exact ⟨rfl, rfl, rfl, rfl, rfl, rfl, rfl, rfl, rfl⟩

theorem findLeaves_of_leaf {fuel : Nat} {q : Quadtree} {nodeIndex : Int} {node : QuadNode}
    (depth mx my hx hy x1 y1 x2 y2 : Int) (hnode : q.nodes.get nodeIndex = .ok node)
    (hleaf : node.count ≠ -1) :
    findLeaves (fuel + 1) q nodeIndex depth mx my hx hy x1 y1 x2 y2 =
      .ok [⟨nodeIndex, depth, mx, my, hx, hy⟩] := by
  unfold findLeaves
  rw [findLeavesLoop, hnode]
  simp only [hleaf, ne_eq, not_false_eq_true, if_true]
  cases fuel <;> rfl

/-- The subdividing branch of `leafInsert` never returns.  It leaves the `count` of the
node at `maxElements`, so the walk of the re-insertion emits this very node as a leaf
and `leafInsert` is entered on it again, in the same situation. -/
theorem leafInsert_full_fails : ∀ (fuel : Nat) (q : Quadtree)
    (nodeIndex depth mx my hx hy elt : Int) (node0 : QuadNode),
    q.nodes.get nodeIndex = .ok node0 → node0.count = q.maxElements → node0.count ≠ -1 →
    depth < q.maxDepth → ∀ r, leafInsert fuel q nodeIndex depth mx my hx hy elt ≠ .ok r := by
  intro fuel
  induction fuel using Nat.strong_induction_on with
  | _ fuel ih =>
    intro q nodeIndex depth mx my hx hy elt node0 hn hfull hleaf hdepth r h
    cases fuel with
    | zero => simp [leafInsert] at h
    | succ fuel =>
      rw [leafInsert, hn] at h
      simp only at h
      cases hi : q.elementNodes.insert ⟨node0.firstChildIndex, elt⟩ with
      | error e => rw [hi] at h; cases h
      | ok r1 =>
        obtain ⟨cellIndex, elementNodes⟩ := r1
        rw [hi] at h
        simp only at h
        cases hm : q.nodes.modify nodeIndex (fun n => { n with firstChildIndex := cellIndex }) with
        | error e => rw [hm] at h; cases h
        | ok nodes =>
          rw [hm] at h
          simp only [hfull, hdepth, and_self, if_true] at h
          cases hp : popLoop nodeIndex (fuel + 1)
              { q with nodes := nodes, elementNodes := elementNodes } [] with
          | error e => rw [hp] at h; cases h
          | ok r2 =>
            obtain ⟨q2, temp⟩ := r2
            rw [hp] at h
            simp only at h
            have hnode1 := FreeList.get_modify_self hn hm
            obtain ⟨hso2, ⟨fc2, hnode2⟩, extra, hextra, hne⟩ :=
              popLoop_inv nodeIndex _ _ _ _ _ _ hp hnode1
            have hcell : cellIndex ≠ -1 := by
              have := (FreeList.insert_inv hi).1
              omega
            have hne' := hne hcell
            simp only [List.nil_append] at hextra
            subst hextra
            cases ha : allocChildren q2 nodeIndex with
            | error e => rw [ha] at h; cases h
            | ok q3 =>
              rw [ha] at h
              simp only at h
              obtain ⟨hso3, _, fc3, hnode3⟩ := allocChildren_inv ha hnode2
              cases temp with
              | nil => exact hne' rfl
              | cons e0 rest =>
                rw [forEach] at h
                cases hb : nodeInsert fuel q3 nodeIndex depth mx my hx hy e0 with
                | error e => rw [hb] at h; cases h
                | ok q4 =>
                  cases fuel with
                  | zero => simp [nodeInsert] at hb
                  | succ f =>
                    rw [nodeInsert] at hb
                    cases hel : q3.elements.get e0 with
                    | error e => rw [hel] at hb; cases hb
                    | ok el =>
                      rw [hel] at hb
                      simp only at hb
                      rw [findLeaves_of_leaf depth mx my hx hy _ _ _ _ hnode3 hleaf] at hb
                      simp only [forEach] at hb
                      cases hl : leafInsert f q3 nodeIndex depth mx my hx hy e0 with
                      | error e => rw [hl] at hb; cases hb
                      | ok q5 =>
                        have hso := (SameOutside.arenas q nodes elementNodes).trans
                          (hso2.trans hso3)
                        exact ih f (by omega) q3 nodeIndex depth mx my hx hy e0 _ hnode3
                          (by rw [hso.maxElements]; exact hfull) hleaf
                          (by rw [hso.maxDepth]; exact hdepth) q5 hl

/-- Claim C4. Subdivision.  When `leafInsert` is applied to a leaf whose `count` equals
`maxElements` at a depth below `maxDepth`, it does not return at all, whatever the
fuel: the subdividing branch never assigns the branch sentinel to `count`, so the
re-insertion walk started at the node emits the node itself as a leaf, and
`leafInsert` is entered on it again with `count` still equal to `maxElements`. -/
theorem subdividing_leafInsert_never_returns (fuel : Nat) (q : Quadtree)
    (nodeIndex depth mx my hx hy elementIndex : Int) (node : QuadNode)
    (hnode : q.nodes.get nodeIndex = .ok node) (hfull : node.count = q.maxElements)
    (hleaf : node.count ≠ -1) (hdepth : depth < q.maxDepth) :
    ∀ r, leafInsert fuel q nodeIndex depth mx my hx hy elementIndex ≠ .ok r :=
  leafInsert_full_fails fuel q nodeIndex depth mx my hx hy elementIndex node hnode hfull hleaf
    hdepth

/-- A witness of `subdividing_leafInsert_never_returns`: the root leaf of
`sampleFullLeaf` links two elements with `maxElements = 2`, and the third element is
inserted into it at depth 0. -/
theorem subdividing_leafInsert_never_returns_witness :
    sampleFullLeaf.nodes.get 0 = .ok ⟨1, 2⟩ ∧
      ∀ r, leafInsert 32 sampleFullLeaf 0 0 50 50 50 50 2 ≠ .ok r :=
  ⟨rfl, subdividing_leafInsert_never_returns 32 sampleFullLeaf 0 0 50 50 50 50 2 ⟨1, 2⟩ rfl rfl
    (by decide) (by decide)⟩

/-- An `insert` into a tree whose root is a leaf that already holds `maxElements`
elements never returns, because it enters the subdividing branch of `leafInsert`. -/
theorem insert_full_root_fails (q : Quadtree) (node : QuadNode) (id x1 y1 x2 y2 : Int)
    (hnode : q.nodes.get 0 = .ok node) (hfull : node.count = q.maxElements)
    (hleaf : node.count ≠ -1) (hdepth : 0 < q.maxDepth) :
    ∀ fuel r, insert fuel q id x1 y1 x2 y2 ≠ .ok r := by
  intro fuel r h
  unfold insert at h
  cases hi : q.elements.insert ⟨id, x1, y1, x2, y2⟩ with
  | error f => rw [hi] at h; cases h
  | ok p =>
    obtain ⟨idx, elements⟩ := p
    rw [hi] at h
    simp only at h
    cases hn : nodeInsert fuel { q with elements := elements } 0 0 q.rootMx q.rootMy q.rootHx
        q.rootHy idx with
    | error f => rw [hn] at h; cases h
    | ok q' =>
      cases fuel with
      | zero => simp [nodeInsert] at hn
      | succ fuel =>
        rw [nodeInsert] at hn
        cases hel : elements.get idx with
        | error f => simp only [hel] at hn; cases hn
        | ok el =>
          simp only [hel] at hn
          have hnode' : ({ q with elements := elements } : Quadtree).nodes.get 0 = .ok node := hnode
          rw [findLeaves_of_leaf 0 q.rootMx q.rootMy q.rootHx q.rootHy _ _ _ _ hnode' hleaf] at hn
          simp only [forEach] at hn
          cases hl : leafInsert fuel { q with elements := elements } 0 0 q.rootMx q.rootMy
              q.rootHx q.rootHy idx with
          | error f => rw [hl] at hn; cases hn
          | ok q5 =>
            exact leafInsert_full_fails fuel _ 0 0 q.rootMx q.rootMy q.rootHx q.rootHy idx node
              hnode' hfull hleaf hdepth q5 hl

/-- Claim C2. Exact query result, on the scenario of the specification (width = height =
100, maxElements = 2, maxDepth = 4; A = (10,10,20,20), B = (30,30,40,40),
C = (12,12,18,18)).  On the tree that the constructor builds, the first call, the
insert of A, reads `nodes[-1]` (the fault `outOfRange`) and returns for no fuel.  On
the same tree with the root stored as an empty leaf, the inserts of A and B return
and the insert of C, the third element of the root leaf, returns for no fuel.  In
neither case is a query of the scenario reached. -/
theorem scenario_insert_never_completes :
    (∃ q, Quadtree.new 100 100 2 4 0 0 = .ok q ∧
      insert 8 q 0 10 10 20 20 = .error .outOfRange ∧
      ∀ fuel r, insert fuel q 0 10 10 20 20 ≠ .ok r) ∧
    insert 8 scenarioLeafRoot 0 10 10 20 20 = .ok (0, scenarioAfterA) ∧
    insert 8 scenarioAfterA 1 30 30 40 40 = .ok (1, scenarioAfterAB) ∧
    insert 8 scenarioAfterAB 2 12 12 18 18 = .error .inactiveMember ∧
    ∀ fuel r, insert fuel scenarioAfterAB 2 12 12 18 18 ≠ .ok r :=
  ⟨⟨_, new_eq _ _ _ _ _ _, by decide,
      fun fuel => insert_fresh_fails fuel 100 100 2 4 0 0 0 10 10 20 20 (by decide) (by decide) _
        (new_eq _ _ _ _ _ _)⟩,
    by decide, by decide, by decide!,
    insert_full_root_fails scenarioAfterAB ⟨1, 2⟩ 2 12 12 18 18 (by decide) (by decide)
      (by decide) (by decide)⟩

/-! ## Index stability -/

theorem removeFromLeaf_sameOutside {fuel : Nat} {elementIndex : Int} {q q' : Quadtree}
    {nodeIndex : Int} (h : removeFromLeaf fuel elementIndex q nodeIndex = .ok q') :
    SameOutside q q' := by
  unfold removeFromLeaf at h
  cases hn : q.nodes.get nodeIndex with
  | error e => rw [hn] at h; cases h
  | ok node =>
    rw [hn] at h
    simp only at h
    cases hs : removeScan q.elementNodes elementIndex fuel node.firstChildIndex (-1) with
    | error e => rw [hs] at h; cases h
    | ok r =>
      obtain ⟨eni, prev⟩ := r
      rw [hs] at h
      simp only at h
      split at h
      · cases hc : q.elementNodes.get eni with
        | error e => rw [hc] at h; cases h
        | ok cell =>
          rw [hc] at h
          simp only at h
          split at h
          · cases h
          · rename_i q1 hq1
            have hso1 : SameOutside q q1 := by
              split at hq1
              · split at hq1
                · cases hq1
                · cases hq1; exact ⟨rfl, rfl, rfl, rfl, rfl, rfl, rfl, rfl, rfl⟩
              · split at hq1
                · cases hq1
                · cases hq1; exact ⟨rfl, rfl, rfl, rfl, rfl, rfl, rfl, rfl, rfl⟩
            split at h
            · cases h
            · split at h
              · cases h
              · cases h
                exact hso1.trans ⟨rfl, rfl, rfl, rfl, rfl, rfl, rfl, rfl, rfl⟩
      · cases h
        exact SameOutside.refl q

theorem insert_keeps_record {fuel : Nat} {q q1 : Quadtree} {id x1 y1 x2 y2 r i : Int}
    {e : QuadElement} (hlive : q.elements.get i = .ok e)
    (h : insert fuel q id x1 y1 x2 y2 = .ok (r, q1)) : r ≠ i ∧ q1.elements.get i = .ok e := by
  unfold insert at h
  cases hi : q.elements.insert ⟨id, x1, y1, x2, y2⟩ with
  | error f => rw [hi] at h; cases h
  | ok p =>
    obtain ⟨idx, elements⟩ := p
    rw [hi] at h
    simp only at h
    cases hn : nodeInsert fuel { q with elements := elements } 0 0 q.rootMx q.rootMy q.rootHx
        q.rootHy idx with
    | error f => rw [hn] at h; cases h
    | ok q' =>
      rw [hn] at h
      simp only [Except.ok.injEq, Prod.mk.injEq] at h
      obtain ⟨rfl, rfl⟩ := h
      have hso := (nodeInsert_leafInsert_sameOutside fuel).1 _ _ _ _ _ _ _ _ _ hn
      have := FreeList.get_insert_of_get hi hlive
      rw [hso.elements]
      exact this

theorem remove_keeps_record {fuel : Nat} {q q2 : Quadtree} {i j : Int} {e : QuadElement}
    (hlive : q.elements.get i = .ok e) (hne : j ≠ i) (h : remove fuel q j = .ok q2) :
    q2.elements.get i = .ok e := by
  unfold remove at h
  cases hj : q.elements.get j with
  | error f => rw [hj] at h; cases h
  | ok ej =>
    rw [hj] at h
    simp only at h
    cases hf : findLeaves fuel q 0 0 q.rootMx q.rootMy q.rootHx q.rootHy ej.x1 ej.y1 ej.x2 ej.y2 with
    | error f => rw [hf] at h; cases h
    | ok leaves =>
      rw [hf] at h
      simp only at h
      cases hl : forEach (fun q' (l : QuadNodeData) => removeFromLeaf fuel j q' l.nodeIndex)
          leaves q with
      | error f => rw [hl] at h; cases h
      | ok q1 =>
        rw [hl] at h
        simp only at h
        have hso := forEach_sameOutside _ (fun _ _ _ hb => removeFromLeaf_sameOutside hb) _ _ _ hl
        cases he : q1.elements.erase j with
        | error f => rw [he] at h; cases h
        | ok elements =>
          rw [he] at h
          simp only [Except.ok.injEq] at h
          subst h
          show elements.get i = .ok e
          rw [FreeList.get_erase_ne he (Ne.symm hne), hso.elements]
          exact hlive

/-- Claim C8. Index stability.  In an arena satisfying its invariant, if index `i` is
live and holds `v`, then after any run of `insert` calls and of `erase` calls on live
indices other than `i`, the run has returned, lookup at `i` still yields `v`, and no
`insert` of the run returned `i`.  In particular a `Quadtree::insert`, and a
`Quadtree::remove` of another element, leave the record stored at a live element
index `k` unchanged, and the insert does not return `k`. -/
theorem index_stability {T : Type} (fl : FreeList T) (chain : List Int) (i : Int) (v : T)
    (ops : List (FreeList.Op T)) (hwf : fl.WF chain) (hlive : fl.get i = .ok v)
    (hops : FreeList.erasesLiveExcept i fl ops = true)
    (fuel : Nat) (q q1 q2 : Quadtree) (k j id x1 y1 x2 y2 r : Int) (e : QuadElement)
    (hk : q.elements.get k = .ok e) (hins : insert fuel q id x1 y1 x2 y2 = .ok (r, q1))
    (hj : j ≠ k) (hrem : remove fuel q j = .ok q2) :
    (∃ rets fl', fl.runOps ops = .ok (rets, fl') ∧ fl'.get i = .ok v ∧ i ∉ rets) ∧
      (r ≠ k ∧ q1.elements.get k = .ok e) ∧ q2.elements.get k = .ok e :=
  ⟨FreeList.runOps_keeps ops fl chain i v hwf hlive hops, insert_keeps_record hk hins,
    remove_keeps_record hk hj hrem⟩

/-- A witness of `index_stability`: slot 0 of `sampleArena` through two inserts, an
erase and another insert; element 0 of `sampleTree` through the insert of a new
element and through the removal of element 1. -/
theorem index_stability_witness :
    (∃ rets fl', sampleArena.runOps [.insert 5, .insert 6, .erase 1, .insert 8] = .ok (rets, fl') ∧
        fl'.get 0 = .ok 7 ∧ (0 : Int) ∉ rets) ∧
      (∃ r q1, insert 10 sampleTree 9 70 70 80 80 = .ok (r, q1) ∧ r ≠ 0 ∧
        q1.elements.get 0 = .ok ⟨7, 40, 40, 60, 60⟩) ∧
      ∃ q2, remove 10 sampleTree 1 = .ok q2 ∧ q2.elements.get 0 = .ok ⟨7, 40, 40, 60, 60⟩ :=
  have h := index_stability sampleArena [1] 0 7 [.insert 5, .insert 6, .erase 1, .insert 8]
    ⟨by decide, by decide⟩ rfl rfl 10 sampleTree _ _ 0 1 9 70 70 80 80 _ ⟨7, 40, 40, 60, 60⟩
    rfl rfl (by decide) rfl
  ⟨h.1, ⟨_, _, rfl, h.2.1⟩, ⟨_, rfl, h.2.2⟩⟩

/-! ## Query: the element indices appended to the result -/

theorem bufGet_set (buf : List Bool) (m n : Int) (b : Bool) (hm : 0 ≤ m) :
    bufGet (buf.set m.toNat b) n =
      if n = m then (if (bufGet buf m).isSome then some b else none) else bufGet buf n := by
  unfold bufGet
  by_cases hn : n < 0
  · have : n ≠ m := by omega
    simp [hn, this]
  · have hm' : ¬ m < 0 := by omega
    simp only [hn, hm', if_false]
    by_cases hnm : n = m
    · subst hnm
      by_cases hlt : n.toNat < buf.length
      · simp [hlt]
      · have h1 : buf.length ≤ n.toNat := by omega
        simp [List.getElem?_eq_none, h1]
    · have : m.toNat ≠ n.toNat := by omega
      simp [hnm, List.getElem?_set_ne this]

theorem bufGet_nonneg {buf : List Bool} {n : Int} {b : Bool} (h : bufGet buf n = some b) :
    0 ≤ n := by
  unfold bufGet at h
  split at h
  · simp at h
  · omega

theorem QueryInv_append {q : Quadtree} {om : Int} {st : QueryState} {i : Int} {e : QuadElement}
    (hinv : QueryInv q om st) (hseen : bufGet st.tempBuffer i = some false) (hne : i ≠ om)
    (he : q.elements.get i = .ok e) :
    QueryInv q om
      { out := st.out ++ [e], clearList := st.clearList ++ [i],
        tempBuffer := st.tempBuffer.set i.toNat true } := by
  have h0 := bufGet_nonneg hseen
  have hnotin : i ∉ st.clearList := by
    intro hmem
    have := hinv.marked i hmem
    rw [hseen] at this
    cases this
  refine ⟨?_, ?_, ?_, ?_⟩
  · exact List.rel_append hinv.records (List.Forall₂.cons he List.Forall₂.nil)
  · simp only [List.mem_append, List.mem_singleton, not_or]
    exact ⟨hinv.omitted, fun h => hne h.symm⟩
  · intro j hj
    simp only at hj ⊢
    rw [bufGet_set _ _ _ _ h0]
    by_cases hji : j = i
    · simp [hji, hseen]
    · simp only [hji, if_false]
      rcases List.mem_append.mp hj with h | h
      · exact hinv.marked j h
      · exact absurd (List.mem_singleton.mp h) hji
  · simp only
    rw [List.nodup_append]
    refine ⟨hinv.nodup, List.nodup_singleton i, ?_⟩
    intro a ha hb
    rw [List.mem_singleton] at hb
    subst hb
    exact hnotin ha

theorem queryWalk_inv (q : Quadtree) (qx1 qy1 qx2 qy2 om : Int) :
    ∀ (fuel : Nat) (eni : Int) (st st' : QueryState), QueryInv q om st →
      queryWalk q qx1 qy1 qx2 qy2 om fuel eni st = .ok st' → QueryInv q om st' := by
  intro fuel
  induction fuel with
  | zero => intro eni st st' _ h; simp [queryWalk] at h
  | succ fuel ih =>
    intro eni st st' hinv h
    rw [queryWalk] at h
    split at h
    · cases hc : q.elementNodes.get eni with
      | error f => rw [hc] at h; simp at h
      | ok cell =>
        rw [hc] at h
        simp only at h
        cases hb : bufGet st.tempBuffer cell.elementIndex with
        | none => rw [hb] at h; simp at h
        | some seen =>
          rw [hb] at h
          simp only at h
          split at h
          · rename_i hcond
            simp only [Bool.and_eq_true, Bool.not_eq_true', decide_eq_true_eq] at hcond
            cases he : q.elements.get cell.elementIndex with
            | error f => rw [he] at h; simp at h
            | ok e =>
              rw [he] at h
              simp only at h
              split at h
              · refine ih _ _ _ ?_ h
                exact QueryInv_append hinv (by rw [hb, hcond.1]) hcond.2 he
              · exact ih _ _ _ hinv h
          · exact ih _ _ _ hinv h
    · cases h
      exact hinv

theorem queryLeaves_inv (fuel : Nat) (q : Quadtree) (qx1 qy1 qx2 qy2 om : Int) :
    ∀ (leaves : List QuadNodeData) (st st' : QueryState), QueryInv q om st →
      queryLeaves fuel q qx1 qy1 qx2 qy2 om leaves st = .ok st' → QueryInv q om st' := by
  intro leaves
  induction leaves with
  | nil => intro st st' hinv h; simp only [queryLeaves, Except.ok.injEq] at h; subst h; exact hinv
  | cons l rest ih =>
    intro st st' hinv h
    rw [queryLeaves] at h
    cases hn : q.nodes.get l.nodeIndex with
    | error f => rw [hn] at h; simp at h
    | ok node =>
      rw [hn] at h
      simp only at h
      cases hw : queryWalk q qx1 qy1 qx2 qy2 om fuel node.firstChildIndex st with
      | error f => rw [hw] at h; simp at h
      | ok st1 =>
        rw [hw] at h
        exact ih st1 st' (queryWalk_inv q qx1 qy1 qx2 qy2 om fuel _ st st1 hinv hw) h

theorem queryCollect_inv {fuel : Nat} {q : Quadtree} {qx1 qy1 qx2 qy2 om : Int}
    {st : QueryState} (h : queryCollect fuel q qx1 qy1 qx2 qy2 om = .ok st) :
    QueryInv q om st := by
  unfold queryCollect at h
  cases hl : findLeaves fuel q 0 0 q.rootMx q.rootMy q.rootHx q.rootHy qx1 qy1 qx2 qy2 with
  | error f => rw [hl] at h; simp at h
  | ok leaves =>
    rw [hl] at h
    refine queryLeaves_inv fuel q qx1 qy1 qx2 qy2 om leaves _ st ?_ h
    exact ⟨List.Forall₂.nil, by simp, by simp, List.nodup_nil⟩

theorem clearMarks_ok : ∀ (clearList : List Int) (buf : List Bool),
    (∀ i ∈ clearList, (bufGet buf i).isSome) → ∃ buf', clearMarks clearList buf = .ok buf' := by
  intro clearList
  induction clearList with
  | nil => intro buf _; exact ⟨buf, rfl⟩
  | cons i rest ih =>
    intro buf hall
    have hi := hall i (List.mem_cons_self _ _)
    cases hb : bufGet buf i with
    | none => rw [hb] at hi; cases hi
    | some b =>
      have h0 := bufGet_nonneg hb
      simp only [clearMarks, hb]
      apply ih
      intro j hj
      rw [bufGet_set _ _ _ _ h0]
      by_cases hji : j = i
      · simp [hji, hb]
      · simp only [hji, if_false]
        exact hall j (List.mem_cons_of_mem _ hj)

theorem query_of_collect {fuel : Nat} {q : Quadtree} {qx1 qy1 qx2 qy2 om : Int}
    {st : QueryState} (h : queryCollect fuel q qx1 qy1 qx2 qy2 om = .ok st) :
    ∃ buf, query fuel q qx1 qy1 qx2 qy2 om = .ok (st.out, { q with tempBuffer := buf }) := by
  have hinv := queryCollect_inv h
  obtain ⟨buf, hbuf⟩ := clearMarks_ok st.clearList st.tempBuffer
    (fun i hi => by rw [hinv.marked i hi]; rfl)
  exact ⟨buf, by simp only [query, h, hbuf]⟩

/-- Claim C5. No self-omission leak.  Whenever the collecting loops of
`query(x1, y1, x2, y2, omitElementIndex)` finish, `query` returns the collected `out`,
`out` holds, entry by entry, the records of the element indices in `clearList` (the
indices for which an entry was appended), and `omitElementIndex` is not among them. -/
theorem query_never_returns_omitted (fuel : Nat) (q : Quadtree)
    (qx1 qy1 qx2 qy2 omitElementIndex : Int) (st : QueryState)
    (h : queryCollect fuel q qx1 qy1 qx2 qy2 omitElementIndex = .ok st) :
    (∃ buf, query fuel q qx1 qy1 qx2 qy2 omitElementIndex =
        .ok (st.out, { q with tempBuffer := buf })) ∧
      List.Forall₂ (fun e i => q.elements.get i = .ok e) st.out st.clearList ∧
      omitElementIndex ∉ st.clearList :=
  ⟨query_of_collect h, (queryCollect_inv h).records, (queryCollect_inv h).omitted⟩

/-- Claim C6. No duplicates.  Whenever the collecting loops of `query` finish, `query`
returns the collected `out`, `out` holds, entry by entry, the records of the element
indices in `clearList` (the indices for which an entry was appended), and no index
occurs twice in `clearList`. -/
theorem query_appends_each_index_once (fuel : Nat) (q : Quadtree)
    (qx1 qy1 qx2 qy2 omitElementIndex : Int) (st : QueryState)
    (h : queryCollect fuel q qx1 qy1 qx2 qy2 omitElementIndex = .ok st) :
    (∃ buf, query fuel q qx1 qy1 qx2 qy2 omitElementIndex =
        .ok (st.out, { q with tempBuffer := buf })) ∧
      List.Forall₂ (fun e i => q.elements.get i = .ok e) st.out st.clearList ∧
      st.clearList.Nodup :=
  ⟨query_of_collect h, (queryCollect_inv h).records, (queryCollect_inv h).nodup⟩

/-- A witness of `query_never_returns_omitted`: in `sampleTree` element 0 overlaps the
query rectangle and is linked from all four leaves, yet with `omitElementIndex = 0`
only element 1 is collected. -/
theorem query_never_returns_omitted_witness :
    queryCollect 10 sampleTree 0 0 100 100 0 =
        .ok ⟨[⟨8, 10, 10, 20, 20⟩], [1], [false, true]⟩ ∧
      (∃ buf, query 10 sampleTree 0 0 100 100 0 =
        .ok ([⟨8, 10, 10, 20, 20⟩], { sampleTree with tempBuffer := buf })) ∧
      List.Forall₂ (fun e i => sampleTree.elements.get i = .ok e) [⟨8, 10, 10, 20, 20⟩] [1] ∧
      (0 : Int) ∉ ([1] : List Int) :=
  ⟨rfl, query_never_returns_omitted 10 sampleTree 0 0 100 100 0
    ⟨[⟨8, 10, 10, 20, 20⟩], [1], [false, true]⟩ rfl⟩

/-- A witness of `query_appends_each_index_once`: in `sampleTree` element 0 is linked
from all four leaves that the query rectangle reaches, and is collected once. -/
theorem query_appends_each_index_once_witness :
    queryCollect 10 sampleTree 0 0 100 100 (-1) =
        .ok ⟨[⟨7, 40, 40, 60, 60⟩, ⟨8, 10, 10, 20, 20⟩], [0, 1], [true, true]⟩ ∧
      (∃ buf, query 10 sampleTree 0 0 100 100 (-1) =
        .ok ([⟨7, 40, 40, 60, 60⟩, ⟨8, 10, 10, 20, 20⟩], { sampleTree with tempBuffer := buf })) ∧
      List.Forall₂ (fun e i => sampleTree.elements.get i = .ok e)
        [⟨7, 40, 40, 60, 60⟩, ⟨8, 10, 10, 20, 20⟩] [0, 1] ∧
      ([0, 1] : List Int).Nodup :=
  ⟨rfl, query_appends_each_index_once 10 sampleTree 0 0 100 100 (-1)
    ⟨[⟨7, 40, 40, 60, 60⟩, ⟨8, 10, 10, 20, 20⟩], [0, 1], [true, true]⟩ rfl⟩

/-! ## The leaf walk on a well-formed tree -/

theorem Shape.size_pos (t : Shape) : 0 < t.size := by
  cases t <;> simp [Shape.size]

theorem wellFormed_leaf {nodes : FreeList QuadNode} {n : Int}
    (h : wellFormed nodes (.leaf n) = true) :
    ∃ node, nodes.get n = .ok node ∧ node.count ≠ -1 := by
  unfold wellFormed at h
  cases hg : nodes.get n with
  | error f => rw [hg] at h; cases h
  | ok node => rw [hg] at h; exact ⟨node, rfl, by simpa using h⟩

theorem wellFormed_branch {nodes : FreeList QuadNode} {n : Int} {c0 c1 c2 c3 : Shape}
    (h : wellFormed nodes (.branch n c0 c1 c2 c3) = true) :
    ∃ node, nodes.get n = .ok node ∧ node.count = -1 ∧
      c0.root = node.firstChildIndex + 0 ∧ c1.root = node.firstChildIndex + 1 ∧
      c2.root = node.firstChildIndex + 2 ∧ c3.root = node.firstChildIndex + 3 ∧
      wellFormed nodes c0 = true ∧ wellFormed nodes c1 = true ∧
      wellFormed nodes c2 = true ∧ wellFormed nodes c3 = true := by
  unfold wellFormed at h
  cases hg : nodes.get n with
  | error f => rw [hg] at h; cases h
  | ok node =>
    rw [hg] at h
    simp only [Bool.and_eq_true, decide_eq_true_eq] at h
    obtain ⟨⟨⟨⟨⟨⟨⟨⟨h1, h2⟩, h3⟩, h4⟩, h5⟩, h6⟩, h7⟩, h8⟩, h9⟩ := h
    exact ⟨node, rfl, h1, h2, h3, h4, h5, h6, h7, h8, h9⟩

theorem StackOf_pushIf {nodes : FreeList QuadNode} {stack : List QuadNodeData} {ts : List Shape}
    (b : Bool) (x : QuadNodeData) (c : Shape) (hs : StackOf nodes stack ts)
    (hroot : x.nodeIndex = c.root) (hc : wellFormed nodes c = true) :
    StackOf nodes (pushIf b x stack) (if b then c :: ts else ts) := by
  cases b
  · exact hs
  · exact ⟨hroot, hc, hs⟩

theorem sum_size_select (b : Bool) (c : Shape) (ts : List Shape) :
    ((if b then c :: ts else ts).map Shape.size).sum ≤ c.size + (ts.map Shape.size).sum := by
  cases b <;> simp

theorem mem_select {b : Bool} {c t : Shape} {ts : List Shape}
    (h : t ∈ (if b then c :: ts else ts)) : t = c ∨ t ∈ ts := by
  cases b
  · exact Or.inr h
  · exact List.mem_cons.mp h

/-- On a stack of well-formed trees the leaf walk returns when its fuel is at least the
number of their nodes, and every record it emits is a leaf of one of them. -/
theorem findLeavesLoop_wellFormed (nodes : FreeList QuadNode) (x1 y1 x2 y2 : Int) :
    ∀ (fuel : Nat) (stack : List QuadNodeData) (ts : List Shape) (acc : List QuadNodeData),
      StackOf nodes stack ts → (ts.map Shape.size).sum ≤ fuel →
      ∃ extra, findLeavesLoop nodes x1 y1 x2 y2 fuel stack acc = .ok (acc ++ extra) ∧
        ∀ l ∈ extra, ∃ t ∈ ts, l.nodeIndex ∈ t.leaves := by
  intro fuel
  induction fuel with
  | zero =>
    intro stack ts acc hs hsum
    cases stack with
    | nil => exact ⟨[], by simp [findLeavesLoop], by simp⟩
    | cons nd stack =>
      cases ts with
      | nil => exact absurd hs (by simp [StackOf])
      | cons t ts =>
        have := t.size_pos
        simp only [List.map_cons, List.sum_cons] at hsum
        omega
  | succ fuel ih =>
    intro stack ts acc hs hsum
    cases stack with
    | nil => exact ⟨[], by simp [findLeavesLoop], by simp⟩
    | cons nd stack =>
      cases ts with
      | nil => exact absurd hs (by simp [StackOf])
      | cons t ts =>
        obtain ⟨hroot, hwf, hrest⟩ := hs
        simp only [List.map_cons, List.sum_cons] at hsum
        cases t with
        | leaf n =>
          obtain ⟨node, hg, hleaf⟩ := wellFormed_leaf hwf
          simp only [Shape.root] at hroot
          simp only [Shape.size] at hsum
          obtain ⟨extra, hrun, hmem⟩ := ih stack ts (acc ++ [nd]) hrest (by omega)
          refine ⟨nd :: extra, ?_, ?_⟩
          · rw [findLeavesLoop, hroot, hg]
            simp only [hleaf, ne_eq, not_false_eq_true, if_true]
            rw [hrun, List.append_assoc]
            rfl
          · intro l hl
            rcases List.mem_cons.mp hl with rfl | hl
            · exact ⟨.leaf n, List.mem_cons_self _ _, by simp [Shape.leaves, hroot]⟩
            · obtain ⟨t, ht, hlt⟩ := hmem l hl
              exact ⟨t, List.mem_cons_of_mem _ ht, hlt⟩
        | branch n c0 c1 c2 c3 =>
          obtain ⟨node, hg, hbranch, h0, h1, h2, h3, w0, w1, w2, w3⟩ := wellFormed_branch hwf
          simp only [Shape.root] at hroot
          simp only [Shape.size] at hsum
          have hstack := StackOf_pushIf (decide (y2 > nd.my) && decide (x2 > nd.mx))
            ⟨node.firstChildIndex + 3, nd.depth + 1, nd.mx + nd.hx >>> 1, nd.my + nd.hy >>> 1,
              nd.hx >>> 1, nd.hy >>> 1⟩ c3
            (StackOf_pushIf (decide (y2 > nd.my) && decide (x1 ≤ nd.mx))
              ⟨node.firstChildIndex + 2, nd.depth + 1, nd.mx - nd.hx >>> 1, nd.my + nd.hy >>> 1,
                nd.hx >>> 1, nd.hy >>> 1⟩ c2
              (StackOf_pushIf (decide (y1 ≤ nd.my) && decide (x2 > nd.mx))
                ⟨node.firstChildIndex + 1, nd.depth + 1, nd.mx + nd.hx >>> 1,
                  nd.my - nd.hx >>> 1, nd.hx >>> 1, nd.hy >>> 1⟩ c1
                (StackOf_pushIf (decide (y1 ≤ nd.my) && decide (x1 ≤ nd.mx))
                  ⟨node.firstChildIndex + 0, nd.depth + 1, nd.mx - nd.hx >>> 1,
                    nd.my - nd.hx >>> 1, nd.hx >>> 1, nd.hy >>> 1⟩ c0 hrest h0.symm w0)
                h1.symm w1) h2.symm w2) h3.symm w3
          have hs3 := sum_size_select (decide (y2 > nd.my) && decide (x2 > nd.mx)) c3
            (if (decide (y2 > nd.my) && decide (x1 ≤ nd.mx)) = true then
              c2 :: (if (decide (y1 ≤ nd.my) && decide (x2 > nd.mx)) = true then
                c1 :: (if (decide (y1 ≤ nd.my) && decide (x1 ≤ nd.mx)) = true then c0 :: ts else ts)
              else (if (decide (y1 ≤ nd.my) && decide (x1 ≤ nd.mx)) = true then c0 :: ts else ts))
            else (if (decide (y1 ≤ nd.my) && decide (x2 > nd.mx)) = true then
                c1 :: (if (decide (y1 ≤ nd.my) && decide (x1 ≤ nd.mx)) = true then c0 :: ts else ts)
              else (if (decide (y1 ≤ nd.my) && decide (x1 ≤ nd.mx)) = true then c0 :: ts else ts)))
          have hs2 := sum_size_select (decide (y2 > nd.my) && decide (x1 ≤ nd.mx)) c2
            (if (decide (y1 ≤ nd.my) && decide (x2 > nd.mx)) = true then
                c1 :: (if (decide (y1 ≤ nd.my) && decide (x1 ≤ nd.mx)) = true then c0 :: ts else ts)
              else (if (decide (y1 ≤ nd.my) && decide (x1 ≤ nd.mx)) = true then c0 :: ts else ts))
          have hs1 := sum_size_select (decide (y1 ≤ nd.my) && decide (x2 > nd.mx)) c1
            (if (decide (y1 ≤ nd.my) && decide (x1 ≤ nd.mx)) = true then c0 :: ts else ts)
          have hs0 := sum_size_select (decide (y1 ≤ nd.my) && decide (x1 ≤ nd.mx)) c0 ts
          obtain ⟨extra, hrun, hmem⟩ := ih _ _ acc hstack (by omega)
          refine ⟨extra, ?_, ?_⟩
          · rw [findLeavesLoop, hroot, hg]
            simp only [hbranch, ne_eq, not_true_eq_false, if_false]
            exact hrun
          · intro l hl
            obtain ⟨t, ht, hlt⟩ := hmem l hl
            have hsub : ∀ c, (c = c0 ∨ c = c1 ∨ c = c2 ∨ c = c3) →
                ∀ x ∈ c.leaves, x ∈ (Shape.branch n c0 c1 c2 c3).leaves := by
              intro c hc x hx
              simp only [Shape.leaves, List.mem_append]
              rcases hc with rfl | rfl | rfl | rfl <;> tauto
            rcases mem_select ht with rfl | ht
            · exact ⟨_, List.mem_cons_self _ _, hsub _ (by tauto) _ hlt⟩
            rcases mem_select ht with rfl | ht
            · exact ⟨_, List.mem_cons_self _ _, hsub _ (by tauto) _ hlt⟩
            rcases mem_select ht with rfl | ht
            · exact ⟨_, List.mem_cons_self _ _, hsub _ (by tauto) _ hlt⟩
            rcases mem_select ht with rfl | ht
            · exact ⟨_, List.mem_cons_self _ _, hsub _ (by tauto) _ hlt⟩
            exact ⟨t, List.mem_cons_of_mem _ ht, hlt⟩

/-- On a well-formed tree the leaf walk from its root returns when its fuel is at
least the number of nodes, and returns leaves of the tree only. -/
theorem findLeaves_wellFormed {q : Quadtree} {t : Shape} (fuel : Nat)
    (depth mx my hx hy x1 y1 x2 y2 : Int) (hwf : wellFormed q.nodes t = true)
    (hfuel : t.size ≤ fuel) :
    ∃ leaves, findLeaves fuel q t.root depth mx my hx hy x1 y1 x2 y2 = .ok leaves ∧
      ∀ l ∈ leaves, l.nodeIndex ∈ t.leaves := by
  obtain ⟨extra, hrun, hmem⟩ := findLeavesLoop_wellFormed q.nodes x1 y1 x2 y2 fuel
    [⟨t.root, depth, mx, my, hx, hy⟩] [t] [] ⟨rfl, hwf, trivial⟩ (by simpa using hfuel)
  refine ⟨extra, by simpa [findLeaves] using hrun, ?_⟩
  intro l hl
  obtain ⟨t', ht', hlt⟩ := hmem l hl
  rw [List.mem_singleton] at ht'
  subst ht'
  exact hlt

/-! ## Removal -/

theorem isList_cons {en : FreeList QuadElementNode} {h c e : Int} {rest : List (Int × Int)} :
    isList en h ((c, e) :: rest) = true ↔
      h = c ∧ ∃ cell, en.get c = .ok cell ∧ cell.elementIndex = e ∧
        isList en cell.nextIndex rest = true := by
  simp only [isList, Bool.and_eq_true, beq_iff_eq]
  constructor
  · rintro ⟨hh, hrest⟩
    refine ⟨hh, ?_⟩
    cases hg : en.get c with
    | error f => rw [hg] at hrest; cases hrest
    | ok cell =>
      rw [hg] at hrest
      simp only [Bool.and_eq_true, beq_iff_eq] at hrest
      exact ⟨cell, rfl, hrest.1, hrest.2⟩
  · rintro ⟨hh, cell, hg, he, hrest⟩
    refine ⟨hh, ?_⟩
    rw [hg]
    simp [he, hrest]

theorem isList_congr (en en' : FreeList QuadElementNode) :
    ∀ (l : List (Int × Int)) (h : Int), (∀ c ∈ l.map Prod.fst, en'.get c = en.get c) →
      isList en' h l = isList en h l := by
  intro l
  induction l with
  | nil => intro h _; rfl
  | cons x rest ih =>
    intro h hs
    obtain ⟨c, e⟩ := x
    have hc : en'.get c = en.get c := hs c (by simp)
    simp only [isList, hc]
    cases hg : en.get c with
    | error f => rfl
    | ok cell =>
      simp only
      rw [ih cell.nextIndex (fun d hd => hs d (by simp only [List.map_cons, List.mem_cons]; exact Or.inr hd))]

theorem get_nonneg {T : Type} {fl : FreeList T} {n : Int} {v : T} (h : fl.get n = .ok v) :
    0 ≤ n :=
  (FreeList.slot_nonneg (FreeList.get_eq_ok_iff.mp h)).1

/-- The scan of `remove` over a list without a cell of `elementIndex` runs to the end
of the list. -/
theorem removeScan_absent (en : FreeList QuadElementNode) (e : Int) :
    ∀ (l : List (Int × Int)) (fuel : Nat) (h prev : Int), isList en h l = true →
      (∀ x ∈ l, x.2 ≠ e) → l.length < fuel →
      removeScan en e fuel h prev = .ok (-1, lastCell prev l) := by
  intro l
  induction l with
  | nil =>
    intro fuel h prev hl _ hf
    cases fuel with
    | zero => simp at hf
    | succ fuel =>
      have : h = -1 := by simpa [isList] using hl
      subst this
      simp [removeScan, lastCell]
  | cons x rest ih =>
    intro fuel h prev hl hne hf
    obtain ⟨c, e'⟩ := x
    obtain ⟨rfl, cell, hg, he, hrest⟩ := isList_cons.mp hl
    cases fuel with
    | zero => simp at hf
    | succ fuel =>
      have h0 := get_nonneg hg
      have hne1 : h ≠ -1 := by omega
      have hne2 : cell.elementIndex ≠ e := by rw [he]; exact hne (h, e') (by simp)
      rw [removeScan]
      simp only [hne1, if_false, hg, hne2, ne_eq, not_false_eq_true, if_true]
      rw [ih fuel cell.nextIndex h hrest (fun x hx => hne x (List.mem_cons_of_mem _ hx))
        (by simpa using hf)]
      rfl

/-- The scan of `remove` stops at the first cell of `elementIndex`, with the cell
before it as `prevElementNodeIndex`. -/
theorem removeScan_found (en : FreeList QuadElementNode) (e c : Int) (post : List (Int × Int)) :
    ∀ (pre : List (Int × Int)) (fuel : Nat) (h prev : Int),
      isList en h (pre ++ (c, e) :: post) = true → (∀ x ∈ pre, x.2 ≠ e) →
      (pre ++ (c, e) :: post).length < fuel →
      removeScan en e fuel h prev = .ok (c, lastCell prev pre) := by
  intro pre
  induction pre with
  | nil =>
    intro fuel h prev hl _ hf
    obtain ⟨rfl, cell, hg, he, hrest⟩ := isList_cons.mp hl
    cases fuel with
    | zero => simp at hf
    | succ fuel =>
      have h0 := get_nonneg hg
      have hne1 : h ≠ -1 := by omega
      rw [removeScan]
      simp [hne1, hg, he, lastCell]
  | cons x rest ih =>
    intro fuel h prev hl hne hf
    obtain ⟨a, e'⟩ := x
    obtain ⟨rfl, cell, hg, he, hrest⟩ := isList_cons.mp hl
    cases fuel with
    | zero => simp at hf
    | succ fuel =>
      have h0 := get_nonneg hg
      have hne1 : h ≠ -1 := by omega
      have hne2 : cell.elementIndex ≠ e := by rw [he]; exact hne (h, e') (by simp)
      rw [removeScan]
      simp only [hne1, if_false, hg, hne2, ne_eq, not_false_eq_true, if_true]
      rw [ih fuel cell.nextIndex h hrest (fun x hx => hne x (List.mem_cons_of_mem _ hx))
        (by simpa using hf)]
      rfl

theorem erase_of_get {T : Type} {fl : FreeList T} {n : Int} {v : T} (h : fl.get n = .ok v) :
    fl.erase n = .ok ⟨fl.data.set n.toNat (.next fl.first_free), n⟩ :=
  FreeList.erase_ok (FreeList.get_eq_ok_iff.mp h)

/-- The unlinking step of `remove` when the cell found is the head of the list. -/
theorem removeFromLeaf_head {fuel : Nat} {e : Int} {q : Quadtree} {n c : Int} {node : QuadNode}
    {cell : QuadElementNode} (hn : q.nodes.get n = .ok node)
    (hscan : removeScan q.elementNodes e fuel node.firstChildIndex (-1) = .ok (c, -1))
    (hc : q.elementNodes.get c = .ok cell) :
    ∃ q', removeFromLeaf fuel e q n = .ok q' ∧ SameOutside q q' ∧
      q'.nodes.get n = .ok ⟨cell.nextIndex, node.count - 1⟩ ∧
      (∀ m, m ≠ n → q'.nodes.get m = q.nodes.get m) ∧
      ∀ x, x ≠ c → q'.elementNodes.get x = q.elementNodes.get x := by
  have hc0 : c ≠ -1 := by have := get_nonneg hc; omega
  have hm1 := FreeList.modify_of_get (fun n => { n with firstChildIndex := cell.nextIndex }) hn
  have hg1 := FreeList.get_modify_self hn hm1
  have hm2 := FreeList.modify_of_get (fun n : QuadNode => { n with count := n.count - 1 }) hg1
  have he := erase_of_get hc
  unfold removeFromLeaf
  simp only [hn, hscan, hc0, ne_eq, not_false_eq_true, if_true, hc, hm1, he, hm2]
  refine ⟨_, rfl, ?_, ?_, ?_, ?_⟩
  · exact ⟨rfl, rfl, rfl, rfl, rfl, rfl, rfl, rfl, rfl⟩
  · exact FreeList.get_modify_self hg1 hm2
  · intro m hmn
    show FreeList.get _ m = _
    rw [FreeList.get_modify_ne hm2 hmn, FreeList.get_modify_ne hm1 hmn]
  · intro x hx
    show FreeList.get _ x = _
    rw [FreeList.get_erase_ne he hx]

/-- The unlinking step of `remove` when the cell found has a predecessor `p`. -/
theorem removeFromLeaf_tail {fuel : Nat} {e : Int} {q : Quadtree} {n c p : Int} {node : QuadNode}
    {cell cellp : QuadElementNode} (hn : q.nodes.get n = .ok node)
    (hscan : removeScan q.elementNodes e fuel node.firstChildIndex (-1) = .ok (c, p))
    (hc : q.elementNodes.get c = .ok cell) (hp : q.elementNodes.get p = .ok cellp)
    (hpc : p ≠ c) :
    ∃ q', removeFromLeaf fuel e q n = .ok q' ∧ SameOutside q q' ∧
      q'.nodes.get n = .ok ⟨node.firstChildIndex, node.count - 1⟩ ∧
      (∀ m, m ≠ n → q'.nodes.get m = q.nodes.get m) ∧
      q'.elementNodes.get p = .ok ⟨cell.nextIndex, cellp.elementIndex⟩ ∧
      ∀ x, x ≠ c → x ≠ p → q'.elementNodes.get x = q.elementNodes.get x := by
  have hc0 : c ≠ -1 := by have := get_nonneg hc; omega
  have hp0 : p ≠ -1 := by have := get_nonneg hp; omega
  have hm1 := FreeList.modify_of_get
    (fun c : QuadElementNode => { c with nextIndex := cell.nextIndex }) hp
  have hgp := FreeList.get_modify_self hp hm1
  have hgc : FreeList.get _ c = .ok cell :=
    (FreeList.get_modify_ne hm1 (Ne.symm hpc)).trans hc
  have he := erase_of_get hgc
  have hm2 := FreeList.modify_of_get (fun n : QuadNode => { n with count := n.count - 1 }) hn
  unfold removeFromLeaf
  simp only [hn, hscan, hc0, hp0, ne_eq, not_false_eq_true, if_true, if_false, hc, hm1, he, hm2]
  refine ⟨_, rfl, ?_, ?_, ?_, ?_, ?_⟩
  · exact ⟨rfl, rfl, rfl, rfl, rfl, rfl, rfl, rfl, rfl⟩
  · exact FreeList.get_modify_self hn hm2
  · intro m hmn
    show FreeList.get _ m = _
    rw [FreeList.get_modify_ne hm2 hmn]
  · show FreeList.get _ p = _
    rw [FreeList.get_erase_ne he hpc]
    exact hgp
  · intro x hxc hxp
    show FreeList.get _ x = _
    rw [FreeList.get_erase_ne he hxc, FreeList.get_modify_ne hm1 hxp]

theorem lastCell_mem : ∀ (pre : List (Int × Int)) (prev : Int), pre ≠ [] →
    lastCell prev pre ∈ pre.map Prod.fst := by
  intro pre
  induction pre with
  | nil => intro prev h; exact absurd rfl h
  | cons x rest ih =>
    intro prev _
    obtain ⟨a, ea⟩ := x
    cases rest with
    | nil => simp [lastCell]
    | cons y rest' =>
      have := ih a (by simp)
      simp only [lastCell, List.map_cons, List.mem_cons] at this ⊢
      exact Or.inr this

theorem isList_get {en : FreeList QuadElementNode} : ∀ (l : List (Int × Int)) (h : Int),
    isList en h l = true → ∀ x ∈ l.map Prod.fst, ∃ cell, en.get x = .ok cell := by
  intro l
  induction l with
  | nil => intro h _ x hx; simp at hx
  | cons y rest ih =>
    intro h hl x hx
    obtain ⟨c, e⟩ := y
    obtain ⟨_, cell, hg, _, hrest⟩ := isList_cons.mp hl
    simp only [List.map_cons, List.mem_cons] at hx
    rcases hx with rfl | hx
    · exact ⟨cell, hg⟩
    · exact ih _ hrest x hx

theorem isList_split {en : FreeList QuadElementNode} {c e : Int} {post : List (Int × Int)} :
    ∀ (pre : List (Int × Int)) (h : Int), isList en h (pre ++ (c, e) :: post) = true →
      ∃ cell, en.get c = .ok cell ∧ cell.elementIndex = e ∧
        isList en cell.nextIndex post = true := by
  intro pre
  induction pre with
  | nil =>
    intro h hl
    obtain ⟨_, cell, hg, he, hrest⟩ := isList_cons.mp hl
    exact ⟨cell, hg, he, hrest⟩
  | cons y rest ih =>
    intro h hl
    obtain ⟨a, ea⟩ := y
    obtain ⟨_, cella, _, _, hrest⟩ := isList_cons.mp hl
    exact ih _ hrest

/-- After the predecessor `p` of the found cell `c` has been pointed at the successor
of `c`, and `c` has been erased, the list is the old one without `c`. -/
theorem isList_unlink_tail {en en' : FreeList QuadElementNode} {c e : Int}
    {post : List (Int × Int)} {cell : QuadElementNode} (hc : en.get c = .ok cell) :
    ∀ (pre : List (Int × Int)) (h prev : Int), pre ≠ [] →
      isList en h (pre ++ (c, e) :: post) = true →
      ((pre ++ (c, e) :: post).map Prod.fst).Nodup →
      (∀ cellp, en.get (lastCell prev pre) = .ok cellp →
        en'.get (lastCell prev pre) = .ok ⟨cell.nextIndex, cellp.elementIndex⟩) →
      (∀ x, x ≠ c → x ≠ lastCell prev pre → en'.get x = en.get x) →
      isList en' h (pre ++ post) = true := by
  intro pre
  induction pre with
  | nil => intro h prev hne; exact absurd rfl hne
  | cons y rest ih =>
    intro h prev _ hl hnd hp hother
    obtain ⟨a, ea⟩ := y
    obtain ⟨rfl, cella, hga, hea, hrest⟩ := isList_cons.mp hl
    have hnd' : (h :: (rest ++ (c, e) :: post).map Prod.fst).Nodup := hnd
    obtain ⟨hnotin, hndtail⟩ := List.nodup_cons.mp hnd'
    have hhc : h ≠ c := by
      rintro rfl
      exact hnotin (by simp)
    cases rest with
    | nil =>
      have hp' : ∀ cellp, en.get h = .ok cellp →
          en'.get h = .ok ⟨cell.nextIndex, cellp.elementIndex⟩ := hp
      have hother' : ∀ x, x ≠ c → x ≠ h → en'.get x = en.get x := hother
      have hrest' : isList en cella.nextIndex ((c, e) :: post) = true := hrest
      obtain ⟨_, cellc, hgc, _, hpost⟩ := isList_cons.mp hrest'
      rw [hc] at hgc
      cases hgc
      show isList en' h ((h, ea) :: post) = true
      rw [isList_cons]
      refine ⟨rfl, _, hp' cella hga, hea, ?_⟩
      rw [isList_congr en en' post]
      · exact hpost
      · intro d hd
        have hndc : (c :: post.map Prod.fst).Nodup := hndtail
        apply hother'
        · rintro rfl
          exact (List.nodup_cons.mp hndc).1 hd
        · rintro rfl
          exact hnotin (by simp only [List.nil_append, List.map_cons, List.mem_cons]; exact Or.inr hd)
    | cons z rest' =>
      have hmem := lastCell_mem (z :: rest') h (by simp)
      have hp' : ∀ cellp, en.get (lastCell h (z :: rest')) = .ok cellp →
          en'.get (lastCell h (z :: rest')) = .ok ⟨cell.nextIndex, cellp.elementIndex⟩ := hp
      have hother' : ∀ x, x ≠ c → x ≠ lastCell h (z :: rest') → en'.get x = en.get x := hother
      have hha : en'.get h = en.get h := by
        apply hother' h hhc
        intro heq
        rw [← heq] at hmem
        exact hnotin (by rw [List.map_append]; exact List.mem_append_left _ hmem)
      show isList en' h ((h, ea) :: ((z :: rest') ++ post)) = true
      rw [isList_cons]
      exact ⟨rfl, cella, hha.trans hga, hea,
        ih cella.nextIndex h (by simp) hrest hndtail hp' hother'⟩

theorem leafHolds_iff {q : Quadtree} {n : Int} {l : List (Int × Int)} :
    leafHolds q n l = true ↔
      ∃ node, q.nodes.get n = .ok node ∧ isList q.elementNodes node.firstChildIndex l = true ∧
        node.count = l.length := by
  unfold leafHolds
  cases hg : q.nodes.get n with
  | error f => simp
  | ok node => simp

/-- Replacing the list of the leaf `n` by a sublist of it keeps the invariants, provided
the other nodes are unchanged and so are the cells that were not in the list of `n`. -/
theorem LeafInv_update {q q' : Quadtree} {allLeaves : List Int} {L : Int → List (Int × Int)}
    {n : Int} {newl : List (Int × Int)} (hinv : LeafInv q allLeaves L) (hn : n ∈ allLeaves)
    (hsub : newl.Sublist (L n)) (hholds : leafHolds q' n newl = true)
    (hnodes : ∀ m, m ≠ n → q'.nodes.get m = q.nodes.get m)
    (hcells : ∀ x, x ∉ (L n).map Prod.fst → q'.elementNodes.get x = q.elementNodes.get x) :
    LeafInv q' allLeaves (Function.update L n newl) := by
  have hsubfst : (newl.map Prod.fst).Sublist ((L n).map Prod.fst) := hsub.map _
  have hsubsnd : (newl.map Prod.snd).Sublist ((L n).map Prod.snd) := hsub.map _
  refine ⟨?_, ?_, ?_, ?_⟩
  · intro m hm
    by_cases hmn : m = n
    · subst hmn
      rw [Function.update_same]
      exact hholds
    · rw [Function.update_noteq hmn]
      obtain ⟨node, hg, hl, hcount⟩ := leafHolds_iff.mp (hinv.holds m hm)
      refine leafHolds_iff.mpr ⟨node, (hnodes m hmn).trans hg, ?_, hcount⟩
      rw [isList_congr q.elementNodes q'.elementNodes]
      · exact hl
      · intro d hd
        exact hcells d (fun hdn => hinv.disjoint m hm n hn hmn d hd hdn)
  · intro m hm
    by_cases hmn : m = n
    · subst hmn
      rw [Function.update_same]
      exact (hinv.acyclic m hm).sublist hsubfst
    · rw [Function.update_noteq hmn]
      exact hinv.acyclic m hm
  · intro m hm
    by_cases hmn : m = n
    · subst hmn
      rw [Function.update_same]
      exact (hinv.once m hm).sublist hsubsnd
    · rw [Function.update_noteq hmn]
      exact hinv.once m hm
  · intro m hm k hk hmk c hc
    by_cases hmn : m = n
    · subst hmn
      rw [Function.update_same] at hc
      rw [Function.update_noteq (Ne.symm hmk)]
      exact hinv.disjoint m hm k hk hmk c (hsubfst.subset hc)
    · rw [Function.update_noteq hmn] at hc
      by_cases hkn : k = n
      · subst hkn
        rw [Function.update_same]
        intro hck
        exact hinv.disjoint m hm k hk hmk c hc (hsubfst.subset hck)
      · rw [Function.update_noteq hkn]
        exact hinv.disjoint m hm k hk hmk c hc

theorem filter_absent {l : List (Int × Int)} {e : Int} (h : ∀ x ∈ l, x.2 ≠ e) :
    l.filter (fun x => decide (x.2 ≠ e)) = l :=
  List.filter_eq_self.mpr (fun x hx => by simpa using h x hx)

theorem filter_split {pre post : List (Int × Int)} {c e : Int} (hpre : ∀ x ∈ pre, x.2 ≠ e)
    (hpost : ∀ x ∈ post, x.2 ≠ e) :
    (pre ++ (c, e) :: post).filter (fun x => decide (x.2 ≠ e)) = pre ++ post := by
  rw [List.filter_append, filter_absent hpre, List.filter_cons_of_neg (by simp),
    filter_absent hpost]

theorem sublist_split (pre post : List (Int × Int)) (x : Int × Int) :
    (pre ++ post).Sublist (pre ++ x :: post) :=
  List.Sublist.append (List.Sublist.refl pre) (List.sublist_cons_self x post)

/-- The body of the loop of `remove` on a leaf `n` that satisfies the invariants: it
returns, leaves `n` with its list filtered of the cells of `e`, and preserves the
invariants, every other node, and everything outside the two link arenas. -/
theorem removeFromLeaf_step {q : Quadtree} {allLeaves : List Int} {L : Int → List (Int × Int)}
    (e : Int) (fuel : Nat) {n : Int} (hinv : LeafInv q allLeaves L) (hn : n ∈ allLeaves)
    (hfuel : (L n).length < fuel) :
    ∃ q', removeFromLeaf fuel e q n = .ok q' ∧ SameOutside q q' ∧
      LeafInv q' allLeaves
        (Function.update L n ((L n).filter (fun x => decide (x.2 ≠ e)))) ∧
      ∀ m, m ≠ n → q'.nodes.get m = q.nodes.get m := by
  obtain ⟨node, hg, hl, hcount⟩ := leafHolds_iff.mp (hinv.holds n hn)
  by_cases hmem : ∃ x ∈ L n, x.2 = e
  · obtain ⟨x, hx, hxe⟩ := hmem
    obtain ⟨pre, post, hsplit⟩ := List.append_of_mem hx
    clear hx
    obtain ⟨c, e'⟩ := x
    simp only at hxe
    subst hxe
    have honce := hinv.once n hn
    have hacyc := hinv.acyclic n hn
    rw [hsplit] at honce hacyc hl hfuel
    have hpre : ∀ x ∈ pre, x.2 ≠ e' := by
      intro x hxp heq
      rw [List.map_append, List.map_cons, List.nodup_append] at honce
      exact honce.2.2 (List.mem_map_of_mem Prod.snd hxp) (by rw [heq]; simp)
    have hpost : ∀ x ∈ post, x.2 ≠ e' := by
      intro x hxp heq
      rw [List.map_append, List.map_cons, List.nodup_append, List.nodup_cons] at honce
      have hmem' := List.mem_map_of_mem Prod.snd hxp
      rw [heq] at hmem'
      exact honce.2.1.1 hmem'
    have hscan := removeScan_found q.elementNodes e' c post pre fuel node.firstChildIndex (-1)
      hl hpre hfuel
    obtain ⟨cell, hc, _, hpostl⟩ := isList_split pre _ hl
    have hcpost : c ∉ post.map Prod.fst := by
      rw [List.map_append, List.map_cons, List.nodup_append, List.nodup_cons] at hacyc
      exact hacyc.2.1.1
    have hcpre : c ∉ pre.map Prod.fst := by
      intro hcp
      rw [List.map_append, List.map_cons, List.nodup_append] at hacyc
      exact hacyc.2.2 hcp (by simp)
    have hlen : ((pre ++ post).length : Int) = node.count - 1 := by
      rw [hcount, hsplit]
      simp only [List.length_append, List.length_cons]
      push_cast
      omega
    rw [hsplit, filter_split hpre hpost]
    have hsub : (pre ++ post).Sublist (L n) := by
      rw [hsplit]; exact sublist_split pre post (c, e')
    cases pre with
    | nil =>
      obtain ⟨q', hq', hso, hnode', hnodes, hcells⟩ := removeFromLeaf_head hg hscan hc
      refine ⟨q', hq', hso, ?_, hnodes⟩
      refine LeafInv_update hinv hn hsub ?_ hnodes ?_
      · refine leafHolds_iff.mpr ⟨_, hnode', ?_, hlen.symm⟩
        show isList q'.elementNodes cell.nextIndex post = true
        rw [isList_congr q.elementNodes q'.elementNodes]
        · exact hpostl
        · intro d hd
          exact hcells d (fun hdc => hcpost (hdc ▸ hd))
      · intro x hxn
        apply hcells
        intro hxc
        exact hxn (by rw [hsplit, hxc]; simp)
    | cons y pre' =>
      have hpmem := lastCell_mem (y :: pre') (-1) (by simp)
      obtain ⟨cellp, hp⟩ := isList_get _ _ hl (lastCell (-1) (y :: pre'))
        (by rw [List.map_append]; exact List.mem_append_left _ hpmem)
      have hpc : lastCell (-1) (y :: pre') ≠ c := by
        intro heq
        rw [heq] at hpmem
        exact hcpre hpmem
      obtain ⟨q', hq', hso, hnode', hnodes, hpget, hcells⟩ :=
        removeFromLeaf_tail hg hscan hc hp hpc
      refine ⟨q', hq', hso, ?_, hnodes⟩
      refine LeafInv_update hinv hn hsub ?_ hnodes ?_
      · refine leafHolds_iff.mpr ⟨_, hnode', ?_, hlen.symm⟩
        refine isList_unlink_tail hc (y :: pre') node.firstChildIndex (-1) (by simp) hl hacyc ?_
          hcells
        intro cellp' hp'
        rw [hp] at hp'
        cases hp'
        exact hpget
      · intro x hxn
        apply hcells
        · intro hxc
          exact hxn (by rw [hsplit, hxc]; simp)
        · intro hxp
          exact hxn (by rw [hsplit, List.map_append, hxp]; exact List.mem_append_left _ hpmem)
  · have hne : ∀ x ∈ L n, x.2 ≠ e := fun x hx heq => hmem ⟨x, hx, heq⟩
    have hscan := removeScan_absent q.elementNodes e (L n) fuel node.firstChildIndex (-1) hl hne
      hfuel
    refine ⟨q, ?_, SameOutside.refl q, ?_, fun _ _ => rfl⟩
    · unfold removeFromLeaf
      simp [hg, hscan]
    · rw [filter_absent hne, Function.update_eq_self]
      exact hinv

/-- Every record that the leaf walk returns refers to a stored node that is a leaf. -/
theorem findLeavesLoop_leaves (nodes : FreeList QuadNode) (x1 y1 x2 y2 : Int) :
    ∀ (fuel : Nat) (toProcess acc leaves : List QuadNodeData),
      findLeavesLoop nodes x1 y1 x2 y2 fuel toProcess acc = .ok leaves →
      (∀ l ∈ acc, ∃ node, nodes.get l.nodeIndex = .ok node ∧ node.count ≠ -1) →
      ∀ l ∈ leaves, ∃ node, nodes.get l.nodeIndex = .ok node ∧ node.count ≠ -1 := by
  intro fuel
  induction fuel with
  | zero =>
    intro toProcess acc leaves h hacc
    cases toProcess with
    | nil => simp only [findLeavesLoop, Except.ok.injEq] at h; subst h; exact hacc
    | cons nd rest => simp [findLeavesLoop] at h
  | succ fuel ih =>
    intro toProcess acc leaves h hacc
    cases toProcess with
    | nil => simp only [findLeavesLoop, Except.ok.injEq] at h; subst h; exact hacc
    | cons nd rest =>
      rw [findLeavesLoop] at h
      cases hg : nodes.get nd.nodeIndex with
      | error f => rw [hg] at h; cases h
      | ok node =>
        rw [hg] at h
        simp only at h
        split at h
        · rename_i hleaf
          refine ih _ _ _ h ?_
          intro l hl
          rcases List.mem_append.mp hl with hl | hl
          · exact hacc l hl
          · rw [List.mem_singleton] at hl
            subst hl
            exact ⟨node, hg, hleaf⟩
        · exact ih _ _ _ h hacc

theorem findLeaves_leaves {fuel : Nat} {q : Quadtree} {nodeIndex depth mx my hx hy x1 y1 x2 y2 : Int}
    {leaves : List QuadNodeData}
    (h : findLeaves fuel q nodeIndex depth mx my hx hy x1 y1 x2 y2 = .ok leaves) :
    ∀ l ∈ leaves, ∃ node, q.nodes.get l.nodeIndex = .ok node ∧ node.count ≠ -1 :=
  findLeavesLoop_leaves q.nodes x1 y1 x2 y2 fuel _ [] leaves h (by simp)

theorem removedLists_cons (L : Int → List (Int × Int)) (n : Int) (ns : List Int) (e : Int) :
    removedLists (Function.update L n ((L n).filter (fun x => decide (x.2 ≠ e)))) ns e =
      removedLists L (n :: ns) e := by
  funext m
  unfold removedLists
  by_cases hmn : m = n
  · subst hmn
    by_cases hm : m ∈ ns
    · simp [hm, List.filter_filter]
    · simp [hm]
  · simp [hmn, Function.update_noteq hmn]

/-- The `for` loop of `remove` over leaves that satisfy the invariants. -/
theorem removeLoop_inv (e : Int) (fuel : Nat) (allLeaves : List Int) :
    ∀ (leaves : List QuadNodeData) (q : Quadtree) (L : Int → List (Int × Int)),
      LeafInv q allLeaves L → (∀ l ∈ leaves, l.nodeIndex ∈ allLeaves) →
      (∀ n ∈ allLeaves, (L n).length < fuel) →
      ∃ q', forEach (fun q' (l : QuadNodeData) => removeFromLeaf fuel e q' l.nodeIndex) leaves q =
          .ok q' ∧ SameOutside q q' ∧
        LeafInv q' allLeaves (removedLists L (leaves.map (fun l => l.nodeIndex)) e) ∧
        ∀ m, m ∉ leaves.map (fun l => l.nodeIndex) → q'.nodes.get m = q.nodes.get m := by
  intro leaves
  induction leaves with
  | nil =>
    intro q L hinv _ _
    refine ⟨q, rfl, SameOutside.refl q, ?_, fun _ _ => rfl⟩
    have : removedLists L ([].map (fun l : QuadNodeData => l.nodeIndex)) e = L := by
      funext m; simp [removedLists]
    rw [this]
    exact hinv
  | cons l rest ih =>
    intro q L hinv hsub hfuel
    have hl := hsub l (List.mem_cons_self _ _)
    obtain ⟨q1, h1, hso1, hinv1, hnodes1⟩ := removeFromLeaf_step e fuel hinv hl (hfuel _ hl)
    have hfuel1 : ∀ n ∈ allLeaves,
        (Function.update L l.nodeIndex
          ((L l.nodeIndex).filter (fun x => decide (x.2 ≠ e))) n).length < fuel := by
      intro n hn
      by_cases hnl : n = l.nodeIndex
      · subst hnl
        rw [Function.update_same]
        exact lt_of_le_of_lt (List.length_filter_le _ _) (hfuel _ hn)
      · rw [Function.update_noteq hnl]
        exact hfuel n hn
    obtain ⟨q', h2, hso2, hinv2, hnodes2⟩ := ih q1 _ hinv1
      (fun x hx => hsub x (List.mem_cons_of_mem _ hx)) hfuel1
    refine ⟨q', ?_, hso1.trans hso2, ?_, ?_⟩
    · simp only [forEach, h1]
      exact h2
    · rw [removedLists_cons] at hinv2
      exact hinv2
    · intro m hm
      simp only [List.map_cons, List.mem_cons, not_or] at hm
      rw [hnodes2 m hm.2, hnodes1 m hm.1]

theorem length_filter_once {l : List (Int × Int)} {e : Int} (honce : (l.map Prod.snd).Nodup) :
    ((l.filter (fun x => decide (x.2 ≠ e))).length : Int) =
      l.length - (if e ∈ l.map Prod.snd then 1 else 0) := by
  by_cases hmem : e ∈ l.map Prod.snd
  · obtain ⟨x, hx, hxe⟩ := List.mem_map.mp hmem
    obtain ⟨pre, post, hsplit⟩ := List.append_of_mem hx
    obtain ⟨c, e'⟩ := x
    simp only at hxe
    subst hxe
    subst hsplit
    have hpre : ∀ x ∈ pre, x.2 ≠ e' := by
      intro x hxp heq
      rw [List.map_append, List.map_cons, List.nodup_append] at honce
      exact honce.2.2 (List.mem_map_of_mem Prod.snd hxp) (by rw [heq]; simp)
    have hpost : ∀ x ∈ post, x.2 ≠ e' := by
      intro x hxp heq
      rw [List.map_append, List.map_cons, List.nodup_append, List.nodup_cons] at honce
      have hmem' := List.mem_map_of_mem Prod.snd hxp
      rw [heq] at hmem'
      exact honce.2.1.1 hmem'
    rw [filter_split hpre hpost, if_pos hmem]
    simp only [List.length_append, List.length_cons]
    push_cast
    omega
  · have hne : ∀ x ∈ l, x.2 ≠ e := fun x hx heq => hmem (heq ▸ List.mem_map_of_mem Prod.snd hx)
    rw [filter_absent hne, if_neg hmem]
    simp

/-- The effect of `remove(e)` when the walk for the stored AABB of `e` returns `leaves`,
all among leaves `allLeaves` that satisfy the data-model invariants. -/
theorem remove_effect_of_walk (fuel : Nat) (q : Quadtree) (e : Int) (rec : QuadElement)
    (leaves : List QuadNodeData) (allLeaves : List Int) (lists : Int → List (Int × Int))
    (hrec : q.elements.get e = .ok rec)
    (hleaves : findLeaves fuel q 0 0 q.rootMx q.rootMy q.rootHx q.rootHy
      rec.x1 rec.y1 rec.x2 rec.y2 = .ok leaves)
    (hsub : ∀ l ∈ leaves, l.nodeIndex ∈ allLeaves)
    (hinv : LeafInv q allLeaves lists)
    (hfuel : ∀ n ∈ allLeaves, (lists n).length < fuel) :
    ∃ q', remove fuel q e = .ok q' ∧
      LeafInv q' allLeaves (removedLists lists (leaves.map (fun l => l.nodeIndex)) e) ∧
      (∀ n ∈ allLeaves, ∃ node node', q.nodes.get n = .ok node ∧ q'.nodes.get n = .ok node' ∧
        node'.count = node.count -
          (if n ∈ leaves.map (fun l => l.nodeIndex) ∧ e ∈ (lists n).map Prod.snd then 1 else 0)) ∧
      (∀ n, n ∉ leaves.map (fun l => l.nodeIndex) → q'.nodes.get n = q.nodes.get n) ∧
      (∀ n node, q.nodes.get n = .ok node → node.count = -1 → q'.nodes.get n = .ok node) ∧
      (∀ k, k ≠ e → q'.elements.get k = q.elements.get k) ∧
      q.elements.erase e = .ok q'.elements := by
  obtain ⟨q1, hloop, hso, hinv1, hnodes⟩ := removeLoop_inv e fuel allLeaves leaves q lists hinv
    hsub hfuel
  have herase := erase_of_get hrec
  refine ⟨{ q1 with elements := ⟨q.elements.data.set e.toNat (.next q.elements.first_free), e⟩ },
    ?_, ?_, ?_, hnodes, ?_, ?_, herase⟩
  · unfold remove
    simp only [hrec, hleaves, hloop, hso.elements, herase]
  · exact ⟨hinv1.holds, hinv1.acyclic, hinv1.once, hinv1.disjoint⟩
  · intro n hn
    obtain ⟨node, hg, _, hcount⟩ := leafHolds_iff.mp (hinv.holds n hn)
    obtain ⟨node', hg', _, hcount'⟩ := leafHolds_iff.mp (hinv1.holds n hn)
    refine ⟨node, node', hg, hg', ?_⟩
    rw [hcount', hcount]
    unfold removedLists
    by_cases hmem : n ∈ leaves.map (fun l => l.nodeIndex)
    · simp only [hmem, if_true, true_and]
      exact length_filter_once (hinv.once n hn)
    · simp [hmem]
  · intro n node hg hbranch
    rw [← hg]
    apply hnodes
    intro hmem
    obtain ⟨l, hl, rfl⟩ := List.mem_map.mp hmem
    obtain ⟨node', hg', hleaf⟩ := findLeaves_leaves hleaves l hl
    rw [hg] at hg'
    cases hg'
    exact hleaf hbranch
  · intro k hk
    show FreeList.get _ k = _
    rw [FreeList.get_erase_ne herase hk]


theorem wellFormed_of_same_status {nodes nodes' : FreeList QuadNode}
    (h : ∀ n node, nodes.get n = .ok node → ∃ node', nodes'.get n = .ok node' ∧
      (node.count = -1 → node' = node) ∧ (node.count ≠ -1 → node'.count ≠ -1)) :
    ∀ t : Shape, wellFormed nodes t = true → wellFormed nodes' t = true := by
  intro t
  induction t with
  | leaf n =>
    intro hwf
    obtain ⟨node, hg, hleaf⟩ := wellFormed_leaf hwf
    obtain ⟨node', hg', _, hkeep⟩ := h n node hg
    unfold wellFormed
    rw [hg']
    simpa using hkeep hleaf
  | branch n c0 c1 c2 c3 ih0 ih1 ih2 ih3 =>
    intro hwf
    obtain ⟨node, hg, hbranch, h0, h1, h2, h3, w0, w1, w2, w3⟩ := wellFormed_branch hwf
    obtain ⟨node', hg', hsame, _⟩ := h n node hg
    have := hsame hbranch
    subst this
    unfold wellFormed
    rw [hg']
    simp [hbranch, h0, h1, h2, h3, ih0 w0, ih1 w1, ih2 w2, ih3 w3]

/-- Claim C10. Removal.  Let the node arena store the tree `t` rooted at node 0, let the
leaves of `t`, with link lists `lists`, satisfy the data-model invariants (`count` =
length of the list, acyclic lists, each element at most once per leaf, no cell in
two lists), and let `e` be a live element.  With fuel above the number of nodes and
the list lengths, the walk for the stored AABB of `e` returns some leaves of `t`,
`remove(e)` returns, and

* the invariants hold again, with the list of every leaf returned by the walk
  filtered of its cell of `e` (order of the other cells kept) and the list of every
  other leaf as before;
* the `count` of a returned leaf whose list had a cell of `e` is decremented by 1,
  every other `count` is unchanged;
* every node that the walk did not return is stored unchanged, in particular every
  branch keeps its `count = -1` and its `firstChildIndex`, and the arena still
  stores the same tree `t` (no merge);
* every other element record is unchanged, and slot `e` of the element arena is
  erased. -/
theorem remove_unlinks_and_erases (fuel : Nat) (q : Quadtree) (e : Int) (rec : QuadElement)
    (t : Shape) (lists : Int → List (Int × Int))
    (hrec : q.elements.get e = .ok rec)
    (hwf : wellFormed q.nodes t = true) (hroot : t.root = 0)
    (hinv : LeafInv q t.leaves lists)
    (hsize : t.size ≤ fuel) (hfuel : ∀ n ∈ t.leaves, (lists n).length < fuel) :
    ∃ leaves q',
      findLeaves fuel q 0 0 q.rootMx q.rootMy q.rootHx q.rootHy rec.x1 rec.y1 rec.x2 rec.y2 =
        .ok leaves ∧
      (∀ l ∈ leaves, l.nodeIndex ∈ t.leaves) ∧
      remove fuel q e = .ok q' ∧
      LeafInv q' t.leaves (removedLists lists (leaves.map (fun l => l.nodeIndex)) e) ∧
      (∀ n ∈ t.leaves, ∃ node node', q.nodes.get n = .ok node ∧ q'.nodes.get n = .ok node' ∧
        node'.count = node.count -
          (if n ∈ leaves.map (fun l => l.nodeIndex) ∧ e ∈ (lists n).map Prod.snd then 1 else 0)) ∧
      (∀ n, n ∉ leaves.map (fun l => l.nodeIndex) → q'.nodes.get n = q.nodes.get n) ∧
      (∀ n node, q.nodes.get n = .ok node → node.count = -1 → q'.nodes.get n = .ok node) ∧
      wellFormed q'.nodes t = true ∧
      (∀ k, k ≠ e → q'.elements.get k = q.elements.get k) ∧
      q.elements.erase e = .ok q'.elements := by
  obtain ⟨leaves, hleaves, hsub⟩ := findLeaves_wellFormed fuel 0 q.rootMx q.rootMy q.rootHx
    q.rootHy rec.x1 rec.y1 rec.x2 rec.y2 hwf hsize
  rw [hroot] at hleaves
  obtain ⟨q', hrem, hinv', hcount, hnodes, hbranch, helems, herase⟩ :=
    remove_effect_of_walk fuel q e rec leaves t.leaves lists hrec hleaves hsub hinv hfuel
  refine ⟨leaves, q', hleaves, hsub, hrem, hinv', hcount, hnodes, hbranch, ?_, helems, herase⟩
  refine wellFormed_of_same_status ?_ t hwf
  intro n node hg
  by_cases hmem : n ∈ leaves.map (fun l => l.nodeIndex)
  · obtain ⟨l, hl, rfl⟩ := List.mem_map.mp hmem
    obtain ⟨node0, hg0, hleaf⟩ := findLeaves_leaves hleaves l hl
    rw [hg] at hg0
    cases hg0
    obtain ⟨node', hg', _, hlen⟩ := leafHolds_iff.mp (hinv'.holds _ (hsub l hl))
    refine ⟨node', hg', fun hb => absurd hb hleaf, fun _ => ?_⟩
    rw [hlen]
    omega
  · exact ⟨node, (hnodes n hmem).trans hg, fun _ => rfl, fun h => h⟩

/-- A witness of `remove_unlinks_and_erases`: the removal of element 0 of `sampleTree`,
which is linked from all four leaves (second cell of leaf 1, only cell of the
leaves 2, 3 and 4). -/
theorem remove_unlinks_and_erases_witness :
    ∃ leaves q',
      findLeaves 10 sampleTree 0 0 sampleTree.rootMx sampleTree.rootMy sampleTree.rootHx
        sampleTree.rootHy 40 40 60 60 = .ok leaves ∧
      (∀ l ∈ leaves, l.nodeIndex ∈ sampleShape.leaves) ∧
      remove 10 sampleTree 0 = .ok q' ∧
      LeafInv q' sampleShape.leaves
        (removedLists sampleLists (leaves.map (fun l => l.nodeIndex)) 0) ∧
      (∀ n ∈ sampleShape.leaves, ∃ node node', sampleTree.nodes.get n = .ok node ∧
        q'.nodes.get n = .ok node' ∧
        node'.count = node.count -
          (if n ∈ leaves.map (fun l => l.nodeIndex) ∧ (0 : Int) ∈ (sampleLists n).map Prod.snd
            then 1 else 0)) ∧
      (∀ n, n ∉ leaves.map (fun l => l.nodeIndex) → q'.nodes.get n = sampleTree.nodes.get n) ∧
      (∀ n node, sampleTree.nodes.get n = .ok node → node.count = -1 →
        q'.nodes.get n = .ok node) ∧
      wellFormed q'.nodes sampleShape = true ∧
      (∀ k, k ≠ 0 → q'.elements.get k = sampleTree.elements.get k) ∧
      sampleTree.elements.erase 0 = .ok q'.elements :=
  remove_unlinks_and_erases 10 sampleTree 0 ⟨7, 40, 40, 60, 60⟩ sampleShape sampleLists rfl
    (by decide) rfl ⟨by decide, by decide, by decide, by decide⟩ (by decide) (by decide)

/-! ## The leaf walk and the traversal as functions of the tree -/

theorem walkStack_pushIf (x1 y1 x2 y2 : Int) (b : Bool) (x : QuadNodeData) (c : Shape)
    (stack : List QuadNodeData) (ts : List Shape) :
    walkStack x1 y1 x2 y2 (pushIf b x stack) (if b then c :: ts else ts) =
      (if b then walkLeaves x1 y1 x2 y2 c x else []) ++ walkStack x1 y1 x2 y2 stack ts := by
  cases b <;> simp [pushIf, walkStack]

/-- On a stack of well-formed trees, with fuel for every node, the loop of `findLeaves`
returns exactly the leaves of `walkStack`, appended to those collected before. -/
theorem findLeavesLoop_eq (nodes : FreeList QuadNode) (x1 y1 x2 y2 : Int) :
    ∀ (fuel : Nat) (stack : List QuadNodeData) (ts : List Shape) (acc : List QuadNodeData),
      StackOf nodes stack ts → (ts.map Shape.size).sum ≤ fuel →
      findLeavesLoop nodes x1 y1 x2 y2 fuel stack acc =
        .ok (acc ++ walkStack x1 y1 x2 y2 stack ts) := by
  intro fuel
  induction fuel with
  | zero =>
    intro stack ts acc hs hsum
    cases stack with
    | nil => cases ts <;> simp [findLeavesLoop, walkStack]
    | cons nd stack =>
      cases ts with
      | nil => exact absurd hs (by simp [StackOf])
      | cons t ts =>
        have := t.size_pos
        simp only [List.map_cons, List.sum_cons] at hsum
        omega
  | succ fuel ih =>
    intro stack ts acc hs hsum
    cases stack with
    | nil => cases ts <;> simp [findLeavesLoop, walkStack]
    | cons nd stack =>
      cases ts with
      | nil => exact absurd hs (by simp [StackOf])
      | cons t ts =>
        obtain ⟨hroot, hwf, hrest⟩ := hs
        simp only [List.map_cons, List.sum_cons] at hsum
        cases t with
        | leaf n =>
          obtain ⟨node, hg, hleaf⟩ := wellFormed_leaf hwf
          simp only [Shape.root] at hroot
          simp only [Shape.size] at hsum
          rw [findLeavesLoop, hroot, hg]
          simp only [hleaf, ne_eq, not_false_eq_true, if_true]
          rw [ih stack ts (acc ++ [nd]) hrest (by omega)]
          simp [walkStack, walkLeaves]
        | branch n c0 c1 c2 c3 =>
          obtain ⟨node, hg, hbranch, h0, h1, h2, h3, w0, w1, w2, w3⟩ := wellFormed_branch hwf
          simp only [Shape.root] at hroot
          simp only [Shape.size] at hsum
          have e0 : (⟨node.firstChildIndex + 0, nd.depth + 1, nd.mx - nd.hx >>> 1,
              nd.my - nd.hx >>> 1, nd.hx >>> 1, nd.hy >>> 1⟩ : QuadNodeData) =
              childRecord nd c0.root false false := by simp [childRecord, h0]
          have e1 : (⟨node.firstChildIndex + 1, nd.depth + 1, nd.mx + nd.hx >>> 1,
              nd.my - nd.hx >>> 1, nd.hx >>> 1, nd.hy >>> 1⟩ : QuadNodeData) =
              childRecord nd c1.root true false := by simp [childRecord, h1]
          have e2 : (⟨node.firstChildIndex + 2, nd.depth + 1, nd.mx - nd.hx >>> 1,
              nd.my + nd.hy >>> 1, nd.hx >>> 1, nd.hy >>> 1⟩ : QuadNodeData) =
              childRecord nd c2.root false true := by simp [childRecord, h2]
          have e3 : (⟨node.firstChildIndex + 3, nd.depth + 1, nd.mx + nd.hx >>> 1,
              nd.my + nd.hy >>> 1, nd.hx >>> 1, nd.hy >>> 1⟩ : QuadNodeData) =
              childRecord nd c3.root true true := by simp [childRecord, h3]
          have hstack := StackOf_pushIf (selects x1 y1 x2 y2 nd true true)
            (childRecord nd c3.root true true) c3
            (StackOf_pushIf (selects x1 y1 x2 y2 nd false true)
              (childRecord nd c2.root false true) c2
              (StackOf_pushIf (selects x1 y1 x2 y2 nd true false)
                (childRecord nd c1.root true false) c1
                (StackOf_pushIf (selects x1 y1 x2 y2 nd false false)
                  (childRecord nd c0.root false false) c0 hrest rfl w0)
                rfl w1) rfl w2) rfl w3
          have hs3 := sum_size_select (selects x1 y1 x2 y2 nd true true) c3
            (if selects x1 y1 x2 y2 nd false true = true then
              c2 :: (if selects x1 y1 x2 y2 nd true false = true then
                c1 :: (if selects x1 y1 x2 y2 nd false false = true then c0 :: ts else ts)
              else (if selects x1 y1 x2 y2 nd false false = true then c0 :: ts else ts))
            else (if selects x1 y1 x2 y2 nd true false = true then
                c1 :: (if selects x1 y1 x2 y2 nd false false = true then c0 :: ts else ts)
              else (if selects x1 y1 x2 y2 nd false false = true then c0 :: ts else ts)))
          have hs2 := sum_size_select (selects x1 y1 x2 y2 nd false true) c2
            (if selects x1 y1 x2 y2 nd true false = true then
                c1 :: (if selects x1 y1 x2 y2 nd false false = true then c0 :: ts else ts)
              else (if selects x1 y1 x2 y2 nd false false = true then c0 :: ts else ts))
          have hs1 := sum_size_select (selects x1 y1 x2 y2 nd true false) c1
            (if selects x1 y1 x2 y2 nd false false = true then c0 :: ts else ts)
          have hs0 := sum_size_select (selects x1 y1 x2 y2 nd false false) c0 ts
          have hrun := ih _ _ acc hstack (by omega)
          rw [walkStack_pushIf, walkStack_pushIf, walkStack_pushIf, walkStack_pushIf] at hrun
          rw [findLeavesLoop, hroot, hg]
          simp only [hbranch, ne_eq, not_true_eq_false, if_false]
          rw [e0, e1, e2, e3]
          have hsel : ∀ r b : Bool, selects x1 y1 x2 y2 nd r b =
              ((if b then decide (y2 > nd.my) else decide (y1 ≤ nd.my)) &&
                (if r then decide (x2 > nd.mx) else decide (x1 ≤ nd.mx))) := fun _ _ => rfl
          have := hrun
          simp only [hsel, if_true, if_false, Bool.false_eq_true] at this
          rw [this]
          simp [walkStack, walkLeaves, hsel, List.append_assoc]

/-- On a well-formed tree, with fuel for every node, `findLeaves` from the root returns
exactly the leaves of `walkLeaves`. -/
theorem findLeaves_eq {q : Quadtree} {t : Shape} (fuel : Nat)
    (depth mx my hx hy x1 y1 x2 y2 : Int) (hwf : wellFormed q.nodes t = true)
    (hfuel : t.size ≤ fuel) :
    findLeaves fuel q t.root depth mx my hx hy x1 y1 x2 y2 =
      .ok (walkLeaves x1 y1 x2 y2 t ⟨t.root, depth, mx, my, hx, hy⟩) := by
  have := findLeavesLoop_eq q.nodes x1 y1 x2 y2 fuel [⟨t.root, depth, mx, my, hx, hy⟩] [t] []
    ⟨rfl, hwf, trivial⟩ (by simpa using hfuel)
  simpa [findLeaves, walkStack] using this

/-- The walks for two rectangles that both contain the point `(px, py)` emit a common
leaf record: at every branch both walks select the child on the side of the point. -/
theorem walkLeaves_common (ax1 ay1 ax2 ay2 bx1 by1 bx2 by2 px py : Int)
    (hax : ax1 ≤ px ∧ px ≤ ax2) (hay : ay1 ≤ py ∧ py ≤ ay2)
    (hbx : bx1 ≤ px ∧ px ≤ bx2) (hby : by1 ≤ py ∧ py ≤ by2) :
    ∀ (t : Shape) (nd : QuadNodeData),
      ∃ l, l ∈ walkLeaves ax1 ay1 ax2 ay2 t nd ∧ l ∈ walkLeaves bx1 by1 bx2 by2 t nd := by
  intro t
  induction t with
  | leaf n => intro nd; exact ⟨nd, by simp [walkLeaves], by simp [walkLeaves]⟩
  | branch n c0 c1 c2 c3 ih0 ih1 ih2 ih3 =>
    intro nd
    by_cases hx : px ≤ nd.mx <;> by_cases hy : py ≤ nd.my
    · obtain ⟨l, hla, hlb⟩ := ih0 (childRecord nd c0.root false false)
      have sa : selects ax1 ay1 ax2 ay2 nd false false = true := by
        simp only [selects, Bool.false_eq_true, if_false, Bool.and_eq_true, decide_eq_true_eq]
        omega
      have sb : selects bx1 by1 bx2 by2 nd false false = true := by
        simp only [selects, Bool.false_eq_true, if_false, Bool.and_eq_true, decide_eq_true_eq]
        omega
      refine ⟨l, ?_, ?_⟩ <;> simp only [walkLeaves, List.mem_append]
      · exact Or.inr (by rw [if_pos sa]; exact hla)
      · exact Or.inr (by rw [if_pos sb]; exact hlb)
    · obtain ⟨l, hla, hlb⟩ := ih2 (childRecord nd c2.root false true)
      have sa : selects ax1 ay1 ax2 ay2 nd false true = true := by
        simp only [selects, Bool.false_eq_true, if_false, if_true, Bool.and_eq_true,
          decide_eq_true_eq]
        omega
      have sb : selects bx1 by1 bx2 by2 nd false true = true := by
        simp only [selects, Bool.false_eq_true, if_false, if_true, Bool.and_eq_true,
          decide_eq_true_eq]
        omega
      refine ⟨l, ?_, ?_⟩ <;> simp only [walkLeaves, List.mem_append]
      · exact Or.inl (Or.inl (Or.inr (by rw [if_pos sa]; exact hla)))
      · exact Or.inl (Or.inl (Or.inr (by rw [if_pos sb]; exact hlb)))
    · obtain ⟨l, hla, hlb⟩ := ih1 (childRecord nd c1.root true false)
      have sa : selects ax1 ay1 ax2 ay2 nd true false = true := by
        simp only [selects, Bool.false_eq_true, if_false, if_true, Bool.and_eq_true,
          decide_eq_true_eq]
        omega
      have sb : selects bx1 by1 bx2 by2 nd true false = true := by
        simp only [selects, Bool.false_eq_true, if_false, if_true, Bool.and_eq_true,
          decide_eq_true_eq]
        omega
      refine ⟨l, ?_, ?_⟩ <;> simp only [walkLeaves, List.mem_append]
      · exact Or.inl (Or.inr (by rw [if_pos sa]; exact hla))
      · exact Or.inl (Or.inr (by rw [if_pos sb]; exact hlb))
    · obtain ⟨l, hla, hlb⟩ := ih3 (childRecord nd c3.root true true)
      have sa : selects ax1 ay1 ax2 ay2 nd true true = true := by
        simp only [selects, if_true, Bool.and_eq_true, decide_eq_true_eq]
        omega
      have sb : selects bx1 by1 bx2 by2 nd true true = true := by
        simp only [selects, if_true, Bool.and_eq_true, decide_eq_true_eq]
        omega
      refine ⟨l, ?_, ?_⟩ <;> simp only [walkLeaves, List.mem_append]
      · exact Or.inl (Or.inl (Or.inl (by rw [if_pos sa]; exact hla)))
      · exact Or.inl (Or.inl (Or.inl (by rw [if_pos sb]; exact hlb)))

/-- Claim C19. Shared-leaf property of the walk.  On a well-formed tree, with fuel for
every node, the walks of `findLeaves` from the same start record for two rectangles
`A` and `B` (each with `x1 ≤ x2`, `y1 ≤ y2`) that overlap, i.e. have a point in common,
both return, and they emit a common leaf record, whatever centres and half-extents
the start record carries.  Hence an element index linked from every leaf of the walk
for `A` is linked from one of the leaves of the walk for `B`. -/
theorem overlapping_walks_share_a_leaf (fuel : Nat) (q : Quadtree) (t : Shape)
    (depth mx my hx hy ax1 ay1 ax2 ay2 bx1 by1 bx2 by2 : Int)
    (hwf : wellFormed q.nodes t = true) (hfuel : t.size ≤ fuel)
    (hA : ax1 ≤ ax2 ∧ ay1 ≤ ay2) (hB : bx1 ≤ bx2 ∧ by1 ≤ by2)
    (hoverlap : ax1 ≤ bx2 ∧ bx1 ≤ ax2 ∧ ay1 ≤ by2 ∧ by1 ≤ ay2) :
    ∃ la lb, findLeaves fuel q t.root depth mx my hx hy ax1 ay1 ax2 ay2 = .ok la ∧
      findLeaves fuel q t.root depth mx my hx hy bx1 by1 bx2 by2 = .ok lb ∧
      (∃ l, l ∈ la ∧ l ∈ lb) ∧
      ∀ i, (∀ l ∈ la, ∃ node, q.nodes.get l.nodeIndex = .ok node ∧
          LinkedFrom q.elementNodes node.firstChildIndex i) → LinkedInLeaves q lb i := by
  obtain ⟨l, hla, hlb⟩ := walkLeaves_common ax1 ay1 ax2 ay2 bx1 by1 bx2 by2 (max ax1 bx1)
    (max ay1 by1) (by omega) (by omega) (by omega) (by omega) t ⟨t.root, depth, mx, my, hx, hy⟩
  refine ⟨_, _, findLeaves_eq fuel depth mx my hx hy ax1 ay1 ax2 ay2 hwf hfuel,
    findLeaves_eq fuel depth mx my hx hy bx1 by1 bx2 by2 hwf hfuel, ⟨l, hla, hlb⟩, ?_⟩
  intro i hall
  obtain ⟨node, hg, hlinked⟩ := hall l hla
  exact ⟨l, hlb, node, hg, hlinked⟩

/-- A witness of `overlapping_walks_share_a_leaf`: in `sampleTree` the rectangles
`(40,40,60,60)` and `(55,55,90,90)` overlap; the walk for the first emits all four
leaves, the walk for the second only leaf 4. -/
theorem overlapping_walks_share_a_leaf_witness :
    ∃ la lb, findLeaves 10 sampleTree sampleShape.root 0 50 50 50 50 40 40 60 60 = .ok la ∧
      findLeaves 10 sampleTree sampleShape.root 0 50 50 50 50 55 55 90 90 = .ok lb ∧
      (∃ l, l ∈ la ∧ l ∈ lb) ∧
      ∀ i, (∀ l ∈ la, ∃ node, sampleTree.nodes.get l.nodeIndex = .ok node ∧
          LinkedFrom sampleTree.elementNodes node.firstChildIndex i) →
        LinkedInLeaves sampleTree lb i :=
  overlapping_walks_share_a_leaf 10 sampleTree sampleShape 0 50 50 50 50 40 40 60 60 55 55 90 90
    (by decide) (by decide) (by decide) (by decide) (by decide)

/-! ## Geometry: the traversal, and the leaves that the walk emits -/

/-- On a stack of well-formed trees, with fuel for every node, the loop of `traverse`
makes exactly the calls of `visitsStack`, after those made before. -/
theorem traverseLoop_eq (nodes : FreeList QuadNode) :
    ∀ (fuel : Nat) (stack : List QuadNodeData) (ts : List Shape) (acc : List Visit),
      StackOf nodes stack ts → (ts.map Shape.size).sum ≤ fuel →
      traverseLoop nodes fuel stack acc = .ok (acc ++ visitsStack stack ts) := by
  intro fuel
  induction fuel with
  | zero =>
    intro stack ts acc hs hsum
    cases stack with
    | nil => cases ts <;> simp [traverseLoop, visitsStack]
    | cons nd stack =>
      cases ts with
      | nil => exact absurd hs (by simp [StackOf])
      | cons t ts =>
        have := t.size_pos
        simp only [List.map_cons, List.sum_cons] at hsum
        omega
  | succ fuel ih =>
    intro stack ts acc hs hsum
    cases stack with
    | nil => cases ts <;> simp [traverseLoop, visitsStack]
    | cons nd stack =>
      cases ts with
      | nil => exact absurd hs (by simp [StackOf])
      | cons t ts =>
        obtain ⟨hroot, hwf, hrest⟩ := hs
        simp only [List.map_cons, List.sum_cons] at hsum
        cases t with
        | leaf n =>
          obtain ⟨node, hg, hleaf⟩ := wellFormed_leaf hwf
          simp only [Shape.root] at hroot
          simp only [Shape.size] at hsum
          rw [traverseLoop, hroot, hg]
          simp only [hleaf, if_false]
          rw [ih stack ts (acc ++ [Visit.leaf nd]) hrest (by omega)]
          simp [visitsStack, visitsOf]
        | branch n c0 c1 c2 c3 =>
          obtain ⟨node, hg, hbranch, h0, h1, h2, h3, w0, w1, w2, w3⟩ := wellFormed_branch hwf
          simp only [Shape.root] at hroot
          simp only [Shape.size] at hsum
          have hstack : StackOf nodes
              (visitRecord nd c3.root true true :: visitRecord nd c2.root false true ::
                visitRecord nd c1.root true false :: visitRecord nd c0.root false false :: stack)
              (c3 :: c2 :: c1 :: c0 :: ts) :=
            ⟨rfl, w3, rfl, w2, rfl, w1, rfl, w0, hrest⟩
          have hrun := ih _ _ (acc ++ [Visit.branch nd]) hstack (by
            simp only [List.map_cons, List.sum_cons]; omega)
          rw [traverseLoop, hroot, hg]
          simp only [hbranch, if_true]
          have e0 : (⟨node.firstChildIndex + 0, nd.depth + 1, nd.mx - nd.hx >>> 1,
              nd.my - nd.hy >>> 1, nd.hx >>> 1, nd.hy >>> 1⟩ : QuadNodeData) =
              visitRecord nd c0.root false false := by simp [visitRecord, h0]
          have e1 : (⟨node.firstChildIndex + 1, nd.depth + 1, nd.mx + nd.hx >>> 1,
              nd.my - nd.hy >>> 1, nd.hx >>> 1, nd.hy >>> 1⟩ : QuadNodeData) =
              visitRecord nd c1.root true false := by simp [visitRecord, h1]
          have e2 : (⟨node.firstChildIndex + 2, nd.depth + 1, nd.mx - nd.hx >>> 1,
              nd.my + nd.hy >>> 1, nd.hx >>> 1, nd.hy >>> 1⟩ : QuadNodeData) =
              visitRecord nd c2.root false true := by simp [visitRecord, h2]
          have e3 : (⟨node.firstChildIndex + 3, nd.depth + 1, nd.mx + nd.hx >>> 1,
              nd.my + nd.hy >>> 1, nd.hx >>> 1, nd.hy >>> 1⟩ : QuadNodeData) =
              visitRecord nd c3.root true true := by simp [visitRecord, h3]
          rw [e0, e1, e2, e3, hrun]
          simp [visitsStack, visitsOf, List.append_assoc]

/-- On a well-formed tree rooted at node 0, with fuel for every node, `traverse` makes
exactly the calls of `visitsOf`. -/
theorem traverse_eq {q : Quadtree} {t : Shape} (fuel : Nat) (hwf : wellFormed q.nodes t = true)
    (hroot : t.root = 0) (hfuel : t.size ≤ fuel) :
    traverse fuel q = .ok (visitsOf t ⟨0, 0, q.rootMx, q.rootMy, q.rootHx, q.rootHy⟩) := by
  have := traverseLoop_eq q.nodes fuel [⟨0, 0, q.rootMx, q.rootMy, q.rootHx, q.rootHy⟩] [t] []
    ⟨hroot.symm, hwf, trivial⟩ (by simpa using hfuel)
  simpa [traverse, visitsStack] using this

theorem shiftRight_one (h : Int) : h >>> (1 : Int) = h / 2 := by
  cases h with
  | ofNat m =>
    have := Int.shiftRight_coe_nat m 1
    simp only [Nat.cast_one, Nat.cast_ofNat] at this
    rw [Int.ofNat_eq_coe, this, Nat.shiftRight_eq_div_pow]
    norm_num
  | negSucc m =>
    have := Int.shiftRight_negSucc m 1
    simp only [Nat.cast_one] at this
    rw [this, Nat.shiftRight_eq_div_pow]
    simp only [pow_one, Int.negSucc_eq]
    push_cast
    omega

theorem visitRecord_eq_childRecord {nd : QuadNodeData} (root : Int) (right bottom : Bool)
    (h : nd.hx = nd.hy) : visitRecord nd root right bottom = childRecord nd root right bottom := by
  simp [visitRecord, childRecord, h]

/-- With non-negative half-extents, the box that `traverse` gives to a leaf lies inside
the box of every record above it. -/
theorem visits_nested : ∀ (t : Shape) (nd : QuadNodeData), 0 ≤ nd.hx → 0 ≤ nd.hy →
    ∀ l, Visit.leaf l ∈ visitsOf t nd →
      nd.mx - nd.hx ≤ l.mx - l.hx ∧ l.mx + l.hx ≤ nd.mx + nd.hx ∧
        nd.my - nd.hy ≤ l.my - l.hy ∧ l.my + l.hy ≤ nd.my + nd.hy := by
  intro t
  induction t with
  | leaf n =>
    intro nd _ _ l hl
    simp only [visitsOf, List.mem_singleton, Visit.leaf.injEq] at hl
    subst hl
    omega
  | branch n c0 c1 c2 c3 ih0 ih1 ih2 ih3 =>
    intro nd hx hy l hl
    have hsx := shiftRight_one nd.hx
    have hsy := shiftRight_one nd.hy
    have key : ∀ (c : Shape) (right bottom : Bool),
        (∀ nd' : QuadNodeData, 0 ≤ nd'.hx → 0 ≤ nd'.hy → ∀ l, Visit.leaf l ∈ visitsOf c nd' →
          nd'.mx - nd'.hx ≤ l.mx - l.hx ∧ l.mx + l.hx ≤ nd'.mx + nd'.hx ∧
            nd'.my - nd'.hy ≤ l.my - l.hy ∧ l.my + l.hy ≤ nd'.my + nd'.hy) →
        Visit.leaf l ∈ visitsOf c (visitRecord nd c.root right bottom) →
        nd.mx - nd.hx ≤ l.mx - l.hx ∧ l.mx + l.hx ≤ nd.mx + nd.hx ∧
          nd.my - nd.hy ≤ l.my - l.hy ∧ l.my + l.hy ≤ nd.my + nd.hy := by
      intro c right bottom ih hlc
      have := ih (visitRecord nd c.root right bottom)
        (by simp only [visitRecord]; omega) (by simp only [visitRecord]; omega) l hlc
      cases right <;> cases bottom <;> simp only [visitRecord, Bool.false_eq_true, if_false,
        if_true] at this <;> omega
    simp only [visitsOf, List.mem_cons, List.mem_append] at hl
    rcases hl with hl | ((hl | hl) | hl) | hl
    · cases hl
    · exact key c3 true true ih3 hl
    · exact key c2 false true ih2 hl
    · exact key c1 true false ih1 hl
    · exact key c0 false false ih0 hl

/-- From a record with equal non-negative half-extents, the walk emits every leaf that
`traverse` visits whose half-open box `(mx - hx, mx + hx] × (my - hy, my + hy]` has a
point `(px, py)` of the rectangle. -/
theorem walkLeaves_complete (x1 y1 x2 y2 px py : Int) (hpx : x1 ≤ px ∧ px ≤ x2)
    (hpy : y1 ≤ py ∧ py ≤ y2) :
    ∀ (t : Shape) (nd : QuadNodeData), nd.hx = nd.hy → 0 ≤ nd.hx →
      ∀ l, Visit.leaf l ∈ visitsOf t nd →
        l.mx - l.hx < px ∧ px ≤ l.mx + l.hx ∧ l.my - l.hy < py ∧ py ≤ l.my + l.hy →
        l ∈ walkLeaves x1 y1 x2 y2 t nd := by
  intro t
  induction t with
  | leaf n =>
    intro nd _ _ l hl _
    simp only [visitsOf, List.mem_singleton, Visit.leaf.injEq] at hl
    subst hl
    simp [walkLeaves]
  | branch n c0 c1 c2 c3 ih0 ih1 ih2 ih3 =>
    intro nd hh h0 l hl hp
    have hsx := shiftRight_one nd.hx
    have hsy := shiftRight_one nd.hy
    have key : ∀ (c : Shape) (right bottom : Bool),
        (∀ nd' : QuadNodeData, nd'.hx = nd'.hy → 0 ≤ nd'.hx → ∀ l, Visit.leaf l ∈ visitsOf c nd' →
          l.mx - l.hx < px ∧ px ≤ l.mx + l.hx ∧ l.my - l.hy < py ∧ py ≤ l.my + l.hy →
          l ∈ walkLeaves x1 y1 x2 y2 c nd') →
        Visit.leaf l ∈ visitsOf c (visitRecord nd c.root right bottom) →
        selects x1 y1 x2 y2 nd right bottom = true ∧
          l ∈ walkLeaves x1 y1 x2 y2 c (childRecord nd c.root right bottom) := by
      intro c right bottom ih hlc
      have hnest := visits_nested c (visitRecord nd c.root right bottom)
        (by simp only [visitRecord]; omega) (by simp only [visitRecord]; omega) l hlc
      constructor
      · cases right <;> cases bottom <;>
          simp only [visitRecord, Bool.false_eq_true, if_false, if_true] at hnest <;>
          simp only [selects, Bool.false_eq_true, if_false, if_true, Bool.and_eq_true,
            decide_eq_true_eq] <;> omega
      · rw [← visitRecord_eq_childRecord c.root right bottom hh]
        exact ih _ (by simp only [visitRecord]; rw [hh]) (by simp only [visitRecord]; omega) l
          hlc hp
    simp only [visitsOf, List.mem_cons, List.mem_append] at hl
    simp only [walkLeaves, List.mem_append]
    rcases hl with hl | ((hl | hl) | hl) | hl
    · cases hl
    · obtain ⟨hs, hm⟩ := key c3 true true ih3 hl
      exact Or.inl (Or.inl (Or.inl (by rw [if_pos hs]; exact hm)))
    · obtain ⟨hs, hm⟩ := key c2 false true ih2 hl
      exact Or.inl (Or.inl (Or.inr (by rw [if_pos hs]; exact hm)))
    · obtain ⟨hs, hm⟩ := key c1 true false ih1 hl
      exact Or.inl (Or.inr (by rw [if_pos hs]; exact hm))
    · obtain ⟨hs, hm⟩ := key c0 false false ih0 hl
      exact Or.inr (by rw [if_pos hs]; exact hm)

/-- Claim C14. Child geometry in the leaf-finding walk.  For every branch record the walk
gives a top child (left or right) the centre `my - (hx >> 1)`, where `traverse` gives
it `my - (hy >> 1)`; depth, half-extents, the x centre and the bottom centre agree.
On `sampleWide` (200 by 100, root record `(100, 50, 100, 50)`) the walk emits the top
leaves 2 and 1 with `my = 0`, and `traverse` passes `my = 25` for them. -/
theorem walk_top_centre_uses_x_half_extent :
    (∀ (nd : QuadNodeData) (root : Int) (right : Bool),
      (childRecord nd root right false).my = nd.my - nd.hx >>> 1 ∧
      (visitRecord nd root right false).my = nd.my - nd.hy >>> 1 ∧
      (childRecord nd root right true).my = (visitRecord nd root right true).my ∧
      ∀ bottom, (childRecord nd root right bottom).mx = (visitRecord nd root right bottom).mx ∧
        (childRecord nd root right bottom).hx = nd.hx >>> 1 ∧
        (childRecord nd root right bottom).hy = nd.hy >>> 1 ∧
        (childRecord nd root right bottom).depth = nd.depth + 1) ∧
    findLeaves 10 sampleWide 0 0 100 50 100 50 0 0 200 100 =
      .ok [⟨4, 1, 150, 75, 50, 25⟩, ⟨3, 1, 50, 75, 50, 25⟩, ⟨2, 1, 150, 0, 50, 25⟩,
        ⟨1, 1, 50, 0, 50, 25⟩] ∧
    traverse 10 sampleWide =
      .ok [.branch ⟨0, 0, 100, 50, 100, 50⟩, .leaf ⟨4, 1, 150, 75, 50, 25⟩,
        .leaf ⟨3, 1, 50, 75, 50, 25⟩, .leaf ⟨2, 1, 150, 25, 50, 25⟩,
        .leaf ⟨1, 1, 50, 25, 50, 25⟩] :=
  ⟨fun _ _ _ => ⟨rfl, rfl, rfl, fun _ => ⟨rfl, rfl, rfl, rfl⟩⟩, by decide, by decide⟩

/-- The counterexample to claim C15 as stated.  In `sampleTree` (100 by 100, root a branch
with the leaves 1..4) the leaf 2 has the box `[50,100] × [0,50]` (`traverse` passes
`(75, 25, 25, 25)` for it), which intersects the rectangle `(0, 0, 50, 50)` along
`x = 50`; yet the walk for that rectangle emits leaf 1 only, because the right half
is entered only when `x2 > mx`. -/
theorem closed_box_leaf_not_emitted :
    wellFormed sampleTree.nodes sampleShape = true ∧
    findLeaves 10 sampleTree 0 0 50 50 50 50 0 0 50 50 = .ok [⟨1, 1, 25, 25, 25, 25⟩] ∧
    (∃ visits, traverse 10 sampleTree = .ok visits ∧ Visit.leaf ⟨2, 1, 75, 25, 25, 25⟩ ∈ visits) ∧
    intersect 0 0 50 50 (75 - 25) (25 - 25) (75 + 25) (25 + 25) = true :=
  ⟨by decide, by decide,
    ⟨[.branch ⟨0, 0, 50, 50, 50, 50⟩, .leaf ⟨4, 1, 75, 75, 25, 25⟩, .leaf ⟨3, 1, 25, 75, 25, 25⟩,
      .leaf ⟨2, 1, 75, 25, 25, 25⟩, .leaf ⟨1, 1, 25, 25, 25, 25⟩], by decide, by decide⟩,
    by decide⟩

/-- Claim C15, amended. Leaf-finding completeness.  On a well-formed tree rooted at node 0
whose root half-extents are equal and non-negative, with fuel for every node,
`findLeaves` from the root and `traverse` both return, and `findLeaves` emits every
leaf record that `traverse` visits whose half-open box
`(mx - hx, mx + hx] × (my - hy, my + hy]` contains a point `(px, py)` of the
rectangle. -/
theorem findLeaves_complete_half_open (fuel : Nat) (q : Quadtree) (t : Shape)
    (x1 y1 x2 y2 : Int) (hwf : wellFormed q.nodes t = true) (hroot : t.root = 0)
    (hfuel : t.size ≤ fuel) (hsquare : q.rootHx = q.rootHy) (hnonneg : 0 ≤ q.rootHx) :
    ∃ leaves visits,
      findLeaves fuel q 0 0 q.rootMx q.rootMy q.rootHx q.rootHy x1 y1 x2 y2 = .ok leaves ∧
      traverse fuel q = .ok visits ∧
      ∀ l, Visit.leaf l ∈ visits → ∀ px py : Int, x1 ≤ px ∧ px ≤ x2 → y1 ≤ py ∧ py ≤ y2 →
        l.mx - l.hx < px ∧ px ≤ l.mx + l.hx ∧ l.my - l.hy < py ∧ py ≤ l.my + l.hy →
        l ∈ leaves := by
  have hwalk := findLeaves_eq fuel 0 q.rootMx q.rootMy q.rootHx q.rootHy x1 y1 x2 y2 hwf hfuel
  rw [hroot] at hwalk
  refine ⟨_, _, hwalk, traverse_eq fuel hwf hroot hfuel, ?_⟩
  intro l hl px py hpx hpy hbox
  exact walkLeaves_complete x1 y1 x2 y2 px py hpx hpy t _ hsquare hnonneg l hl hbox

/-- A witness of `findLeaves_complete_half_open`: `sampleTree` and the rectangle
`(0, 0, 50, 50)`. -/
theorem findLeaves_complete_half_open_witness :
    ∃ leaves visits,
      findLeaves 10 sampleTree 0 0 sampleTree.rootMx sampleTree.rootMy sampleTree.rootHx
        sampleTree.rootHy 0 0 50 50 = .ok leaves ∧
      traverse 10 sampleTree = .ok visits ∧
      ∀ l, Visit.leaf l ∈ visits → ∀ px py : Int, 0 ≤ px ∧ px ≤ 50 → 0 ≤ py ∧ py ≤ 50 →
        l.mx - l.hx < px ∧ px ≤ l.mx + l.hx ∧ l.my - l.hy < py ∧ py ≤ l.my + l.hy →
        l ∈ leaves :=
  findLeaves_complete_half_open 10 sampleTree sampleShape 0 0 50 50 (by decide) rfl (by decide)
    rfl (by decide)

/-! ## Query: soundness of the result, and the marks in `tempBuffer` -/

theorem queryWalk_sound (q : Quadtree) (qx1 qy1 qx2 qy2 om : Int) (G : Int → Prop) :
    ∀ (fuel : Nat) (eni : Int) (st st' : QueryState),
      List.Forall₂ (fun e i => q.elements.get i = .ok e ∧
        intersect qx1 qy1 qx2 qy2 e.x1 e.y1 e.x2 e.y2 = true ∧ G i) st.out st.clearList →
      (∀ i, LinkedFrom q.elementNodes eni i → G i) →
      queryWalk q qx1 qy1 qx2 qy2 om fuel eni st = .ok st' →
      List.Forall₂ (fun e i => q.elements.get i = .ok e ∧
        intersect qx1 qy1 qx2 qy2 e.x1 e.y1 e.x2 e.y2 = true ∧ G i) st'.out st'.clearList := by
  intro fuel
  induction fuel with
  | zero => intro eni st st' _ _ h; simp [queryWalk] at h
  | succ fuel ih =>
    intro eni st st' hinv hlinked h
    rw [queryWalk] at h
    split at h
    · cases hc : q.elementNodes.get eni with
      | error f => rw [hc] at h; simp at h
      | ok cell =>
        rw [hc] at h
        simp only at h
        have hnext : ∀ i, LinkedFrom q.elementNodes cell.nextIndex i → G i :=
          fun i hi => hlinked i (LinkedFrom.next hc hi)
        cases hb : bufGet st.tempBuffer cell.elementIndex with
        | none => rw [hb] at h; simp at h
        | some seen =>
          rw [hb] at h
          simp only at h
          split at h
          · cases he : q.elements.get cell.elementIndex with
            | error f => rw [he] at h; simp at h
            | ok e =>
              rw [he] at h
              simp only at h
              split at h
              · rename_i hint
                refine ih _ _ _ ?_ hnext h
                exact List.rel_append hinv
                  (List.Forall₂.cons ⟨he, hint, hlinked _ (LinkedFrom.here hc)⟩ List.Forall₂.nil)
              · exact ih _ _ _ hinv hnext h
          · exact ih _ _ _ hinv hnext h
    · cases h
      exact hinv

theorem queryLeaves_sound (fuel : Nat) (q : Quadtree) (qx1 qy1 qx2 qy2 om : Int)
    (leaves : List QuadNodeData) :
    ∀ (rest : List QuadNodeData) (st st' : QueryState), (∀ l ∈ rest, l ∈ leaves) →
      List.Forall₂ (fun e i => q.elements.get i = .ok e ∧
        intersect qx1 qy1 qx2 qy2 e.x1 e.y1 e.x2 e.y2 = true ∧ LinkedInLeaves q leaves i)
        st.out st.clearList →
      queryLeaves fuel q qx1 qy1 qx2 qy2 om rest st = .ok st' →
      List.Forall₂ (fun e i => q.elements.get i = .ok e ∧
        intersect qx1 qy1 qx2 qy2 e.x1 e.y1 e.x2 e.y2 = true ∧ LinkedInLeaves q leaves i)
        st'.out st'.clearList := by
  intro rest
  induction rest with
  | nil => intro st st' _ hinv h; simp only [queryLeaves, Except.ok.injEq] at h; subst h; exact hinv
  | cons l rest ih =>
    intro st st' hsub hinv h
    rw [queryLeaves] at h
    cases hn : q.nodes.get l.nodeIndex with
    | error f => rw [hn] at h; simp at h
    | ok node =>
      rw [hn] at h
      simp only at h
      cases hw : queryWalk q qx1 qy1 qx2 qy2 om fuel node.firstChildIndex st with
      | error f => rw [hw] at h; simp at h
      | ok st1 =>
        rw [hw] at h
        refine ih st1 st' (fun x hx => hsub x (List.mem_cons_of_mem _ hx)) ?_ h
        exact queryWalk_sound q qx1 qy1 qx2 qy2 om (LinkedInLeaves q leaves) fuel _ st st1 hinv
          (fun i hi => ⟨l, hsub l (List.mem_cons_self _ _), node, hn, hi⟩) hw

theorem forall₂_left {α β : Type} {R : α → β → Prop} :
    ∀ {l1 : List α} {l2 : List β}, List.Forall₂ R l1 l2 → ∀ a ∈ l1, ∃ b, R a b := by
  intro l1 l2 h
  induction h with
  | nil => intro a ha; cases ha
  | cons hab _ ih =>
    intro a ha
    rcases List.mem_cons.mp ha with rfl | ha
    · exact ⟨_, hab⟩
    · exact ih a ha

theorem query_inv {fuel : Nat} {q q' : Quadtree} {qx1 qy1 qx2 qy2 om : Int}
    {out : List QuadElement} (h : query fuel q qx1 qy1 qx2 qy2 om = .ok (out, q')) :
    ∃ st buf, queryCollect fuel q qx1 qy1 qx2 qy2 om = .ok st ∧
      clearMarks st.clearList st.tempBuffer = .ok buf ∧ out = st.out ∧
      q' = { q with tempBuffer := buf } := by
  unfold query at h
  cases hc : queryCollect fuel q qx1 qy1 qx2 qy2 om with
  | error f => rw [hc] at h; cases h
  | ok st =>
    rw [hc] at h
    simp only at h
    cases hm : clearMarks st.clearList st.tempBuffer with
    | error f => rw [hm] at h; cases h
    | ok buf =>
      rw [hm] at h
      simp only [Except.ok.injEq, Prod.mk.injEq] at h
      exact ⟨st, buf, rfl, hm, h.1.symm, h.2.symm⟩

/-- Claim C16. Query soundness.  Whenever `query` returns, the leaf walk for the query
rectangle `A`, each coordinate truncated toward zero, has returned some `leaves`, and
every record `e` of the result is the stored record of an element index that is
linked from one of these leaves and satisfies `e.x1 ≤ A.x2`, `e.x2 ≥ A.x1`,
`e.y1 ≤ A.y2`, `e.y2 ≥ A.y1`. -/
theorem query_result_is_sound (fuel : Nat) (q q' : Quadtree) (x1 y1 x2 y2 : ℚ)
    (omitElementIndex : Int) (out : List QuadElement)
    (h : queryFloat fuel q x1 y1 x2 y2 omitElementIndex = .ok (out, q')) :
    ∃ leaves,
      findLeaves fuel q 0 0 q.rootMx q.rootMy q.rootHx q.rootHy (castInt x1) (castInt y1)
        (castInt x2) (castInt y2) = .ok leaves ∧
      ∀ e ∈ out, ∃ i, q.elements.get i = .ok e ∧ LinkedInLeaves q leaves i ∧
        e.x1 ≤ castInt x2 ∧ e.x2 ≥ castInt x1 ∧ e.y1 ≤ castInt y2 ∧ e.y2 ≥ castInt y1 := by
  obtain ⟨st, buf, hc, _, hout, _⟩ := query_inv h
  subst hout
  unfold queryCollect at hc
  cases hl : findLeaves fuel q 0 0 q.rootMx q.rootMy q.rootHx q.rootHy (castInt x1) (castInt y1)
      (castInt x2) (castInt y2) with
  | error f => rw [hl] at hc; cases hc
  | ok leaves =>
    rw [hl] at hc
    refine ⟨leaves, rfl, ?_⟩
    have hall := queryLeaves_sound fuel q (castInt x1) (castInt y1) (castInt x2) (castInt y2)
      omitElementIndex leaves leaves _ st (fun _ hx => hx) List.Forall₂.nil hc
    intro e he
    obtain ⟨i, hg, hint, hlink⟩ := forall₂_left hall e he
    simp only [intersect, Bool.and_eq_true, decide_eq_true_eq] at hint
    exact ⟨i, hg, hlink, hint.1.1.1, hint.1.1.2, hint.1.2, hint.2⟩

/-- A witness of `query_result_is_sound`: the query `(0.5, 0.5, 30.9, 30.7)` on
`sampleTree`, truncated to `(0, 0, 30, 30)`, returns element 1 only. -/
theorem query_result_is_sound_witness :
    ∃ leaves,
      findLeaves 10 sampleTree 0 0 sampleTree.rootMx sampleTree.rootMy sampleTree.rootHx
        sampleTree.rootHy (castInt (1 / 2)) (castInt (1 / 2)) (castInt (309 / 10))
        (castInt (307 / 10)) = .ok leaves ∧
      ∀ e ∈ [(⟨8, 10, 10, 20, 20⟩ : QuadElement)], ∃ i, sampleTree.elements.get i = .ok e ∧
        LinkedInLeaves sampleTree leaves i ∧
        e.x1 ≤ castInt (309 / 10) ∧ e.x2 ≥ castInt (1 / 2) ∧ e.y1 ≤ castInt (307 / 10) ∧
        e.y2 ≥ castInt (1 / 2) :=
  query_result_is_sound 10 sampleTree sampleTree (1 / 2) (1 / 2) (309 / 10) (307 / 10) (-1)
    [⟨8, 10, 10, 20, 20⟩] (by decide!)

theorem bufGet_mem {buf : List Bool} {b : Bool} (h : b ∈ buf) : ∃ j, bufGet buf j = some b := by
  obtain ⟨n, hn⟩ := List.mem_iff_getElem?.mp h
  refine ⟨(n : Int), ?_⟩
  unfold bufGet
  simp [hn]

theorem mem_of_bufGet {buf : List Bool} {b : Bool} {j : Int} (h : bufGet buf j = some b) :
    b ∈ buf := by
  unfold bufGet at h
  split at h
  · cases h
  · exact List.mem_iff_getElem?.mpr ⟨_, h⟩

/-- Along one leaf's list, `query` keeps the length of `tempBuffer`, and every mark in it
belongs to an index of `clearList`. -/
theorem queryWalk_marks (q : Quadtree) (qx1 qy1 qx2 qy2 om : Int) :
    ∀ (fuel : Nat) (eni : Int) (st st' : QueryState),
      (∀ j, bufGet st.tempBuffer j = some true → j ∈ st.clearList) →
      queryWalk q qx1 qy1 qx2 qy2 om fuel eni st = .ok st' →
      st'.tempBuffer.length = st.tempBuffer.length ∧
        ∀ j, bufGet st'.tempBuffer j = some true → j ∈ st'.clearList := by
  intro fuel
  induction fuel with
  | zero => intro eni st st' _ h; simp [queryWalk] at h
  | succ fuel ih =>
    intro eni st st' hinv h
    rw [queryWalk] at h
    split at h
    · cases hc : q.elementNodes.get eni with
      | error f => rw [hc] at h; simp at h
      | ok cell =>
        rw [hc] at h
        simp only at h
        cases hb : bufGet st.tempBuffer cell.elementIndex with
        | none => rw [hb] at h; simp at h
        | some seen =>
          rw [hb] at h
          simp only at h
          split at h
          · cases he : q.elements.get cell.elementIndex with
            | error f => rw [he] at h; simp at h
            | ok e =>
              rw [he] at h
              simp only at h
              split at h
              · have h0 := bufGet_nonneg hb
                obtain ⟨hlen, hmarks⟩ := ih _ _ _ (by
                  intro j hj
                  simp only at hj ⊢
                  rw [bufGet_set _ _ _ _ h0] at hj
                  by_cases hji : j = cell.elementIndex
                  · simp [hji]
                  · simp only [hji, if_false] at hj
                    exact List.mem_append_left _ (hinv j hj)) h
                exact ⟨by rw [hlen]; simp, hmarks⟩
              · exact ih _ _ _ hinv h
          · exact ih _ _ _ hinv h
    · cases h
      exact ⟨rfl, hinv⟩

theorem queryLeaves_marks (fuel : Nat) (q : Quadtree) (qx1 qy1 qx2 qy2 om : Int) :
    ∀ (leaves : List QuadNodeData) (st st' : QueryState),
      (∀ j, bufGet st.tempBuffer j = some true → j ∈ st.clearList) →
      queryLeaves fuel q qx1 qy1 qx2 qy2 om leaves st = .ok st' →
      st'.tempBuffer.length = st.tempBuffer.length ∧
        ∀ j, bufGet st'.tempBuffer j = some true → j ∈ st'.clearList := by
  intro leaves
  induction leaves with
  | nil =>
    intro st st' hinv h
    simp only [queryLeaves, Except.ok.injEq] at h
    subst h
    exact ⟨rfl, hinv⟩
  | cons l rest ih =>
    intro st st' hinv h
    rw [queryLeaves] at h
    cases hn : q.nodes.get l.nodeIndex with
    | error f => rw [hn] at h; simp at h
    | ok node =>
      rw [hn] at h
      simp only at h
      cases hw : queryWalk q qx1 qy1 qx2 qy2 om fuel node.firstChildIndex st with
      | error f => rw [hw] at h; simp at h
      | ok st1 =>
        rw [hw] at h
        obtain ⟨hlen1, hm1⟩ := queryWalk_marks q qx1 qy1 qx2 qy2 om fuel _ st st1 hinv hw
        obtain ⟨hlen2, hm2⟩ := ih st1 st' hm1 h
        exact ⟨hlen2.trans hlen1, hm2⟩

/-- The final loop of `query` keeps the length of `tempBuffer`, and a mark that is left
was there before and does not belong to an index of `clearList`. -/
theorem clearMarks_inv : ∀ (clearList : List Int) (buf buf' : List Bool),
    clearMarks clearList buf = .ok buf' →
    buf'.length = buf.length ∧
      ∀ j, bufGet buf' j = some true → bufGet buf j = some true ∧ j ∉ clearList := by
  intro clearList
  induction clearList with
  | nil =>
    intro buf buf' h
    simp only [clearMarks, Except.ok.injEq] at h
    subst h
    exact ⟨rfl, fun j hj => ⟨hj, by simp⟩⟩
  | cons i rest ih =>
    intro buf buf' h
    rw [clearMarks] at h
    cases hb : bufGet buf i with
    | none => rw [hb] at h; cases h
    | some b =>
      rw [hb] at h
      simp only at h
      have h0 := bufGet_nonneg hb
      obtain ⟨hlen, hm⟩ := ih _ _ h
      refine ⟨by rw [hlen]; simp, ?_⟩
      intro j hj
      obtain ⟨hj1, hj2⟩ := hm j hj
      rw [bufGet_set _ _ _ _ h0] at hj1
      by_cases hji : j = i
      · simp [hji, hb] at hj1
      · simp only [hji, if_false] at hj1
        exact ⟨hj1, by simp [hji, hj2]⟩

/-- Claim C17. Dedup buffer invariant.  If every entry of `tempBuffer` is `false` before a
`query` call that returns, every entry is `false` after it; the buffer is not shorter
than before and has at least `elements.size()` entries; and the call changes nothing
else in the tree. -/
theorem query_leaves_tempBuffer_clear (fuel : Nat) (q q' : Quadtree)
    (qx1 qy1 qx2 qy2 omitElementIndex : Int) (out : List QuadElement)
    (hclear : ∀ b ∈ q.tempBuffer, b = false)
    (h : query fuel q qx1 qy1 qx2 qy2 omitElementIndex = .ok (out, q')) :
    (∀ b ∈ q'.tempBuffer, b = false) ∧ q.tempBuffer.length ≤ q'.tempBuffer.length ∧
      q.elements.size ≤ (q'.tempBuffer.length : Int) ∧
      q' = { q with tempBuffer := q'.tempBuffer } := by
  obtain ⟨st, buf, hc, hm, _, hq'⟩ := query_inv h
  subst hq'
  unfold queryCollect at hc
  cases hl : findLeaves fuel q 0 0 q.rootMx q.rootMy q.rootHx q.rootHy qx1 qy1 qx2 qy2 with
  | error f => rw [hl] at hc; cases hc
  | ok leaves =>
    rw [hl] at hc
    simp only at hc
    have hinit : ∀ j,
        bufGet (if (q.tempBuffer.length : Int) < q.elements.size then
          List.replicate q.elements.size.toNat false else q.tempBuffer) j = some true →
        j ∈ ([] : List Int) := by
      intro j hj
      have hmem := mem_of_bufGet hj
      split at hmem
      · simp at hmem
      · exact absurd (hclear true hmem) (by simp)
    obtain ⟨hlen, hmarks⟩ := queryLeaves_marks fuel q qx1 qy1 qx2 qy2 omitElementIndex leaves _ st
      hinit hc
    obtain ⟨hlen', hleft⟩ := clearMarks_inv _ _ _ hm
    have hlenfinal : buf.length = (if (q.tempBuffer.length : Int) < q.elements.size then
        List.replicate q.elements.size.toNat false else q.tempBuffer).length := by
      rw [hlen', hlen]
    refine ⟨?_, ?_, ?_, rfl⟩
    · intro b hb
      cases b with
      | false => rfl
      | true =>
        obtain ⟨j, hj⟩ := bufGet_mem hb
        obtain ⟨hj1, hj2⟩ := hleft j hj
        exact absurd (hmarks j hj1) hj2
    · show q.tempBuffer.length ≤ buf.length
      rw [hlenfinal]
      split
      · rename_i hlt
        simp only [List.length_replicate]
        omega
      · exact le_refl _
    · show q.elements.size ≤ (buf.length : Int)
      rw [hlenfinal]
      split
      · simp only [List.length_replicate]
        have : 0 ≤ q.elements.size := by simp [FreeList.size]
        omega
      · rename_i hge
        omega

/-- A witness of `query_leaves_tempBuffer_clear`: a query over all of `sampleTree`
started with an empty `tempBuffer`, which is grown to two entries, marked for both
elements, and unmarked. -/
theorem query_leaves_tempBuffer_clear_witness :
    (∀ b ∈ sampleTree.tempBuffer, b = false) ∧
      ({ sampleTree with tempBuffer := [] } : Quadtree).tempBuffer.length ≤
        sampleTree.tempBuffer.length ∧
      ({ sampleTree with tempBuffer := [] } : Quadtree).elements.size ≤
        (sampleTree.tempBuffer.length : Int) ∧
      sampleTree =
        { ({ sampleTree with tempBuffer := [] } : Quadtree) with
          tempBuffer := sampleTree.tempBuffer } :=
  query_leaves_tempBuffer_clear 10 { sampleTree with tempBuffer := [] } sampleTree 0 0 100 100 (-1)
    [⟨7, 40, 40, 60, 60⟩, ⟨8, 10, 10, 20, 20⟩] (by decide) (by decide)

/-! ## Cleanup -/

/-- Claim C18. Cleanup on a leaf root is a no-op.  When the root node is stored with
`count ≠ -1`, `cleanup()` returns the tree unchanged: node arena, element-node arena,
element arena and `freeNodeIndex` included. -/
theorem cleanup_leaf_root_noop (fuel : Nat) (q : Quadtree) (root : QuadNode)
    (hroot : q.nodes.get 0 = .ok root) (hleaf : root.count ≠ -1) : cleanup fuel q = .ok q := by
  unfold cleanup
  rw [hroot]
  simp only [hleaf, if_false]
  cases fuel <;> rfl

/-- A witness of `cleanup_leaf_root_noop`: `sampleFullLeaf`, whose root is a leaf with
two elements. -/
theorem cleanup_leaf_root_noop_witness : cleanup 10 sampleFullLeaf = .ok sampleFullLeaf :=
  cleanup_leaf_root_noop 10 sampleFullLeaf ⟨1, 2⟩ rfl (by decide)

/-- The loop of `cleanup` keeps every node stored and keeps its `count`: its only write
into the arena assigns a `firstChildIndex`. -/
theorem cleanupLoop_counts : ∀ (fuel : Nat) (q q' : Quadtree) (toProcess : List QuadNode),
    cleanupLoop fuel q toProcess = .ok q' →
    ∀ n node, q.nodes.get n = .ok node →
      ∃ node', q'.nodes.get n = .ok node' ∧ node'.count = node.count := by
  intro fuel
  induction fuel with
  | zero =>
    intro q q' toProcess h n node hg
    cases toProcess with
    | nil => simp only [cleanupLoop, Except.ok.injEq] at h; subst h; exact ⟨node, hg, rfl⟩
    | cons x rest => simp [cleanupLoop] at h
  | succ fuel ih =>
    intro q q' toProcess h n node hg
    cases toProcess with
    | nil => simp only [cleanupLoop, Except.ok.injEq] at h; subst h; exact ⟨node, hg, rfl⟩
    | cons x rest =>
      rw [cleanupLoop] at h
      cases hs : cleanupScan q.nodes x.firstChildIndex [0, 1, 2, 3] 0 rest with
      | error f => rw [hs] at h; cases h
      | ok r =>
        obtain ⟨num, stack⟩ := r
        rw [hs] at h
        simp only at h
        split at h
        · cases hm : q.nodes.modify x.firstChildIndex
              (fun n => { n with firstChildIndex := q.freeNodeIndex }) with
          | error f => rw [hm] at h; cases h
          | ok nodes =>
            rw [hm] at h
            simp only at h
            have hstep : ∃ node1, nodes.get n = .ok node1 ∧ node1.count = node.count := by
              by_cases hn : n = x.firstChildIndex
              · subst hn
                exact ⟨_, FreeList.get_modify_self hg hm, rfl⟩
              · exact ⟨node, (FreeList.get_modify_ne hm hn).trans hg, rfl⟩
            obtain ⟨node1, hg1, hc1⟩ := hstep
            obtain ⟨node', hg', hc'⟩ := ih _ q' stack h n node1 hg1
            exact ⟨node', hg', hc'.trans hc1⟩
        · exact ih q q' stack h n node hg

/-- Claim C11. Cleanup merge.  Whenever `cleanup()` returns, every node of the arena is
still stored with the `count` it had: a branch whose four children are empty leaves
keeps `count = -1`, because the conversion to an empty leaf is applied to a local
copy of the node. -/
theorem cleanup_keeps_every_count (fuel : Nat) (q q' : Quadtree)
    (h : cleanup fuel q = .ok q') :
    ∀ n node, q.nodes.get n = .ok node →
      ∃ node', q'.nodes.get n = .ok node' ∧ node'.count = node.count := by
  unfold cleanup at h
  cases hr : q.nodes.get 0 with
  | error f => rw [hr] at h; cases h
  | ok root =>
    rw [hr] at h
    exact cleanupLoop_counts fuel q q' _ h

/-- A witness of `cleanup_keeps_every_count`: on `sampleEmptied`, whose root is a branch
with four empty leaves, `cleanup()` only sets `freeNodeIndex` to the block 1 (and
stores the previous `freeNodeIndex`, `-1`, in node 1); the root stays a branch. -/
theorem cleanup_keeps_every_count_witness :
    cleanup 10 sampleEmptied = .ok { sampleEmptied with freeNodeIndex := 1 } ∧
      ∀ n node, sampleEmptied.nodes.get n = .ok node →
        ∃ node', ({ sampleEmptied with freeNodeIndex := 1 } : Quadtree).nodes.get n = .ok node' ∧
          node'.count = node.count :=
  ⟨by decide, cleanup_keeps_every_count 10 sampleEmptied { sampleEmptied with freeNodeIndex := 1 }
    (by decide)⟩

/-- Claim C20. Cleanup preserves query results.  On `sampleEmptied` (root a branch with
four empty leaves, no element) the query `(0, 0, 10, 10)` returns the empty list.
Two `cleanup()` calls leave the root a branch and store the block index 1 in
`firstChildIndex` of the leaf 1, which the walk still reaches; the same query then
follows that index into the element-node arena and reads outside it. -/
theorem two_cleanups_break_query :
    query 10 sampleEmptied 0 0 10 10 (-1) = .ok ([], sampleEmptied) ∧
    cleanupTimes 10 2 sampleEmptied = .ok sampleEmptiedTwice ∧
    findLeaves 10 sampleEmptiedTwice 0 0 50 50 50 50 0 0 10 10 = .ok [⟨1, 1, 25, 25, 25, 25⟩] ∧
    sampleEmptied.nodes.get 1 = .ok ⟨-1, 0⟩ ∧
    sampleEmptiedTwice.nodes.get 1 = .ok ⟨1, 0⟩ ∧
    query 10 sampleEmptiedTwice 0 0 10 10 (-1) = .error .outOfRange :=
  ⟨by decide, by decide, by decide, by decide, by decide, by decide⟩

/-! ## Insertion into a leaf that does not subdivide -/

theorem FreeList.modify_frame {T : Type} {fl fl' : FreeList T} {n : Int} {f : T → T}
    (h : fl.modify n f = .ok fl') : fl'.size = fl.size ∧ fl'.first_free = fl.first_free := by
  obtain ⟨v, _, rfl⟩ := FreeList.modify_inv h
  simp [FreeList.size]

/-- On an arena that satisfies its representation invariant `insert` returns; the slot
it returns was not live, holds the value afterwards, and no other slot changes. -/
theorem FreeList.insert_of_WF {T : Type} {fl : FreeList T} {chain : List Int} (v : T)
    (hwf : fl.WF chain) :
    ∃ c fl', fl.insert v = .ok (c, fl') ∧ (∀ w, fl.get c ≠ .ok w) ∧ fl'.get c = .ok v ∧
      ∀ j, j ≠ c → fl'.slot j = fl.slot j := by
  have hins : ∃ c fl', fl.insert v = .ok (c, fl') ∧ fl'.get c = .ok v ∧
      ∀ j, j ≠ c → fl'.slot j = fl.slot j := by
    cases chain with
    | nil =>
      obtain ⟨fl', h1, _, _, h2, h3⟩ := FreeList.WF_insert_nil v hwf
      exact ⟨_, fl', h1, h2, h3⟩
    | cons c cs =>
      obtain ⟨fl', h1, _, _, h2, h3⟩ := FreeList.WF_insert v hwf
      exact ⟨_, fl', h1, h2, h3⟩
  obtain ⟨c, fl', hi, hg, hother⟩ := hins
  refine ⟨c, fl', hi, ?_, hg, hother⟩
  intro w hw
  exact (FreeList.insert_inv hi).2.1 w (FreeList.get_eq_ok_iff.mp hw)

/-- The non-subdividing branch of `leafInsert` returns and prepends one cell. -/
theorem leafInsert_plain (fuel : Nat) (q : Quadtree)
    (nodeIndex depth mx my hx hy elementIndex : Int) (node : QuadNode) (chain : List Int)
    (hnode : q.nodes.get nodeIndex = .ok node)
    (hcase : node.count ≠ q.maxElements ∨ q.maxDepth ≤ depth)
    (hwf : q.elementNodes.WF chain) :
    ∃ c q', leafInsert (fuel + 1) q nodeIndex depth mx my hx hy elementIndex = .ok q' ∧
      (∀ w, q.elementNodes.get c ≠ .ok w) ∧
      q'.elementNodes.get c = .ok ⟨node.firstChildIndex, elementIndex⟩ ∧
      (∀ m, m ≠ c → q'.elementNodes.slot m = q.elementNodes.slot m) ∧
      q'.nodes.get nodeIndex = .ok ⟨c, node.count + 1⟩ ∧
      (∀ m, m ≠ nodeIndex → q'.nodes.slot m = q.nodes.slot m) ∧
      q'.nodes.size = q.nodes.size ∧ q'.nodes.first_free = q.nodes.first_free ∧
      q'.elements = q.elements ∧ SameOutside q q' := by
  obtain ⟨c, en', hi, hfresh, hgc, hother⟩ :=
    FreeList.insert_of_WF (⟨node.firstChildIndex, elementIndex⟩ : QuadElementNode) hwf
  obtain ⟨nodes1, hm1⟩ : ∃ n1, q.nodes.modify nodeIndex
      (fun n => { n with firstChildIndex := c }) = .ok n1 := ⟨_, FreeList.modify_of_get _ hnode⟩
  have hg1 := FreeList.get_modify_self hnode hm1
  obtain ⟨nodes2, hm2⟩ : ∃ n2, nodes1.modify nodeIndex
      (fun n => { n with count := n.count + 1 }) = .ok n2 := ⟨_, FreeList.modify_of_get _ hg1⟩
  have hg2 := FreeList.get_modify_self hg1 hm2
  have hif : ¬ (node.count = q.maxElements ∧ depth < q.maxDepth) := by
    rintro ⟨h1, h2⟩
    rcases hcase with h | h
    · exact h h1
    · omega
  have hrun : leafInsert (fuel + 1) q nodeIndex depth mx my hx hy elementIndex =
      .ok { q with nodes := nodes2, elementNodes := en' } := by
    rw [leafInsert, hnode]
    simp only [hi, hm1, hif, if_false, hm2]
  refine ⟨c, _, hrun, hfresh, hgc, hother, hg2, ?_, ?_, ?_, rfl, ?_⟩
  · intro m hm
    have h2 := FreeList.slot_modify hg1 hm2 m
    have h1 := FreeList.slot_modify hnode hm1 m
    simp only [hm, if_false] at h1 h2
    exact h2.trans h1
  · exact (FreeList.modify_frame hm2).1.trans (FreeList.modify_frame hm1).1
  · exact (FreeList.modify_frame hm2).2.trans (FreeList.modify_frame hm1).2
  · exact SameOutside.arenas q nodes2 en'

/-- Claim C13. Non-subdividing leaf insert.  For a stored node with
`count ≠ maxElements` or `depth ≥ maxDepth` (and an element-node arena that satisfies
its representation invariant), `leafInsert` returns; it takes one cell `c` that was
not live, stores `(old head, elementIndex)` in it, makes `c` the head of the node and
adds 1 to its `count`, so that a link list `l` of the node becomes
`(c, elementIndex) :: l`; no node is allocated (size and free chain head of the node
arena are unchanged), and every other node slot, every other cell slot and the
element arena are unchanged. -/
theorem leafInsert_prepends_one_cell (fuel : Nat) (q : Quadtree)
    (nodeIndex depth mx my hx hy elementIndex : Int) (node : QuadNode) (chain : List Int)
    (hnode : q.nodes.get nodeIndex = .ok node)
    (hcase : node.count ≠ q.maxElements ∨ q.maxDepth ≤ depth)
    (hwf : q.elementNodes.WF chain) :
    ∃ c q', leafInsert (fuel + 1) q nodeIndex depth mx my hx hy elementIndex = .ok q' ∧
      (∀ w, q.elementNodes.get c ≠ .ok w) ∧
      q'.elementNodes.get c = .ok ⟨node.firstChildIndex, elementIndex⟩ ∧
      q'.nodes.get nodeIndex = .ok ⟨c, node.count + 1⟩ ∧
      (∀ l, isList q.elementNodes node.firstChildIndex l = true →
        isList q'.elementNodes c ((c, elementIndex) :: l) = true) ∧
      (∀ m, m ≠ c → q'.elementNodes.slot m = q.elementNodes.slot m) ∧
      (∀ m, m ≠ nodeIndex → q'.nodes.slot m = q.nodes.slot m) ∧
      q'.nodes.size = q.nodes.size ∧ q'.nodes.first_free = q.nodes.first_free ∧
      q'.elements = q.elements := by
  obtain ⟨c, q', hrun, hfresh, hgc, hother, hg2, hnodes, hsize, hff, hel, _⟩ :=
    leafInsert_plain fuel q nodeIndex depth mx my hx hy elementIndex node chain hnode hcase hwf
  refine ⟨c, q', hrun, hfresh, hgc, hg2, ?_, hother, hnodes, hsize, hff, hel⟩
  intro l hl
  rw [isList_cons]
  refine ⟨rfl, _, hgc, rfl, ?_⟩
  rw [isList_congr q.elementNodes q'.elementNodes l node.firstChildIndex]
  · exact hl
  · intro d hd
    obtain ⟨cell, hcell⟩ := isList_get l _ hl d hd
    have hne : d ≠ c := by
      rintro rfl
      exact hfresh cell hcell
    unfold FreeList.get
    rw [hother d hne]

/-- A witness of `leafInsert_prepends_one_cell`: element 1 is inserted into the leaf 4
of `sampleTree`, which links one element (cell 3) with `maxElements = 2`. -/
theorem leafInsert_prepends_one_cell_witness :
    sampleTree.nodes.get 4 = .ok ⟨3, 1⟩ ∧ sampleTree.elementNodes.WF [] ∧
    ∃ c q', leafInsert 1 sampleTree 4 1 75 75 25 25 1 = .ok q' ∧
      (∀ w, sampleTree.elementNodes.get c ≠ .ok w) ∧
      q'.elementNodes.get c = .ok ⟨3, 1⟩ ∧
      q'.nodes.get 4 = .ok ⟨c, 1 + 1⟩ ∧
      (∀ l, isList sampleTree.elementNodes 3 l = true →
        isList q'.elementNodes c ((c, 1) :: l) = true) ∧
      (∀ m, m ≠ c → q'.elementNodes.slot m = sampleTree.elementNodes.slot m) ∧
      (∀ m, m ≠ 4 → q'.nodes.slot m = sampleTree.nodes.slot m) ∧
      q'.nodes.size = sampleTree.nodes.size ∧
      q'.nodes.first_free = sampleTree.nodes.first_free ∧
      q'.elements = sampleTree.elements :=
  ⟨rfl, ⟨by decide, List.nodup_nil⟩,
    leafInsert_prepends_one_cell 0 sampleTree 4 1 75 75 25 25 1 ⟨3, 1⟩ [] rfl
      (Or.inl (by decide)) ⟨by decide, List.nodup_nil⟩⟩

/-- Claim C12. Depth cap.  The guard holds: at `depth ≥ maxDepth` `leafInsert` returns
and allocates no node, whatever the `count` of the leaf.  But `insert` does not
always terminate: on a tree whose root is a leaf with `count = maxElements` and
with `0 < maxDepth` it returns for no amount of fuel, because the subdividing
branch of `leafInsert` is re-entered on the same node without end. -/
theorem insert_into_full_leaf_never_terminates (q : Quadtree) (node : QuadNode)
    (id x1 y1 x2 y2 : Int)
    (hnode : q.nodes.get 0 = .ok node) (hfull : node.count = q.maxElements)
    (hleaf : node.count ≠ -1) (hdepth : 0 < q.maxDepth) :
    (∀ fuel r, insert fuel q id x1 y1 x2 y2 ≠ .ok r) ∧
    (∀ (fuel : Nat) (nodeIndex depth mx my hx hy elementIndex : Int) (leaf : QuadNode)
        (chain : List Int),
      q.nodes.get nodeIndex = .ok leaf → q.maxDepth ≤ depth → q.elementNodes.WF chain →
      ∃ q', leafInsert (fuel + 1) q nodeIndex depth mx my hx hy elementIndex = .ok q' ∧
        q'.nodes.size = q.nodes.size) := by
  refine ⟨insert_full_root_fails q node id x1 y1 x2 y2 hnode hfull hleaf hdepth, ?_⟩
  intro fuel nodeIndex depth mx my hx hy elementIndex leaf chain hl hd hwf
  obtain ⟨c, q', hrun, _, _, _, _, _, hsize, _⟩ :=
    leafInsert_plain fuel q nodeIndex depth mx my hx hy elementIndex leaf chain hl (Or.inr hd) hwf
  exact ⟨q', hrun, hsize⟩

/-- A witness of `insert_into_full_leaf_never_terminates`: with `maxElements = 2` and
`maxDepth = 4`, two inserts of the point `(10,10,10,10)` into a tree whose root is an
empty leaf give `coincidentTwo`, and the third insert of the same point never
returns. -/
theorem insert_into_full_leaf_never_terminates_witness :
    insert 8 scenarioLeafRoot 0 10 10 10 10 = .ok (0, coincidentOne) ∧
    insert 8 coincidentOne 1 10 10 10 10 = .ok (1, coincidentTwo) ∧
    coincidentTwo.nodes.get 0 = .ok ⟨1, 2⟩ ∧
    ((∀ fuel r, insert fuel coincidentTwo 2 10 10 10 10 ≠ .ok r) ∧
    (∀ (fuel : Nat) (nodeIndex depth mx my hx hy elementIndex : Int) (leaf : QuadNode)
        (chain : List Int),
      coincidentTwo.nodes.get nodeIndex = .ok leaf → coincidentTwo.maxDepth ≤ depth →
      coincidentTwo.elementNodes.WF chain →
      ∃ q', leafInsert (fuel + 1) coincidentTwo nodeIndex depth mx my hx hy elementIndex =
          .ok q' ∧
        q'.nodes.size = coincidentTwo.nodes.size)) :=
  ⟨by decide, by decide, rfl,
    insert_into_full_leaf_never_terminates coincidentTwo ⟨1, 2⟩ 2 10 10 10 10 rfl rfl
      (by decide) (by decide)⟩

end QuadtreeModel
